import Mathlib

/-!
# sitebegone: the managed section of a hosts file

A shallow embedding of `sitebegone.go`.  A file is the list of its bytes, a Go
string is the list of its bytes, and a byte is a natural number.  The operating
system is idealised: opening, reading and writing a file never fail.  What
remains fallible is what the program itself decides: `log.Fatal`, `os.Exit(0)`,
a seek before the beginning of the file, a read at the end of it, and an index
out of range.

`getHosts` and `sectionFound` read the file through a `bufio.Scanner` with its
default buffer.  Its `Scan` returns false at a line that does not fit the
buffer of `bufio.MaxScanTokenSize` bytes, and neither function reads
`scanner.Err()`: for them the file ends before such a line.

The hostname round trip `url.Parse(s)` followed by `String()` is library code;
every function that needs it takes it as the parameter `norm`, which returns
`none` where `url.Parse` reports an error.
-/

namespace Sitebegone

/-- One byte of a file or of a Go string. -/
abbrev Byte := Nat

/-- The bytes of an ASCII string literal. -/
def bytes (s : String) : List Byte := s.toList.map Char.toNat

/-- The constant `sectionBegin`. -/
def sectionBegin : List Byte := bytes "# Added by sitebegone"

/-- The constant `sectionEnd`. -/
def sectionEnd : List Byte := bytes "# End of sitebegone section"

/-- The text of `net.IPv4(127, 0, 0, 1)` under `%s`, also the literal that `getHosts` looks for. -/
def addr : List Byte := bytes "127.0.0.1"

/-- The ways a run stops before `main` returns. -/
inductive Stop where
  /-- Stopped by `os.Exit(0)` after the message "already blocked". -/
  | exit0
  /-- Stopped by `log.Fatal`: "sitebegone: Section found with no end." -/
  | sectionNoEnd
  /-- Stopped by `log.Fatal`: "sitebegone: Section end found with no start." -/
  | sectionNoStart
  /-- Stopped by `log.Fatal` on the error of `url.Parse`. -/
  | urlParse
  /-- Stopped by `log.Fatal` on a `Seek` to a negative position. -/
  | seek
  /-- Stopped by `log.Fatal` on a `Read` at or after the end of the file. -/
  | readEOF
  /-- Stopped by a runtime panic: index or slice bounds out of range. -/
  | outOfRange
  /-- The iteration budget of a loop of the model ran out. -/
  | fuel
  deriving DecidableEq, Repr

/-! ## Library functions -/

/-- Go's `strings.Contains(s, sub)`. -/
def stringsContains : List Byte → List Byte → Bool
  | [], sub => sub.isEmpty
  | c :: s, sub => sub.isPrefixOf (c :: s) || stringsContains s sub

/-- Go's `strings.Split(s, sep)` for a separator of one byte. -/
def stringsSplit (sep : Byte) : List Byte → List (List Byte)
  | [] => [[]]
  | c :: s =>
    if c = sep then [] :: stringsSplit sep s
    else
      match stringsSplit sep s with
      | [] => [[c]]
      | field :: fields => (c :: field) :: fields

/-- The helper `dropCR` of `bufio.ScanLines`: one trailing carriage return is removed. -/
def dropCR (data : List Byte) : List Byte :=
  if data.getLast? = some 13 then data.dropLast else data

/-- The constant `bufio.MaxScanTokenSize`: the size to which the buffer of a `bufio.Scanner`
grows when the program gave it no buffer of its own. -/
def maxScanTokenSize : Nat := 64 * 1024

/-- The tokens of `bufio.Scanner` with the default split function `ScanLines`; `cur` is the
part of the current line that is in the buffer.  A line ends at a line feed, and the last line
at the end of the file.  When the buffer is full and holds no line feed, `Scan` sets the error
`ErrTooLong` and returns false: there is no token for that line and none after it. -/
def scanLinesFrom : List Byte → List Byte → List (List Byte)
  | [], cur => if cur = [] then [] else [dropCR cur]
  | c :: rest, cur =>
    if c = 10 then dropCR cur :: scanLinesFrom rest []
    else if maxScanTokenSize ≤ cur.length + 1 then []
    else scanLinesFrom rest (cur ++ [c])

/-- The successive values of `scanner.Text()` in the loop `for scanner.Scan()` over a whole
file; the loop ends when `Scan` returns false, and `scanner.Err()` is not read after it. -/
def scanLines (file : List Byte) : List (List Byte) := scanLinesFrom file []

/-! ## The parser -/

/-- The loop of `getHosts` over the lines still to be scanned. -/
def getHostsLoop (norm : List Byte → Option (List Byte)) :
    List (List Byte) → Bool → List (List Byte) → Except Stop (List (List Byte))
  | [], _, hosts => .ok hosts
  | text :: rest, sectionStartFound, hosts =>
    if text ≠ sectionBegin ∧ text = sectionEnd then .ok hosts
    else
      let sectionStartFound := if text = sectionBegin then true else sectionStartFound
      if sectionStartFound = true ∧ stringsContains text addr = true then
        match (stringsSplit 9 text).get? 1 with
        | none => .error .outOfRange
        | some field =>
          match norm field with
          | none => .error .urlParse
          | some name => getHostsLoop norm rest sectionStartFound (hosts ++ [name])
      else getHostsLoop norm rest sectionStartFound hosts

/-- The function `getHosts`: the hosts currently blocked in the file. -/
def getHosts (norm : List Byte → Option (List Byte)) (file : List Byte) :
    Except Stop (List (List Byte)) :=
  getHostsLoop norm (scanLines file) false []

/-- The loop of `sectionFound`: the two flags after the lines given. -/
def sectionFoundLoop : List (List Byte) → Bool → Bool → Bool × Bool
  | [], sectionStartFound, sectionEndFound => (sectionStartFound, sectionEndFound)
  | text :: rest, sectionStartFound, sectionEndFound =>
    if text = sectionBegin then sectionFoundLoop rest true sectionEndFound
    else if text = sectionEnd then sectionFoundLoop rest sectionStartFound true
    else sectionFoundLoop rest sectionStartFound sectionEndFound

/-- The function `sectionFound`. -/
def sectionFound (file : List Byte) : Except Stop Bool :=
  match sectionFoundLoop (scanLines file) false false with
  | (sectionStartFound, sectionEndFound) =>
    if sectionStartFound && !sectionEndFound then .error .sectionNoEnd
    else if !sectionStartFound && sectionEndFound then .error .sectionNoStart
    else .ok (sectionStartFound && sectionEndFound)

/-! ## The controller -/

/-- The name of the second entry that `add` records: `fmt.Sprintf("www.%s", host)`. -/
def www (host : List Byte) : List Byte := bytes "www." ++ host

/-- The loop of `add` over the hosts still to be compared with `host`. -/
def addLoop (host : List Byte) : List (List Byte) → Bool
  | [] => false
  | e :: rest => if e = host then true else addLoop host rest

/-- The method `add` on the field `hosts`. -/
def add (hosts : List (List Byte)) (host : List Byte) : Except Stop (List (List Byte)) :=
  if addLoop host hosts = true then .error .exit0
  else .ok (hosts ++ [host, www host])

/-! ## The writer -/

/-- The line `fmt.Sprintf("%s\t%s\n", bh.addr, e)`. -/
def entryLine (e : List Byte) : List Byte := addr ++ [9] ++ e ++ [10]

/-- The line `fmt.Sprintf("%s\t%s", bh.addr, e)`. -/
def entryLast (e : List Byte) : List Byte := addr ++ [9] ++ e

/-- The loop of `newSection` over the hosts: each write lands at the end of the file (`O_APPEND`). -/
def newSectionLoop : List (List Byte) → List Byte → List Byte
  | [], file => file
  | e :: rest, file => newSectionLoop rest (file ++ entryLine e)

/-- The method `newSection`: the file after the three kinds of write. -/
def newSection (file : List Byte) (hosts : List (List Byte)) : List Byte :=
  let file := file ++ ([10] ++ sectionBegin ++ [10, 10])
  let file := newSectionLoop hosts file
  file ++ ([10] ++ sectionEnd ++ [10, 10])

/-- The call `file.Seek(cursor, io.SeekEnd)`: the new position, or nothing when it would be negative. -/
def seekEnd (file : List Byte) (cursor : Int) : Option Nat :=
  if 0 ≤ (file.length : Int) + cursor then some ((file.length : Int) + cursor).toNat else none

/-- The loop of `findSection`, with a budget of iterations. -/
def findSectionLoop (file : List Byte) (filesize : Int) :
    Nat → List Byte → Int → Except Stop (List Byte × Int)
  | 0, _, _ => .error .fuel
  | fuel + 1, line, cursor =>
    let cursor := cursor - 1
    match seekEnd file cursor with
    | none => .error .seek
    | some pos =>
      match file.get? pos with
      | none => .error .readEOF
      | some char =>
        if cursor ≠ -1 ∧ (char = 10 ∨ char = 13) then .ok (line, cursor)
        else
          let line := char :: line
          if cursor = -filesize then .ok (line, cursor)
          else findSectionLoop file filesize fuel line cursor

/-- The function `findSection`: the line that ends before the offset `start`, and the cursor. -/
def findSection (file : List Byte) (start : Int) : Except Stop (List Byte × Int) :=
  findSectionLoop file file.length (file.length + 1) [] start

/-- The first loop of `appendToSection`: `findSection` is called until the line contains `sectionEnd`. -/
def searchLoop (file : List Byte) : Nat → Int → Except Stop (List Byte × Int)
  | 0, _ => .error .fuel
  | fuel + 1, cursor =>
    match findSection file cursor with
    | .error e => .error e
    | .ok (line, cursor) =>
      if stringsContains line sectionEnd = true then .ok (line, cursor)
      else searchLoop file fuel cursor

/-- An open file: its content and the position of the next read or write. -/
structure Handle where
  /-- The bytes of the file. -/
  data : List Byte
  /-- The offset of the next write. -/
  pos : Nat
  deriving DecidableEq, Repr

/-- The call `f.Write(b)` on a file opened without `O_APPEND`: the bytes from `pos` on are
overwritten, the file grows where `b` reaches beyond its end. -/
def Handle.write (f : Handle) (b : List Byte) : Handle :=
  { data := (f.data ++ List.replicate (f.pos - f.data.length) 0).take f.pos ++ b
      ++ f.data.drop (f.pos + b.length)
    pos := f.pos + b.length }

/-- The loop of `appendToSection` over `newHosts`, `i` being the index of `e`. -/
def appendLoop (len : Nat) : List (List Byte) → Nat → Handle → Handle
  | [], _, f => f
  | e :: rest, i, f =>
    let entry := if i = len - 1 then entryLast e else entryLine e
    appendLoop len rest (i + 1) (f.write entry)

/-- The method `appendToSection`. -/
def appendToSection (file : List Byte) (hosts : List (List Byte)) : Except Stop (List Byte) :=
  match searchLoop file (file.length + 1) 0 with
  | .error e => .error e
  | .ok (_, cursor) =>
    match seekEnd file (cursor - 1) with
    | none => .error .seek
    | some from1 =>
      let remainderOfFile := file.drop from1
      match seekEnd file cursor with
      | none => .error .seek
      | some pos =>
        if hosts.length < 2 then .error .outOfRange
        else
          let newHosts := hosts.drop (hosts.length - 2)
          let f := appendLoop newHosts.length newHosts 0 { data := file, pos := pos }
          .ok (f.write remainderOfFile).data

/-- The method `write`. -/
def write (file : List Byte) (hosts : List (List Byte)) : Except Stop (List Byte) :=
  match sectionFound file with
  | .error e => .error e
  | .ok true => appendToSection file hosts
  | .ok false => .ok (newSection file hosts)

/-- How a run of the program ended, and the file it left. -/
structure Final where
  /-- Nothing when `main` returned, otherwise the way the run stopped. -/
  stop : Option Stop
  /-- The content of the hosts file after the run. -/
  file : List Byte
  deriving DecidableEq, Repr

/-- The function `main` with the host `os.Args[1]`: `newBlockedHosts`, `add`, `write`. -/
def main (norm : List Byte → Option (List Byte)) (file : List Byte) (host : List Byte) : Final :=
  match getHosts norm file with
  | .error e => { stop := some e, file := file }
  | .ok hosts =>
    match add hosts host with
    | .error e => { stop := some e, file := file }
    | .ok hosts =>
      match write file hosts with
      | .error e => { stop := some e, file := file }
      | .ok file => { stop := none, file := file }

/-- The bytes that `url.Parse` reads as part of a bare path and `String` prints back as they
are: ASCII letters, digits, `-`, `.`, `_` and `~`. -/
def unreserved (c : Byte) : Bool :=
  (48 ≤ c && c ≤ 57) || (65 ≤ c && c ≤ 90) || (97 ≤ c && c ≤ 122)
    || c = 45 || c = 46 || c = 95 || c = 126

/-- The round trip `url.Parse(s)` then `String()` on the names it is evaluated at in the
examples below: a name of unreserved bytes comes back unchanged.  Other names are outside what
this function describes, and it is never applied to one. -/
def plainName (s : List Byte) : Option (List Byte) :=
  if s.all unreserved then some s else none

/-! ## Properties used in the statements -/

/-- Equality of two results is decidable when it is for errors and for values. -/
instance instDecidableEqExcept {ε α : Type} [DecidableEq ε] [DecidableEq α] :
    DecidableEq (Except ε α)
  | .ok a, .ok b =>
    if h : a = b then isTrue (by rw [h]) else isFalse (fun hab => h (by cases hab; rfl))
  | .error a, .error b =>
    if h : a = b then isTrue (by rw [h]) else isFalse (fun hab => h (by cases hab; rfl))
  | .ok _, .error _ => isFalse (fun hab => by cases hab)
  | .error _, .ok _ => isFalse (fun hab => by cases hab)

/-- The file has a line whose text is `m`, as `bufio.Scanner` reads it. -/
def hasLine (file m : List Byte) : Prop := m ∈ scanLines file

instance instDecidableHasLine (file m : List Byte) : Decidable (hasLine file m) :=
  inferInstanceAs (Decidable (m ∈ scanLines file))

/-- Reference definition of the lines of a file, whatever their length: a line ends at a line
feed, the last line at the end of the file when bytes follow the last line feed, and the text
of a line is its bytes without the line feed and without one carriage return before it; `cur`
is the part of the current line already passed. -/
def specLinesFrom : List Byte → List Byte → List (List Byte)
  | [], cur => if cur = [] then [] else [dropCR cur]
  | c :: rest, cur =>
    if c = 10 then dropCR cur :: specLinesFrom rest []
    else specLinesFrom rest (cur ++ [c])

/-- Reference definition: the texts of the lines of a file, in the order of the file. -/
def specLines (file : List Byte) : List (List Byte) := specLinesFrom file []

/-- The file has a line whose text is `m`. -/
def specHasLine (file m : List Byte) : Prop := m ∈ specLines file

instance instDecidableSpecHasLine (file m : List Byte) : Decidable (specHasLine file m) :=
  inferInstanceAs (Decidable (m ∈ specLines file))

/-- Every line of the file fits the buffer of the scanner: each stretch of bytes between two
line feeds, before the first and after the last, is shorter than `maxScanTokenSize`. -/
def ShortLines (file : List Byte) : Prop :=
  ∀ l ∈ stringsSplit 10 file, l.length < maxScanTokenSize

instance instDecidableShortLines (file : List Byte) : Decidable (ShortLines file) :=
  inferInstanceAs (Decidable (∀ l ∈ stringsSplit 10 file, l.length < maxScanTokenSize))

/-- A line that does not fit the buffer of the scanner: `maxScanTokenSize` bytes `x`, without
a line feed. -/
def longLine : List Byte := List.replicate maxScanTokenSize 120

/-- A name that a record line carries unharmed: it has no tab, no line feed and no carriage
return, and the hostname round trip gives it back as it is. -/
def Plain (norm : List Byte → Option (List Byte)) (e : List Byte) : Prop :=
  9 ∉ e ∧ 10 ∉ e ∧ 13 ∉ e ∧ norm e = some e

instance instDecidablePlain (norm : List Byte → Option (List Byte)) (e : List Byte) :
    Decidable (Plain norm e) :=
  inferInstanceAs (Decidable (9 ∉ e ∧ 10 ∉ e ∧ 13 ∉ e ∧ norm e = some e))

/-- The bytes at which the backward scan of `findSection` ends a line. -/
def isTerm (c : Byte) : Prop := c = 10 ∨ c = 13

instance instDecidableIsTerm (c : Byte) : Decidable (isTerm c) :=
  inferInstanceAs (Decidable (c = 10 ∨ c = 13))

/-- What may follow the line on which the backward search is to stop: nothing, one last byte,
or a line terminator and then bytes without the text of the end marker. -/
def Passable (R : List Byte) : Prop :=
  R.length ≤ 1 ∨ ∃ t U, R = t :: U ∧ isTerm t ∧ ¬ sectionEnd <:+: U

/-- The end of a line that another line follows: a line feed, or a carriage return and a line
feed. -/
def isEol (e : List Byte) : Prop := e = [10] ∨ e = [13, 10]

instance instDecidableIsEol (e : List Byte) : Decidable (isEol e) :=
  inferInstanceAs (Decidable (e = [10] ∨ e = [13, 10]))

/-- The bytes before the first byte of a line: none, or bytes the last of which is a line
feed. -/
def LineStart (p : List Byte) : Prop := p = [] ∨ p.getLast? = some 10

instance instDecidableLineStart (p : List Byte) : Decidable (LineStart p) :=
  inferInstanceAs (Decidable (p = [] ∨ p.getLast? = some 10))

/-- The end `e` of a line with the bytes `tail` after it: a line feed, possibly after a carriage
return; at the end of the file also nothing, or a carriage return alone. -/
def LineEnd (e tail : List Byte) : Prop := isEol e ∨ (tail = [] ∧ (e = [] ∨ e = [13]))

instance instDecidableLineEnd (e tail : List Byte) : Decidable (LineEnd e tail) :=
  inferInstanceAs (Decidable (isEol e ∨ (tail = [] ∧ (e = [] ∨ e = [13]))))

/-- The file has no line of either marker: there is no section. -/
def NoSection (file : List Byte) : Prop :=
  ¬ specHasLine file sectionBegin ∧ ¬ specHasLine file sectionEnd

instance instDecidableNoSection (file : List Byte) : Decidable (NoSection file) :=
  inferInstanceAs (Decidable (¬ specHasLine file sectionBegin ∧ ¬ specHasLine file sectionEnd))

/-- The layout in which `newSection` leaves a section and `appendToSection` keeps it: the line
of the end marker comes after an empty line, the bytes `pre` before that empty line are whole
lines, one of them the start marker and none the end marker, and the text of the end marker
does not come again in the bytes `tail` after its line. -/
def Layout (file pre e2 tail : List Byte) : Prop :=
  file = pre ++ 10 :: (sectionEnd ++ e2 ++ tail) ∧ pre.getLast? = some 10
    ∧ specHasLine pre sectionBegin ∧ ¬ specHasLine pre sectionEnd ∧ LineEnd e2 tail
    ∧ stringsContains tail sectionEnd = false

/-- The file has a section in the layout `Layout`. -/
def Extendable (file : List Byte) : Prop := ∃ pre e2 tail, Layout file pre e2 tail

instance instDecidableLayout (file pre e2 tail : List Byte) : Decidable (Layout file pre e2 tail) :=
  inferInstanceAs (Decidable (file = pre ++ 10 :: (sectionEnd ++ e2 ++ tail)
    ∧ pre.getLast? = some 10 ∧ specHasLine pre sectionBegin ∧ ¬ specHasLine pre sectionEnd
    ∧ LineEnd e2 tail ∧ stringsContains tail sectionEnd = false))

/-- The claim that the section of a file is well formed: one line of each marker, the start
marker first. -/
def WellFormed (file : List Byte) : Prop :=
  (scanLines file).count sectionBegin = 1 ∧ (scanLines file).count sectionEnd = 1
    ∧ (scanLines file).indexOf sectionBegin < (scanLines file).indexOf sectionEnd

instance instDecidableWellFormed (file : List Byte) : Decidable (WellFormed file) :=
  inferInstanceAs (Decidable ((scanLines file).count sectionBegin = 1
    ∧ (scanLines file).count sectionEnd = 1
    ∧ (scanLines file).indexOf sectionBegin < (scanLines file).indexOf sectionEnd))

/-- Reference definition, after the words of the specification: the lines of the file that lie
after the first line of the start marker and before the first line of the end marker and
contain the address literal. -/
def specRecordLines (file : List Byte) : List (List Byte) :=
  ((((specLines file).takeWhile (fun t => decide (t ≠ sectionEnd))).dropWhile
    (fun t => decide (t ≠ sectionBegin))).drop 1).filter (fun t => stringsContains t addr)

/-- Reference definition, after the words of the specification: the host of a record line is
its second field between tabs, normalised; there is none where the line has one field only or
the normalisation rejects the field. -/
def specHost (norm : List Byte → Option (List Byte)) (text : List Byte) : Option (List Byte) :=
  ((stringsSplit 9 text).get? 1).bind norm

/-- Reference definition of the parser on the record lines: their hosts in the order of the
file, or the failure at the first line that has no host. -/
def specParse (norm : List Byte → Option (List Byte)) :
    List (List Byte) → Except Stop (List (List Byte))
  | [] => .ok []
  | text :: rest =>
    match (stringsSplit 9 text).get? 1 with
    | none => .error .outOfRange
    | some field =>
      match norm field with
      | none => .error .urlParse
      | some name =>
        match specParse norm rest with
        | .error e => .error e
        | .ok names => .ok (name :: names)

/-- The file after the runs of the program with the hosts given, one after the other. -/
def runs (norm : List Byte → Option (List Byte)) : List Byte → List (List Byte) → List Byte
  | file, [] => file
  | file, h :: hs => runs norm (main norm file h).file hs

/-- The list that the runs with the hosts given are to leave: each host and then the name made
of the four bytes `www.` and the host. -/
def withVariants : List (List Byte) → List (List Byte)
  | [] => []
  | h :: hs => h :: (bytes "www." ++ h) :: withVariants hs

/-- Each host is absent from the list at the time it is added; `acc` is the list before the
first of them. -/
def Fresh : List (List Byte) → List (List Byte) → Prop
  | _, [] => True
  | acc, h :: hs => h ∉ acc ∧ Fresh (acc ++ [h, bytes "www." ++ h]) hs

instance instDecidableFresh : ∀ acc hs : List (List Byte), Decidable (Fresh acc hs)
  | _, [] => isTrue trivial
  | acc, h :: hs =>
    have := instDecidableFresh (acc ++ [h, bytes "www." ++ h]) hs
    inferInstanceAs (Decidable (h ∉ acc ∧ Fresh (acc ++ [h, bytes "www." ++ h]) hs))

/-- The bytes after a line take no part in the search: nothing follows the line, or a line
terminator and then bytes without the text of the end marker. -/
def Skipped (R : List Byte) : Prop :=
  R = [] ∨ ∃ t U, R = t :: U ∧ isTerm t ∧ ¬ sectionEnd <:+: U

/-- The place where the backward search stops: the file is `A ++ line ++ R`, the line contains
the text of the end marker and has no line terminator but possibly the last byte of the file,
no later line contains the text, and the cursor `c` is on the line terminator that ends `A`, or
on the first byte of the file where `A` is empty. -/
def StopsAt (file line : List Byte) (c : Int) : Prop :=
  ∃ A R, file = A ++ line ++ R ∧ sectionEnd <:+: line
    ∧ (∀ b ∈ line.dropLast, ¬ isTerm b) ∧ (R ≠ [] → ∀ b ∈ line, ¬ isTerm b) ∧ Skipped R
    ∧ ((A = [] ∧ c = -(file.length : Int))
      ∨ ∃ A2 t, A = A2 ++ [t] ∧ isTerm t ∧ c = -((line ++ R).length : Int) - 1)

/-- The number of bytes that the loop of `findSection` reads: one for each `file.Read` that
succeeds. -/
def findSectionReads (file : List Byte) (filesize : Int) : Nat → Int → Nat
  | 0, _ => 0
  | fuel + 1, cursor =>
    let cursor := cursor - 1
    match seekEnd file cursor with
    | none => 0
    | some pos =>
      match file.get? pos with
      | none => 0
      | some char =>
        if cursor ≠ -1 ∧ (char = 10 ∨ char = 13) then 1
        else if cursor = -filesize then 1
        else 1 + findSectionReads file filesize fuel cursor

/-- The number of bytes that the first loop of `appendToSection` reads, over all its calls of
`findSection`. -/
def searchReads (file : List Byte) : Nat → Int → Nat
  | 0, _ => 0
  | fuel + 1, cursor =>
    findSectionReads file file.length (file.length + 1) cursor
      + match findSection file cursor with
        | .error _ => 0
        | .ok (line, cursor) =>
          if stringsContains line sectionEnd = true then 0 else searchReads file fuel cursor

/-! ## The controller: lemmas -/

theorem addLoop_eq_true_iff (host : List Byte) (hosts : List (List Byte)) :
    addLoop host hosts = true ↔ host ∈ hosts := by
  induction hosts with
  | nil => simp [addLoop]
  | cons e rest ih =>
    by_cases h : e = host
    · simp [addLoop, h]
    · have h2 : ¬ host = e := fun h3 => h h3.symm
      simp [addLoop, h, h2, ih]

theorem add_of_mem {host : List Byte} {hosts : List (List Byte)} (h : host ∈ hosts) :
    add hosts host = .error .exit0 := by
  simp [add, (addLoop_eq_true_iff host hosts).2 h]

theorem add_of_not_mem {host : List Byte} {hosts : List (List Byte)} (h : host ∉ hosts) :
    add hosts host = .ok (hosts ++ [host, www host]) := by
  have h2 : ¬ addLoop host hosts = true := fun h3 => h ((addLoop_eq_true_iff host hosts).1 h3)
  simp [add, h2]

/-! ## The create path: lemmas -/

theorem newSectionLoop_eq (hosts : List (List Byte)) (file : List Byte) :
    newSectionLoop hosts file = file ++ (hosts.map entryLine).flatten := by
  induction hosts generalizing file with
  | nil => simp [newSectionLoop]
  | cons e rest ih => simp [newSectionLoop, ih]

/-! ## The section check: lemmas -/

theorem sectionBegin_ne_sectionEnd : sectionBegin ≠ sectionEnd := by decide

theorem sectionFoundLoop_eq (lines : List (List Byte)) (s e : Bool) :
    sectionFoundLoop lines s e
      = (s || decide (sectionBegin ∈ lines), e || decide (sectionEnd ∈ lines)) := by
  induction lines generalizing s e with
  | nil => simp [sectionFoundLoop]
  | cons text rest ih =>
    by_cases h1 : text = sectionBegin
    · have h3 : ¬ sectionEnd = sectionBegin := fun h => sectionBegin_ne_sectionEnd h.symm
      simp [sectionFoundLoop, h1, ih, h3]
    · by_cases h2 : text = sectionEnd
      · have h3 : ¬ sectionEnd = sectionBegin := fun h => sectionBegin_ne_sectionEnd h.symm
        simp [sectionFoundLoop, h2, ih, sectionBegin_ne_sectionEnd, h3]
      · have h3 : ¬ sectionBegin = text := fun h => h1 h.symm
        have h4 : ¬ sectionEnd = text := fun h => h2 h.symm
        simp [sectionFoundLoop, h1, h2, ih, h3, h4]

theorem sectionFound_eq (file : List Byte) :
    sectionFound file
      = if hasLine file sectionBegin ∧ ¬ hasLine file sectionEnd then .error .sectionNoEnd
        else if ¬ hasLine file sectionBegin ∧ hasLine file sectionEnd then .error .sectionNoStart
        else .ok (decide (hasLine file sectionBegin ∧ hasLine file sectionEnd)) := by
  unfold sectionFound hasLine
  rw [sectionFoundLoop_eq]
  by_cases h1 : sectionBegin ∈ scanLines file <;> by_cases h2 : sectionEnd ∈ scanLines file <;>
    simp [h1, h2]

/-! ## Library functions: lemmas -/

theorem stringsContains_iff (s sub : List Byte) : stringsContains s sub = true ↔ sub <:+: s := by
  induction s with
  | nil =>
    cases sub <;> simp [stringsContains]
  | cons c s ih =>
    rw [stringsContains, Bool.or_eq_true, ih, List.infix_cons_iff, List.isPrefixOf_iff_prefix]

theorem stringsContains_eq_false_iff (s sub : List Byte) :
    stringsContains s sub = false ↔ ¬ sub <:+: s := by
  rw [← stringsContains_iff]; simp

theorem stringsSplit_of_not_mem (sep : Byte) (a : List Byte) (h : sep ∉ a) :
    stringsSplit sep a = [a] := by
  induction a with
  | nil => rfl
  | cons c a ih =>
    have hc : ¬ c = sep := fun hc => h (by simp [hc])
    have ha : sep ∉ a := fun ha => h (List.mem_cons_of_mem _ ha)
    simp [stringsSplit, hc, ih ha]

theorem stringsSplit_append (sep : Byte) (a b : List Byte) (h : sep ∉ a) :
    stringsSplit sep (a ++ sep :: b) = a :: stringsSplit sep b := by
  induction a with
  | nil => simp [stringsSplit]
  | cons c a ih =>
    have hc : ¬ c = sep := fun hc => h (by simp [hc])
    have ha : sep ∉ a := fun ha => h (List.mem_cons_of_mem _ ha)
    simp [stringsSplit, hc, ih ha]

theorem dropCR_of_not_mem (m : List Byte) (h : 13 ∉ m) : dropCR m = m := by
  unfold dropCR
  have : ¬ m.getLast? = some 13 := fun h2 => h (List.mem_of_getLast?_eq_some h2)
  simp [this]

theorem specLinesFrom_append (a b cur : List Byte) :
    specLinesFrom (a ++ 10 :: b) cur = specLinesFrom (a ++ [10]) cur ++ specLines b := by
  induction a generalizing cur with
  | nil => simp [specLinesFrom, specLines]
  | cons c a ih =>
    by_cases hc : c = 10
    · simp [specLinesFrom, hc, ih]
    · simp [specLinesFrom, hc, ih]

theorem specLinesFrom_line (a cur : List Byte) (h : 10 ∉ a) :
    specLinesFrom (a ++ [10]) cur = [dropCR (cur ++ a)] := by
  induction a generalizing cur with
  | nil => simp [specLinesFrom]
  | cons c a ih =>
    have hc : ¬ c = 10 := fun hc => h (by simp [hc])
    have ha : 10 ∉ a := fun ha => h (List.mem_cons_of_mem _ ha)
    simp [specLinesFrom, hc, ih _ ha]

theorem specLinesFrom_last (a cur : List Byte) (h : 10 ∉ a) :
    specLinesFrom a cur = if cur ++ a = [] then [] else [dropCR (cur ++ a)] := by
  induction a generalizing cur with
  | nil => simp [specLinesFrom]
  | cons c a ih =>
    have hc : ¬ c = 10 := fun hc => h (by simp [hc])
    have ha : 10 ∉ a := fun ha => h (List.mem_cons_of_mem _ ha)
    simp [specLinesFrom, hc, ih _ ha]

/-- A line `m` followed by a line feed is the first token of the scanner. -/
theorem specLines_line (m b : List Byte) (h : 10 ∉ m) :
    specLines (m ++ 10 :: b) = dropCR m :: specLines b := by
  unfold specLines
  rw [specLinesFrom_append, specLinesFrom_line _ _ h]
  simp [specLines]

/-- Lines that are complete (the last byte is a line feed) are scanned on their own. -/
theorem specLines_complete (a b : List Byte) :
    specLines (a ++ 10 :: b) = specLines (a ++ [10]) ++ specLines b := by
  unfold specLines
  exact specLinesFrom_append a b []

theorem mem_specLinesFrom_newline (a cur m : List Byte)
    (h : m ∈ specLinesFrom (a ++ [10]) cur) : m ∈ specLinesFrom a cur ∨ m = [] := by
  induction a generalizing cur with
  | nil =>
    by_cases hcur : cur = []
    · subst hcur
      right
      simpa [specLinesFrom, dropCR] using h
    · left
      simpa [specLinesFrom, hcur] using h
  | cons c a ih =>
    by_cases hc : c = 10
    · subst hc
      simp only [List.cons_append, specLinesFrom, if_true, List.mem_cons] at h ⊢
      rcases h with h | h
      · exact Or.inl (Or.inl h)
      · rcases ih _ h with h | h
        · exact Or.inl (Or.inr h)
        · exact Or.inr h
    · simp only [List.cons_append, specLinesFrom, hc, if_false] at h ⊢
      exact ih _ h

/-- Ending the last line of a file adds no line but possibly an empty one. -/
theorem not_specHasLine_newline (file m : List Byte) (hm : m ≠ []) (h : ¬ specHasLine file m) :
    ¬ specHasLine (file ++ [10]) m := by
  intro h2
  rcases mem_specLinesFrom_newline file [] m h2 with h3 | h3
  · exact h h3
  · exact hm h3

/-! ## The scanner and the size of its buffer -/

theorem maxScanTokenSize_eq : maxScanTokenSize = 65536 := by decide

/-- The scanner hands out the first lines of the file, unchanged: it can only stop early. -/
theorem scanLinesFrom_pre (data : List Byte) :
    ∀ cur : List Byte, scanLinesFrom data cur <+: specLinesFrom data cur := by
  induction data with
  | nil =>
    intro cur
    rw [scanLinesFrom, specLinesFrom]
  | cons c rest ih =>
    intro cur
    rw [scanLinesFrom, specLinesFrom]
    by_cases hc : c = 10
    · rw [if_pos hc, if_pos hc]
      exact (List.prefix_cons_inj _).2 (ih [])
    · rw [if_neg hc, if_neg hc]
      split
      · exact List.nil_prefix
      · exact ih _

theorem specHasLine_of_hasLine (file m : List Byte) (h : hasLine file m) : specHasLine file m :=
  (scanLinesFrom_pre file []).subset h

theorem stringsSplit_ne_nil (sep : Byte) (a : List Byte) : stringsSplit sep a ≠ [] := by
  cases a with
  | nil => simp [stringsSplit]
  | cons c a =>
    rw [stringsSplit]
    split
    · simp
    · split <;> simp

/-- The fields of bytes cut at a separator are the fields before it and the fields after it. -/
theorem stringsSplit_cut (sep : Byte) (a b : List Byte) :
    stringsSplit sep (a ++ sep :: b) = stringsSplit sep a ++ stringsSplit sep b := by
  induction a with
  | nil => simp [stringsSplit]
  | cons c a ih =>
    by_cases hc : c = sep
    · simp [stringsSplit, hc, ih]
    · rw [List.cons_append, stringsSplit, if_neg hc, ih, stringsSplit, if_neg hc]
      cases hs : stringsSplit sep a with
      | nil => exact absurd hs (stringsSplit_ne_nil sep a)
      | cons field fields => rfl

/-- The first field begins with the bytes that have no separator. -/
theorem stringsSplit_head (sep : Byte) (p rest : List Byte) (hp : sep ∉ p) :
    ∃ f fs, stringsSplit sep (p ++ rest) = (p ++ f) :: fs := by
  induction p with
  | nil =>
    cases hs : stringsSplit sep rest with
    | nil => exact absurd hs (stringsSplit_ne_nil sep rest)
    | cons f fs => exact ⟨f, fs, by simpa using hs⟩
  | cons c p ih =>
    have hc : ¬ c = sep := fun hc => hp (by simp [hc])
    have hp2 : sep ∉ p := fun h => hp (List.mem_cons_of_mem _ h)
    obtain ⟨f, fs, hf⟩ := ih hp2
    exact ⟨f, fs, by rw [List.cons_append, stringsSplit, if_neg hc, hf]; rfl⟩

theorem shortLines_append (a b : List Byte) :
    ShortLines (a ++ 10 :: b) ↔ ShortLines a ∧ ShortLines b := by
  unfold ShortLines
  rw [stringsSplit_cut]
  constructor
  · intro h
    exact ⟨fun l hl => h l (List.mem_append_left _ hl), fun l hl => h l (List.mem_append_right _ hl)⟩
  · rintro ⟨h1, h2⟩ l hl
    rcases List.mem_append.1 hl with hl | hl
    · exact h1 l hl
    · exact h2 l hl

theorem shortLines_of_not_mem (a : List Byte) (h : 10 ∉ a) :
    ShortLines a ↔ a.length < maxScanTokenSize := by
  unfold ShortLines
  rw [stringsSplit_of_not_mem 10 a h]
  simp

theorem shortLines_nil : ShortLines [] := by decide

/-- On a file whose lines fit the buffer the scanner hands out every line. -/
theorem scanLinesFrom_of_short (data : List Byte) :
    ∀ cur : List Byte, 10 ∉ cur →
      (∀ l ∈ stringsSplit 10 (cur ++ data), l.length < maxScanTokenSize) →
      scanLinesFrom data cur = specLinesFrom data cur := by
  induction data with
  | nil =>
    intro cur _ _
    rw [scanLinesFrom, specLinesFrom]
  | cons c rest ih =>
    intro cur hcur h
    rw [scanLinesFrom, specLinesFrom]
    by_cases hc : c = 10
    · rw [if_pos hc, if_pos hc]
      subst hc
      rw [stringsSplit_cut] at h
      rw [ih [] (by simp) (fun l hl => h l (List.mem_append_right _ (by simpa using hl)))]
    · rw [if_neg hc, if_neg hc]
      have hcur2 : 10 ∉ cur ++ [c] := by
        intro hm
        rcases List.mem_append.1 hm with hm | hm
        · exact hcur hm
        · exact hc (List.mem_singleton.1 hm).symm
      have h2 : ∀ l ∈ stringsSplit 10 ((cur ++ [c]) ++ rest), l.length < maxScanTokenSize := by
        simpa using h
      obtain ⟨f, fs, hf⟩ := stringsSplit_head 10 (cur ++ [c]) rest hcur2
      have hlen := h2 (cur ++ [c] ++ f) (by rw [hf]; simp)
      have hnot : ¬ maxScanTokenSize ≤ cur.length + 1 := by
        simp only [List.length_append, List.length_singleton] at hlen
        omega
      rw [if_neg hnot]
      exact ih _ hcur2 h2

theorem scanLines_of_short (file : List Byte) (h : ShortLines file) :
    scanLines file = specLines file :=
  scanLinesFrom_of_short file [] (by simp) (by simpa using h)

theorem hasLine_iff_of_short (file m : List Byte) (h : ShortLines file) :
    hasLine file m ↔ specHasLine file m := by
  unfold hasLine specHasLine
  rw [scanLines_of_short file h]

/-- At a line that does not fit the buffer the scanner stops. -/
theorem scanLinesFrom_long (a rest : List Byte) (ha : 10 ∉ a) :
    ∀ cur : List Byte, cur.length < maxScanTokenSize → maxScanTokenSize ≤ cur.length + a.length →
      scanLinesFrom (a ++ rest) cur = [] := by
  induction a with
  | nil =>
    intro cur h1 h2
    simp only [List.length_nil, Nat.add_zero] at h2
    omega
  | cons c a ih =>
    intro cur h1 h2
    have hc : ¬ c = 10 := fun hc => ha (by simp [hc])
    have ha2 : 10 ∉ a := fun h => ha (List.mem_cons_of_mem _ h)
    rw [List.cons_append, scanLinesFrom, if_neg hc]
    split
    · rfl
    · rename_i hlt
      refine ih ha2 _ (by simp only [List.length_append, List.length_singleton]; omega) ?_
      simp only [List.length_append, List.length_singleton, List.length_cons] at h2 ⊢
      omega

theorem scanLines_long (a rest : List Byte) (ha : 10 ∉ a) (hlen : maxScanTokenSize ≤ a.length) :
    scanLines (a ++ rest) = [] :=
  scanLinesFrom_long a rest ha [] (by decide) (by simpa using hlen)

theorem longLine_length : longLine.length = maxScanTokenSize := List.length_replicate _ _

theorem not_mem_longLine (c : Byte) (hc : c ≠ 120) : c ∉ longLine :=
  fun h => hc (List.eq_of_mem_replicate h)

theorem scanLines_longLine (rest : List Byte) : scanLines (longLine ++ rest) = [] :=
  scanLines_long longLine rest (not_mem_longLine 10 (by decide)) (by rw [longLine_length])

/-- Where the scanner hands out no line, the parser finds no host and the check finds no
section. -/
theorem getHosts_of_no_lines (norm : List Byte → Option (List Byte)) (file : List Byte)
    (h : scanLines file = []) : getHosts norm file = .ok [] := by
  rw [getHosts, h]
  rfl

theorem sectionFound_of_no_lines (file : List Byte) (h : scanLines file = []) :
    sectionFound file = .ok false := by
  rw [sectionFound, h]
  rfl

theorem getHosts_of_short (norm : List Byte → Option (List Byte)) (file : List Byte)
    (h : ShortLines file) : getHosts norm file = getHostsLoop norm (specLines file) false [] := by
  rw [getHosts, scanLines_of_short file h]

theorem sectionFound_of_short (file : List Byte) (h : ShortLines file) :
    sectionFound file
      = if specHasLine file sectionBegin ∧ ¬ specHasLine file sectionEnd then .error .sectionNoEnd
        else if ¬ specHasLine file sectionBegin ∧ specHasLine file sectionEnd then
          .error .sectionNoStart
        else .ok (decide (specHasLine file sectionBegin ∧ specHasLine file sectionEnd)) := by
  rw [sectionFound_eq]
  simp only [hasLine_iff_of_short file _ h]

theorem sectionFound_of_specHasLine (file : List Byte) (hshort : ShortLines file)
    (hb : specHasLine file sectionBegin) (he : specHasLine file sectionEnd) :
    sectionFound file = .ok true := by
  rw [sectionFound_of_short file hshort]; simp [hb, he]

/-! ## The parser: lemmas -/

theorem addr_eq : addr = [49, 50, 55, 46, 48, 46, 48, 46, 49] := by decide

theorem sectionBegin_ne_nil : sectionBegin ≠ [] := by decide

theorem sectionEnd_ne_nil : sectionEnd ≠ [] := by decide

theorem entryLast_ne_sectionBegin (e : List Byte) : entryLast e ≠ sectionBegin := by
  intro h
  have h2 := congrArg List.head? h
  simp only [entryLast, addr_eq, List.cons_append, List.head?_cons] at h2
  revert h2
  decide

theorem entryLast_ne_sectionEnd (e : List Byte) : entryLast e ≠ sectionEnd := by
  intro h
  have h2 := congrArg List.head? h
  simp only [entryLast, addr_eq, List.cons_append, List.head?_cons] at h2
  revert h2
  decide

theorem getHostsLoop_not_started (norm : List Byte → Option (List Byte))
    (lines : List (List Byte)) (hosts : List (List Byte)) (h : sectionBegin ∉ lines) :
    getHostsLoop norm lines false hosts = .ok hosts := by
  induction lines with
  | nil => rfl
  | cons text rest ih =>
    have h1 : ¬ text = sectionBegin := fun h1 => h (by simp [h1])
    have h2 : sectionBegin ∉ rest := fun h2 => h (List.mem_cons_of_mem _ h2)
    by_cases h3 : text = sectionEnd
    · simp [getHostsLoop, h3, sectionBegin_ne_sectionEnd.symm]
    · simp [getHostsLoop, h1, h3, ih h2]

theorem getHostsLoop_append (norm : List Byte → Option (List Byte))
    (l1 l2 : List (List Byte)) (s : Bool) (hosts : List (List Byte)) (h : sectionEnd ∉ l1) :
    getHostsLoop norm (l1 ++ l2) s hosts
      = match getHostsLoop norm l1 s hosts with
        | .error e => .error e
        | .ok hs => getHostsLoop norm l2 (s || decide (sectionBegin ∈ l1)) hs := by
  induction l1 generalizing s hosts with
  | nil => simp [getHostsLoop]
  | cons text rest ih =>
    have h1 : ¬ text = sectionEnd := fun h1 => h (by simp [h1])
    have h2 : sectionEnd ∉ rest := fun h2 => h (List.mem_cons_of_mem _ h2)
    by_cases hb : text = sectionBegin
    · subst hb
      simp only [List.cons_append, getHostsLoop, h1, and_false, if_false, if_true, true_and,
        List.mem_cons, true_or, decide_True, Bool.or_true]
      split
      · split
        · rfl
        · split
          · rfl
          · rw [List.append_eq, ih _ _ h2]; simp
      · rw [List.append_eq, ih _ _ h2]; simp
    · have hb2 : ¬ sectionBegin = text := fun h => hb h.symm
      simp only [List.cons_append, getHostsLoop, h1, and_false, if_false, hb, List.mem_cons, hb2,
        false_or]
      split
      · split
        · rfl
        · split
          · rfl
          · rw [List.append_eq, ih _ _ h2]
      · rw [List.append_eq, ih _ _ h2]

theorem getHostsLoop_begin (norm : List Byte → Option (List Byte))
    (rest : List (List Byte)) (s : Bool) (hosts : List (List Byte)) :
    getHostsLoop norm (sectionBegin :: rest) s hosts = getHostsLoop norm rest true hosts := by
  have h : stringsContains sectionBegin addr = false := by decide
  simp [getHostsLoop, h]

theorem getHostsLoop_end (norm : List Byte → Option (List Byte))
    (rest : List (List Byte)) (s : Bool) (hosts : List (List Byte)) :
    getHostsLoop norm (sectionEnd :: rest) s hosts = .ok hosts := by
  simp [getHostsLoop, sectionBegin_ne_sectionEnd.symm]

theorem getHostsLoop_blank (norm : List Byte → Option (List Byte))
    (rest : List (List Byte)) (s : Bool) (hosts : List (List Byte)) :
    getHostsLoop norm ([] :: rest) s hosts = getHostsLoop norm rest s hosts := by
  have h : stringsContains [] addr = false := by decide
  have h1 : ¬ ([] : List Byte) = sectionBegin := fun h => sectionBegin_ne_nil h.symm
  have h2 : ¬ ([] : List Byte) = sectionEnd := fun h => sectionEnd_ne_nil h.symm
  simp [getHostsLoop, h, h1, h2]

theorem getHostsLoop_entry (norm : List Byte → Option (List Byte))
    (rest : List (List Byte)) (hosts : List (List Byte)) (e : List Byte)
    (h9 : 9 ∉ e) (hn : norm e = some e) :
    getHostsLoop norm (entryLast e :: rest) true hosts
      = getHostsLoop norm rest true (hosts ++ [e]) := by
  have h1 : stringsContains (entryLast e) addr = true := by
    rw [stringsContains_iff, entryLast, List.append_assoc]
    exact (List.prefix_append _ _).isInfix
  have h2 : (stringsSplit 9 (entryLast e))[1]? = some e := by
    have h3 : (9 : Byte) ∉ addr := by decide
    rw [entryLast, List.append_assoc, List.singleton_append, stringsSplit_append _ _ _ h3,
      stringsSplit_of_not_mem _ _ h9]
    rfl
  simp [getHostsLoop, entryLast_ne_sectionBegin, entryLast_ne_sectionEnd, h1, h2, hn]

/-! ## The create path: the file read back -/

theorem newSection_eq (file : List Byte) (hosts : List (List Byte)) :
    newSection file hosts
      = file ++ 10 :: (sectionBegin ++ 10 :: 10 :: ((hosts.map entryLine).flatten
          ++ 10 :: (sectionEnd ++ 10 :: [10]))) := by
  simp [newSection, newSectionLoop_eq]

theorem shortLines_lineStart (p rest : List Byte) (hp : p.getLast? = some 10) :
    ShortLines (p ++ rest) ↔ ShortLines p ∧ ShortLines rest := by
  obtain ⟨q, rfl⟩ := List.getLast?_eq_some_iff.1 hp
  rw [List.append_assoc, List.singleton_append, shortLines_append, shortLines_append]
  simp [shortLines_nil]

theorem shortLines_blank (b : List Byte) : ShortLines (10 :: b) ↔ ShortLines b := by
  have h := shortLines_append [] b
  simpa [shortLines_nil] using h

theorem shortLines_entryLast (e : List Byte) (h10 : 10 ∉ e)
    (hlen : (entryLast e).length < maxScanTokenSize) : ShortLines (entryLast e) := by
  have h : 10 ∉ entryLast e := by
    have ha : 10 ∉ addr := by decide
    simp [entryLast, ha, h10]
  exact (shortLines_of_not_mem _ h).2 hlen

theorem shortLines_entries (es : List (List Byte)) (b : List Byte) :
    ShortLines ((es.map entryLine).flatten ++ b)
      ↔ (∀ e ∈ es, ShortLines (entryLast e)) ∧ ShortLines b := by
  induction es with
  | nil => simp
  | cons e es ih =>
    have h2 : ((e :: es).map entryLine).flatten ++ b
        = entryLast e ++ 10 :: ((es.map entryLine).flatten ++ b) := by
      simp [entryLine, entryLast]
    rw [h2, shortLines_append, ih]
    simp only [List.mem_cons, forall_eq_or_imp, and_assoc]

theorem shortLines_newSection (file : List Byte) (hosts : List (List Byte)) :
    ShortLines (newSection file hosts)
      ↔ ShortLines file ∧ ∀ e ∈ hosts, ShortLines (entryLast e) := by
  have hb : ShortLines sectionBegin := by decide
  have he : ShortLines (sectionEnd ++ 10 :: [10]) := by decide
  rw [newSection_eq, shortLines_append, shortLines_append, shortLines_blank, shortLines_entries,
    shortLines_blank]
  simp [hb, he]

theorem specLines_blank (b : List Byte) : specLines (10 :: b) = [] :: specLines b := by
  have h := specLines_line [] b (by simp)
  simpa [dropCR] using h

theorem not_mem_entryLast (c : Byte) (e : List Byte) (hc : c ∉ addr) (h9 : c ≠ 9) (he : c ∉ e) :
    c ∉ entryLast e := by
  simp [entryLast, hc, h9, he]

theorem specLines_entries (es : List (List Byte)) (b : List Byte)
    (h : ∀ e ∈ es, 10 ∉ e ∧ 13 ∉ e) :
    specLines ((es.map entryLine).flatten ++ b) = es.map entryLast ++ specLines b := by
  induction es with
  | nil => simp
  | cons e es ih =>
    have he := h e (by simp)
    have h10 : 10 ∉ entryLast e := not_mem_entryLast 10 e (by decide) (by decide) he.1
    have h13 : 13 ∉ entryLast e := not_mem_entryLast 13 e (by decide) (by decide) he.2
    have hes : ∀ e ∈ es, 10 ∉ e ∧ 13 ∉ e := fun x hx => h x (List.mem_cons_of_mem _ hx)
    have h2 : ((e :: es).map entryLine).flatten ++ b
        = entryLast e ++ 10 :: ((es.map entryLine).flatten ++ b) := by
      simp [entryLine, entryLast]
    rw [h2, specLines_line _ _ h10, dropCR_of_not_mem _ h13, ih hes]
    simp

theorem getHostsLoop_entries (norm : List Byte → Option (List Byte))
    (es rest hosts : List (List Byte)) (h : ∀ e ∈ es, 9 ∉ e ∧ norm e = some e) :
    getHostsLoop norm (es.map entryLast ++ rest) true hosts
      = getHostsLoop norm rest true (hosts ++ es) := by
  induction es generalizing hosts with
  | nil => simp
  | cons e es ih =>
    have he := h e (by simp)
    have hes : ∀ e ∈ es, 9 ∉ e ∧ norm e = some e := fun x hx => h x (List.mem_cons_of_mem _ hx)
    rw [List.map_cons, List.cons_append, getHostsLoop_entry norm _ _ e he.1 he.2, ih _ hes]
    simp

theorem specLines_newSection (file : List Byte) (hosts : List (List Byte))
    (h : ∀ e ∈ hosts, 10 ∉ e ∧ 13 ∉ e) :
    specLines (newSection file hosts)
      = specLines (file ++ [10])
          ++ (sectionBegin :: [] :: (hosts.map entryLast ++ [[], sectionEnd, []])) := by
  have hb10 : 10 ∉ sectionBegin := by decide
  have hb13 : 13 ∉ sectionBegin := by decide
  have he10 : 10 ∉ sectionEnd := by decide
  have he13 : 13 ∉ sectionEnd := by decide
  have hlast : specLines [10] = [[]] := by decide
  rw [newSection_eq, specLines_complete, specLines_line _ _ hb10, dropCR_of_not_mem _ hb13,
    specLines_blank, specLines_entries _ _ h, specLines_blank, specLines_line _ _ he10,
    dropCR_of_not_mem _ he13, hlast]

/-- The file that `newSection` leaves has a section, and the parser reads the hosts back. -/
theorem newSection_read_back (norm : List Byte → Option (List Byte)) (file : List Byte)
    (hosts : List (List Byte)) (hshort : ShortLines file)
    (hb : ¬ specHasLine file sectionBegin) (he : ¬ specHasLine file sectionEnd)
    (h : ∀ e ∈ hosts, Plain norm e)
    (hlen : ∀ e ∈ hosts, (entryLast e).length < maxScanTokenSize) :
    sectionFound (newSection file hosts) = .ok true
      ∧ getHosts norm (newSection file hosts) = .ok hosts := by
  have h1 : ∀ e ∈ hosts, 10 ∉ e ∧ 13 ∉ e := fun e he => ⟨(h e he).2.1, (h e he).2.2.1⟩
  have h2 : ∀ e ∈ hosts, 9 ∉ e ∧ norm e = some e := fun e he => ⟨(h e he).1, (h e he).2.2.2⟩
  have hnew : ShortLines (newSection file hosts) :=
    (shortLines_newSection file hosts).2
      ⟨hshort, fun e he => shortLines_entryLast e (h1 e he).1 (hlen e he)⟩
  have hb2 : sectionBegin ∉ specLines (file ++ [10]) :=
    not_specHasLine_newline file _ sectionBegin_ne_nil hb
  have he2 : sectionEnd ∉ specLines (file ++ [10]) :=
    not_specHasLine_newline file _ sectionEnd_ne_nil he
  constructor
  · rw [sectionFound_of_short _ hnew]
    have h3 : specHasLine (newSection file hosts) sectionBegin := by
      unfold specHasLine; rw [specLines_newSection _ _ h1]; simp
    have h4 : specHasLine (newSection file hosts) sectionEnd := by
      unfold specHasLine; rw [specLines_newSection _ _ h1]; simp
    simp [h3, h4]
  · rw [getHosts_of_short _ _ hnew]
    rw [specLines_newSection _ _ h1, getHostsLoop_append _ _ _ _ _ he2,
      getHostsLoop_not_started _ _ _ hb2]
    simp only [hb2, decide_False, Bool.or_false]
    rw [getHostsLoop_begin, getHostsLoop_blank, getHostsLoop_entries _ _ _ _ h2,
      getHostsLoop_blank, getHostsLoop_end]
    simp

theorem plain_www (norm : List Byte → Option (List Byte)) (h : List Byte)
    (h9 : 9 ∉ h) (h10 : 10 ∉ h) (h13 : 13 ∉ h) (hn : norm (www h) = some (www h)) :
    Plain norm (www h) := by
  have a9 : 9 ∉ bytes "www." := by decide
  have a10 : 10 ∉ bytes "www." := by decide
  have a13 : 13 ∉ bytes "www." := by decide
  refine ⟨?_, ?_, ?_, hn⟩ <;> simp [www, *]

/-- The run on a file without marker lines takes the create path. -/
theorem main_create (norm : List Byte → Option (List Byte)) (file host : List Byte)
    (hb : ¬ specHasLine file sectionBegin) (he : ¬ specHasLine file sectionEnd) :
    main norm file host = { stop := none, file := newSection file [host, www host] } := by
  have hb2 : ¬ hasLine file sectionBegin := fun h => hb (specHasLine_of_hasLine _ _ h)
  have he2 : ¬ hasLine file sectionEnd := fun h => he (specHasLine_of_hasLine _ _ h)
  have h1 : getHosts norm file = .ok [] := getHostsLoop_not_started _ _ _ hb2
  have h2 : add [] host = .ok [host, www host] := by
    simpa using @add_of_not_mem host [] (by simp)
  have h3 : sectionFound file = .ok false := by
    rw [sectionFound_eq]; simp [hb2, he2]
  simp [main, h1, h2, write, h3]

/-! ## The backward scan: one call of `findSection` -/

theorem seekEnd_split (A B : List Byte) (c : Byte) :
    seekEnd (A ++ c :: B) (-(B.length : Int) - 1) = some A.length := by
  unfold seekEnd
  have h : ((A ++ c :: B).length : Int) + (-(B.length : Int) - 1) = (A.length : Int) := by
    simp only [List.length_append, List.length_cons, Nat.cast_add, Nat.cast_one]
    omega
  rw [h]
  simp

theorem seekEnd_before (file : List Byte) (cursor : Int) (h : cursor < -(file.length : Int)) :
    seekEnd file cursor = none := by
  unfold seekEnd
  have : ¬ 0 ≤ (file.length : Int) + cursor := by omega
  simp [this]

/-- One iteration of the loop of `findSection`, the cursor standing right after the byte `c`. -/
theorem findSectionLoop_succ (A B : List Byte) (c : Byte) (filesize : Int) (fuel : Nat)
    (line : List Byte) :
    findSectionLoop (A ++ c :: B) filesize (fuel + 1) line (-(B.length : Int))
      = if -(B.length : Int) - 1 ≠ -1 ∧ (c = 10 ∨ c = 13) then .ok (line, -(B.length : Int) - 1)
        else if -(B.length : Int) - 1 = -filesize then .ok (c :: line, -(B.length : Int) - 1)
        else findSectionLoop (A ++ c :: B) filesize fuel (c :: line) (-(B.length : Int) - 1) := by
  have hget : (A ++ c :: B).get? A.length = some c := by
    rw [List.get?_eq_getElem?, List.getElem?_append_right (le_refl _)]
    simp
  rw [findSectionLoop]
  simp only [seekEnd_split, hget]

theorem findSectionLoop_chunk (A L : List Byte) (hA : A ≠ []) (hL : ∀ c ∈ L, ¬ isTerm c) :
    ∀ (B line : List Byte) (fuel : Nat),
      findSectionLoop (A ++ (L ++ B)) ((A ++ (L ++ B)).length : Int) (fuel + L.length) line
          (-(B.length : Int))
        = findSectionLoop (A ++ (L ++ B)) ((A ++ (L ++ B)).length : Int) fuel (L ++ line)
          (-((L ++ B).length : Int)) := by
  induction L using List.reverseRecOn with
  | nil => intro B line fuel; simp
  | append_singleton L c ih =>
    intro B line fuel
    have hc : ¬ (c = 10 ∨ c = 13) := hL c (by simp)
    have hL2 : ∀ c ∈ L, ¬ isTerm c := fun x hx => hL x (by simp [hx])
    have hApos : 0 < A.length := List.length_pos.2 hA
    have hfile : A ++ (L ++ [c] ++ B) = (A ++ L) ++ c :: B := by simp
    have hfile2 : A ++ (L ++ [c] ++ B) = A ++ (L ++ c :: B) := by simp
    have hfuel : fuel + (L ++ [c]).length = (fuel + L.length) + 1 := by simp; omega
    rw [hfuel]
    conv_lhs => rw [hfile, findSectionLoop_succ]
    have hne : ¬ (-(B.length : Int) - 1 = -(((A ++ L) ++ c :: B).length : Int)) := by
      simp only [List.length_append, List.length_cons, Nat.cast_add, Nat.cast_one]
      omega
    rw [if_neg (fun h => hc h.2), if_neg hne]
    have hcur : -(B.length : Int) - 1 = -((c :: B).length : Int) := by
      simp only [List.length_cons, Nat.cast_add, Nat.cast_one]; omega
    rw [hcur, ← hfile, hfile2, ih hL2 (c :: B) (c :: line) fuel]
    simp

/-! ## The backward scan: the line found by one call -/

/-- The loop of `findSection` in the middle of the file: it takes the bytes back to the
nearest line terminator and stops on it. -/
theorem findSectionLoop_line (A L B : List Byte) (t : Byte) (ht : isTerm t)
    (hL : ∀ c ∈ L, ¬ isTerm c) (hB : B ≠ []) (line : List Byte) (fuel : Nat)
    (hfuel : L.length + 1 ≤ fuel) :
    findSectionLoop (A ++ t :: (L ++ B)) ((A ++ t :: (L ++ B)).length : Int) fuel line
        (-(B.length : Int))
      = .ok (L ++ line, -((L ++ B).length : Int) - 1) := by
  have hfile : A ++ t :: (L ++ B) = (A ++ [t]) ++ (L ++ B) := by simp
  have hB2 : 0 < B.length := List.length_pos.2 hB
  obtain ⟨k, rfl⟩ : ∃ k, fuel = (k + 1) + L.length := ⟨fuel - L.length - 1, by omega⟩
  conv_lhs => rw [hfile, findSectionLoop_chunk (A ++ [t]) L (by simp) hL B line (k + 1)]
  rw [← hfile, findSectionLoop_succ]
  have h1 : -((L ++ B).length : Int) - 1 ≠ -1 := by
    simp only [List.length_append, Nat.cast_add]; omega
  rw [if_pos ⟨h1, ht⟩]

/-- In the middle of the file `findSection` returns the bytes between the cursor and the
nearest line terminator before it, and stops on that terminator. -/
theorem findSection_mid (A L B : List Byte) (t : Byte) (ht : isTerm t)
    (hL : ∀ c ∈ L, ¬ isTerm c) (hB : B ≠ []) :
    findSection (A ++ t :: (L ++ B)) (-(B.length : Int))
      = .ok (L, -((L ++ B).length : Int) - 1) := by
  unfold findSection
  rw [findSectionLoop_line A L B t ht hL hB [] _ (by simp; omega)]
  simp

/-- From the end of the file `findSection` takes the last byte whatever it is, then the bytes
back to the nearest line terminator. -/
theorem findSection_end (A L : List Byte) (t c : Byte) (ht : isTerm t)
    (hL : ∀ c ∈ L, ¬ isTerm c) :
    findSection (A ++ t :: (L ++ [c])) 0 = .ok (L ++ [c], -((L ++ [c]).length : Int) - 1) := by
  have hfile : A ++ t :: (L ++ [c]) = (A ++ t :: L) ++ c :: [] := by simp
  have h0 : (0 : Int) = -(([] : List Byte).length : Int) := by simp
  unfold findSection
  conv_lhs => rw [h0, hfile, findSectionLoop_succ]
  have h1 : ¬ (-(([] : List Byte).length : Int) - 1 ≠ -1 ∧ (c = 10 ∨ c = 13)) := by simp
  have h2 : ¬ (-(([] : List Byte).length : Int) - 1 = -(((A ++ t :: L) ++ c :: []).length : Int)) := by
    simp only [List.length_append, List.length_cons, List.length_nil, Nat.cast_add, Nat.cast_one]
    omega
  rw [if_neg h1, if_neg h2, ← hfile]
  have h3 : -(([] : List Byte).length : Int) - 1 = -(([c] : List Byte).length : Int) := by simp
  rw [h3, findSectionLoop_line A L [c] t ht hL (by simp) [c] _ (by simp; omega)]

/-- A byte string has no line terminator, or it has a last one. -/
theorem last_term_split (U : List Byte) :
    (∀ c ∈ U, ¬ isTerm c)
      ∨ ∃ U1 t L, U = U1 ++ t :: L ∧ isTerm t ∧ ∀ c ∈ L, ¬ isTerm c := by
  induction U with
  | nil => left; simp
  | cons c U ih =>
    rcases ih with h | ⟨U1, t, L, h1, h2, h3⟩
    · by_cases hc : isTerm c
      · exact Or.inr ⟨[], c, U, by simp, hc, h⟩
      · left
        intro x hx
        rcases List.mem_cons.1 hx with hx | hx
        · rw [hx]; exact hc
        · exact h x hx
    · exact Or.inr ⟨c :: U1, t, L, by simp [h1], h2, h3⟩

/-! ## The backward scan: the search for the end marker -/

theorem searchLoop_succ (file : List Byte) (fuel : Nat) (cursor cursor2 : Int)
    (line : List Byte) (h : findSection file cursor = .ok (line, cursor2)) :
    searchLoop file (fuel + 1) cursor
      = if stringsContains line sectionEnd = true then .ok (line, cursor2)
        else searchLoop file fuel cursor2 := by
  rw [searchLoop, h]

/-- Lines without the text of the end marker are passed over: the search goes on from the
line terminator `t` before them. -/
theorem searchLoop_skip (file P : List Byte) (t : Byte) (ht : isTerm t)
    (r : Except Stop (List Byte × Int)) (F : Nat) :
    ∀ (n : Nat) (U V : List Byte), U.length = n → file = P ++ t :: (U ++ V) → V ≠ [] →
      ¬ sectionEnd <:+: U →
      (∀ fuel, F ≤ fuel → searchLoop file fuel (-((U ++ V).length : Int) - 1) = r) →
      ∀ fuel, F + U.length + 1 ≤ fuel → searchLoop file fuel (-(V.length : Int)) = r := by
  intro n
  induction n using Nat.strong_induction_on with
  | _ n ih =>
    intro U V hn hfile hV hU hcont fuel hfuel
    obtain ⟨fuel2, rfl⟩ : ∃ k, fuel = k + 1 := ⟨fuel - 1, by omega⟩
    rcases last_term_split U with hfree | ⟨U1, tU, L, hsplit, htU, hLfree⟩
    · have hfs := findSection_mid P U V t ht hfree hV
      rw [← hfile] at hfs
      rw [searchLoop_succ file fuel2 _ _ _ hfs,
        if_neg (by rw [stringsContains_iff]; exact hU)]
      exact hcont fuel2 (by omega)
    · have hfile2 : file = (P ++ t :: U1) ++ tU :: (L ++ V) := by
        rw [hfile, hsplit]; simp
      have hfs := findSection_mid (P ++ t :: U1) L V tU htU hLfree hV
      rw [← hfile2] at hfs
      have hLU : L <:+: U := ⟨U1 ++ [tU], [], by simp [hsplit]⟩
      have hU1U : U1 <:+: U := ⟨[], tU :: L, by simp [hsplit]⟩
      have hL : ¬ sectionEnd <:+: L := fun h => hU (h.trans hLU)
      have hU1 : ¬ sectionEnd <:+: U1 := fun h => hU (h.trans hU1U)
      rw [searchLoop_succ file fuel2 _ _ _ hfs, if_neg (by rw [stringsContains_iff]; exact hL)]
      have hlen : U.length = U1.length + 1 + L.length := by rw [hsplit]; simp; omega
      have hcur : -((L ++ V).length : Int) - 1 = -((tU :: (L ++ V)).length : Int) := by
        simp only [List.length_cons, Nat.cast_add, Nat.cast_one]; omega
      rw [hcur]
      refine ih U1.length (by omega) U1 (tU :: (L ++ V)) rfl ?_ (by simp) hU1 ?_ fuel2 (by omega)
      · rw [hfile, hsplit]; simp
      · intro fuel3 h3
        have hcur2 : -((U1 ++ tU :: (L ++ V)).length : Int) - 1 = -((U ++ V).length : Int) - 1 := by
          rw [hsplit]; simp only [List.length_append, List.length_cons, Nat.cast_add, Nat.cast_one]
          omega
        rw [hcur2]
        exact hcont fuel3 h3

/-! ## The backward scan: where the search stops -/

/-- The search stops on a line that contains the text of the end marker. -/
theorem searchLoop_stop (A M R : List Byte) (t : Byte) (ht : isTerm t)
    (hM : ∀ c ∈ M, ¬ isTerm c) (hend : sectionEnd <:+: M) (hR : R ≠ []) (fuel : Nat)
    (hfuel : 1 ≤ fuel) :
    searchLoop (A ++ t :: (M ++ R)) fuel (-(R.length : Int))
      = .ok (M, -((M ++ R).length : Int) - 1) := by
  obtain ⟨k, rfl⟩ : ∃ k, fuel = k + 1 := ⟨fuel - 1, by omega⟩
  rw [searchLoop_succ _ k _ _ _ (findSection_mid A M R t ht hM hR),
    if_pos ((stringsContains_iff _ _).2 hend)]

/-- From the end of the file, lines without the text of the end marker are passed over. -/
theorem searchLoop_skip_end (file P U : List Byte) (t : Byte) (ht : isTerm t)
    (r : Except Stop (List Byte × Int)) (F : Nat) (hfile : file = P ++ t :: U) (hne : U ≠ [])
    (hU : ¬ sectionEnd <:+: U)
    (hcont : ∀ fuel, F ≤ fuel → searchLoop file fuel (-(U.length : Int) - 1) = r)
    (fuel : Nat) (hfuel : F + U.length + 1 ≤ fuel) :
    searchLoop file fuel 0 = r := by
  obtain ⟨U0, c, rfl⟩ : ∃ U0 c, U = U0 ++ [c] := by
    rcases List.eq_nil_or_concat U with h | ⟨U0, c, h⟩
    · exact absurd h hne
    · exact ⟨U0, c, by simpa using h⟩
  obtain ⟨fuel2, rfl⟩ : ∃ k, fuel = k + 1 := ⟨fuel - 1, by omega⟩
  rcases last_term_split U0 with hfree | ⟨U1, tU, L, hsplit, htU, hLfree⟩
  · have hfs := findSection_end P U0 t c ht hfree
    rw [← hfile] at hfs
    rw [searchLoop_succ file fuel2 _ _ _ hfs, if_neg (by rw [stringsContains_iff]; exact hU)]
    exact hcont fuel2 (by omega)
  · have hfile2 : file = (P ++ t :: U1) ++ tU :: (L ++ [c]) := by
      rw [hfile, hsplit]; simp
    have hfs := findSection_end (P ++ t :: U1) L tU c htU hLfree
    rw [← hfile2] at hfs
    have hLU : L ++ [c] <:+: U0 ++ [c] := ⟨U1 ++ [tU], [], by simp [hsplit]⟩
    have hU1U : U1 <:+: U0 ++ [c] := ⟨[], tU :: L ++ [c], by simp [hsplit]⟩
    have hL : ¬ sectionEnd <:+: L ++ [c] := fun h => hU (h.trans hLU)
    have hU1 : ¬ sectionEnd <:+: U1 := fun h => hU (h.trans hU1U)
    rw [searchLoop_succ file fuel2 _ _ _ hfs, if_neg (by rw [stringsContains_iff]; exact hL)]
    have hlen : (U0 ++ [c]).length = U1.length + 1 + L.length + 1 := by
      rw [hsplit]; simp; omega
    have hcur : -((L ++ [c]).length : Int) - 1 = -((tU :: (L ++ [c])).length : Int) := by
      simp only [List.length_cons, List.length_append, List.length_singleton, Nat.cast_add,
        Nat.cast_one]; omega
    rw [hcur]
    refine searchLoop_skip file P t ht r F U1.length U1 (tU :: (L ++ [c])) rfl ?_ (by simp) hU1 ?_
      fuel2 (by omega)
    · rw [hfile, hsplit]; simp
    · intro fuel3 h3
      have hcur2 : -((U1 ++ tU :: (L ++ [c])).length : Int) - 1
          = -((U0 ++ [c]).length : Int) - 1 := by
        rw [hsplit]
        simp only [List.length_append, List.length_cons, List.length_singleton, List.length_nil,
          Nat.cast_add, Nat.cast_one]
        omega
      rw [hcur2]
      exact hcont fuel3 h3

/-- The search of `appendToSection` stops on the last line that contains the text of the end
marker, the cursor on the line terminator before that line. -/
theorem searchLoop_found (A M R : List Byte) (t : Byte) (ht : isTerm t)
    (hM : ∀ c ∈ M, ¬ isTerm c) (hend : sectionEnd <:+: M) (hR : Passable R) :
    searchLoop (A ++ t :: (M ++ R)) ((A ++ t :: (M ++ R)).length + 1) 0
      = .ok (if R.length ≤ 1 then M ++ R else M, -((M ++ R).length : Int) - 1) := by
  have hMne : M ≠ [] := by
    intro h
    rw [h] at hend
    exact sectionEnd_ne_nil (List.eq_nil_of_infix_nil hend)
  by_cases hlen : R.length ≤ 1
  · rw [if_pos hlen]
    obtain ⟨L, c, hLc⟩ : ∃ L c, M ++ R = L ++ [c] ∧ (∀ x ∈ L, ¬ isTerm x) := by
      match R, hlen with
      | [], _ =>
        rcases List.eq_nil_or_concat M with h | ⟨M0, c, h⟩
        · exact absurd h hMne
        · refine ⟨M0, c, by simpa using h, fun x hx => hM x ?_⟩
          rw [h]; simp [hx]
      | [c], _ => exact ⟨M, c, rfl, hM⟩
    have hfs := findSection_end A L t c ht hLc.2
    rw [← hLc.1] at hfs
    rw [searchLoop_succ _ _ _ _ _ hfs,
      if_pos ((stringsContains_iff _ _).2 (hend.trans (List.prefix_append M R).isInfix))]
  · rw [if_neg hlen]
    rcases hR with h | ⟨t2, U, hRU, ht2, hU⟩
    · exact absurd h hlen
    · have hUne : U ≠ [] := by
        intro h
        rw [hRU, h] at hlen
        simp at hlen
      have hfile : A ++ t :: (M ++ R) = (A ++ t :: M) ++ t2 :: U := by rw [hRU]; simp
      have hRne : R ≠ [] := by rw [hRU]; simp
      refine searchLoop_skip_end _ (A ++ t :: M) U t2 ht2 _ 1 hfile hUne hU ?_ _ ?_
      · intro fuel hfuel
        have hcur : -(U.length : Int) - 1 = -(R.length : Int) := by
          rw [hRU]; simp only [List.length_cons, Nat.cast_add, Nat.cast_one]; omega
        rw [hcur]
        exact searchLoop_stop A M R t ht hM hend hRne fuel hfuel
      · rw [hRU]; simp; omega

/-! ## The extend path: the bytes written -/

/-- A write at the offset `X.length` of the file `X ++ Y` replaces the first bytes of `Y`. -/
theorem Handle.write_at (X Y b : List Byte) :
    Handle.write { data := X ++ Y, pos := X.length } b
      = { data := X ++ b ++ Y.drop b.length, pos := X.length + b.length } := by
  simp [Handle.write]

/-- A write that reaches the end of the file replaces all of what followed the offset. -/
theorem Handle.write_over (X Y b : List Byte) (h : Y.length ≤ b.length) :
    Handle.write { data := X ++ Y, pos := X.length } b
      = { data := X ++ b, pos := X.length + b.length } := by
  rw [Handle.write_at, List.drop_of_length_le h]
  simp

/-- The extend path: the two new entries and a copy of the byte `x` are put in before the line
terminator `t` that precedes the line `M` on which the search stops. -/
theorem appendToSection_splice (A0 M R : List Byte) (x t : Byte) (hs : List (List Byte))
    (h1 h2 : List Byte) (ht : isTerm t) (hM : ∀ c ∈ M, ¬ isTerm c) (hend : sectionEnd <:+: M)
    (hR : Passable R) :
    appendToSection (A0 ++ x :: t :: (M ++ R)) (hs ++ [h1, h2])
      = .ok (A0 ++ x :: (entryLine h1 ++ entryLast h2 ++ x :: t :: (M ++ R))) := by
  have hfile : A0 ++ x :: t :: (M ++ R) = (A0 ++ [x]) ++ t :: (M ++ R) := by simp
  have hsearch := searchLoop_found (A0 ++ [x]) M R t ht hM hend hR
  rw [← hfile] at hsearch
  have hseek1 : seekEnd (A0 ++ x :: t :: (M ++ R)) (-((M ++ R).length : Int) - 1 - 1)
      = some A0.length := by
    have := seekEnd_split A0 (t :: (M ++ R)) x
    rw [← this]
    congr 1
    simp only [List.length_cons, Nat.cast_add, Nat.cast_one]
    omega
  have hseek2 : seekEnd (A0 ++ x :: t :: (M ++ R)) (-((M ++ R).length : Int) - 1)
      = some (A0 ++ [x]).length := by
    rw [hfile]
    exact seekEnd_split (A0 ++ [x]) (M ++ R) t
  have hlen : ¬ (hs ++ [h1, h2]).length < 2 := by simp
  have hdrop : (hs ++ [h1, h2]).drop ((hs ++ [h1, h2]).length - 2) = [h1, h2] := by
    have : (hs ++ [h1, h2]).length - 2 = hs.length := by simp
    rw [this, List.drop_left]
  unfold appendToSection
  rw [hsearch]
  simp only [hseek1, hseek2, hlen, if_false, hdrop]
  have hloop : ∀ f : Handle, appendLoop [h1, h2].length [h1, h2] 0 f
      = (f.write (entryLine h1)).write (entryLast h2) := by
    intro f
    simp [appendLoop]
  rw [hloop]
  have hw1 := Handle.write_at (A0 ++ [x]) (t :: (M ++ R)) (entryLine h1)
  rw [← hfile] at hw1
  rw [hw1]
  have hpos1 : (A0 ++ [x]).length + (entryLine h1).length = (A0 ++ [x] ++ entryLine h1).length := by
    simp only [List.length_append]
  rw [hpos1, Handle.write_at]
  have hpos2 : (A0 ++ [x] ++ entryLine h1).length + (entryLast h2).length
      = (A0 ++ [x] ++ entryLine h1 ++ entryLast h2).length := by
    simp only [List.length_append]
  rw [hpos2, Handle.write_over]
  · simp
  · simp only [List.length_drop, List.length_cons, List.length_append]
    omega

/-! ## Lines of a file given by its parts -/

theorem specLines_nil : specLines [] = [] := rfl

theorem dropCR_append_cr (m : List Byte) : dropCR (m ++ [13]) = m := by
  simp [dropCR]

theorem specLines_lineStart (p rest : List Byte) (hp : LineStart p) :
    specLines (p ++ rest) = specLines p ++ specLines rest := by
  rcases hp with hp | hp
  · rw [hp]; simp [specLines_nil]
  · obtain ⟨q, rfl⟩ := List.getLast?_eq_some_iff.1 hp
    rw [List.append_assoc, List.singleton_append, specLines_complete]

/-- A marker at the start of a line and followed by the end of the line is the text of a
line. -/
theorem specLines_marker (m e tail : List Byte) (h10 : 10 ∉ m) (h13 : 13 ∉ m) (hm : m ≠ [])
    (he : LineEnd e tail) : ∃ rest, specLines (m ++ e ++ tail) = m :: rest := by
  rcases he with (he | he) | ⟨ht, he | he⟩
  · subst he
    refine ⟨specLines tail, ?_⟩
    rw [List.append_assoc, List.singleton_append, specLines_line _ _ h10, dropCR_of_not_mem _ h13]
  · subst he
    refine ⟨specLines tail, ?_⟩
    have h : m ++ [13, 10] ++ tail = (m ++ [13]) ++ 10 :: tail := by simp
    rw [h, specLines_line _ _ (by simp [h10]), dropCR_append_cr]
  · subst ht he
    refine ⟨[], ?_⟩
    simp only [List.append_nil, specLines]
    rw [specLinesFrom_last _ _ h10]
    simp [hm, dropCR_of_not_mem _ h13]
  · subst ht he
    refine ⟨[], ?_⟩
    simp only [List.append_nil, specLines]
    rw [specLinesFrom_last _ _ (by simp [h10])]
    simp [dropCR_append_cr]

theorem specHasLine_marker (p m e tail : List Byte) (hp : LineStart p) (h10 : 10 ∉ m)
    (h13 : 13 ∉ m) (hm : m ≠ []) (he : LineEnd e tail) : specHasLine (p ++ (m ++ e ++ tail)) m := by
  obtain ⟨rest, hrest⟩ := specLines_marker m e tail h10 h13 hm he
  unfold specHasLine
  rw [specLines_lineStart _ _ hp, hrest]
  simp

theorem specHasLine_append_of_left (p rest m : List Byte) (hp : LineStart p) (h : specHasLine p m) :
    specHasLine (p ++ rest) m := by
  unfold specHasLine at *
  rw [specLines_lineStart _ _ hp]
  exact List.mem_append_left _ h

theorem sectionEnd_free : ∀ c ∈ sectionEnd, ¬ isTerm c := by decide

/-- After the line of the end marker the backward search finds nothing to stop on when the
text of the end marker does not come again. -/
theorem passable_lineEnd (e tail : List Byte) (he : LineEnd e tail)
    (ht : stringsContains tail sectionEnd = false) : Passable (e ++ tail) := by
  have ht2 : ¬ sectionEnd <:+: tail := (stringsContains_eq_false_iff _ _).1 ht
  rcases he with (he | he) | ⟨htl, he | he⟩
  · subst he
    exact Or.inr ⟨10, tail, rfl, Or.inl rfl, ht2⟩
  · subst he
    refine Or.inr ⟨13, 10 :: tail, rfl, Or.inr rfl, ?_⟩
    intro h
    rcases List.infix_cons_iff.1 h with h | h
    · obtain ⟨s, hs⟩ := h
      have h35 : sectionEnd = 35 :: sectionEnd.tail := by decide
      rw [h35, List.cons_append] at hs
      exact absurd (List.cons.inj hs).1 (by decide)
    · exact ht2 h
  · subst htl he
    exact Or.inl (by simp)
  · subst htl he
    exact Or.inl (by simp)

/-! ## The extend path on a file given by its parts -/

theorem sectionFound_of_hasLine (file : List Byte) (hb : hasLine file sectionBegin)
    (he : hasLine file sectionEnd) : sectionFound file = .ok true := by
  rw [sectionFound_eq]; simp [hb, he]

theorem split_last_two (Z : List Byte) (h : Z.getLast? = some 10) (hlen : 2 ≤ Z.length) :
    ∃ S x, Z = S ++ [x, 10] := by
  obtain ⟨Y, rfl⟩ := List.getLast?_eq_some_iff.1 h
  rcases List.eq_nil_or_concat Y with hY | ⟨S, x, hY⟩
  · subst hY; simp at hlen
  · exact ⟨S, x, by rw [hY]; simp⟩

theorem getLast?_section_head (e1 body : List Byte) (he1 : isEol e1) (hbody : LineStart body) :
    (sectionBegin ++ e1 ++ body).getLast? = some 10 := by
  rcases hbody with hbody | hbody
  · subst hbody
    rcases he1 with he1 | he1 <;> subst he1 <;> simp [List.getLast?_append]
  · rw [List.getLast?_append, hbody]; rfl

theorem lineStart_section_head (pfx e1 body : List Byte) (he1 : isEol e1)
    (hbody : LineStart body) : LineStart (pfx ++ (sectionBegin ++ e1 ++ body)) := by
  right
  rw [List.getLast?_append, getLast?_section_head e1 body he1 hbody]; rfl

/-- The extend path on a file with a section: the new entries go in before the line terminator
that precedes the end marker, and the bytes before and after the section stay. -/
theorem write_frame (pfx e1 body e2 tail : List Byte) (hs : List (List Byte))
    (h1 h2 : List Byte)
    (hshort : ShortLines (pfx ++ (sectionBegin ++ e1 ++ body ++ sectionEnd ++ e2) ++ tail))
    (hp : LineStart pfx) (he1 : isEol e1) (hbody : LineStart body)
    (he2 : LineEnd e2 tail) (htail : stringsContains tail sectionEnd = false) :
    ∃ S x, sectionBegin ++ e1 ++ body = S ++ [x, 10]
      ∧ write (pfx ++ (sectionBegin ++ e1 ++ body ++ sectionEnd ++ e2) ++ tail) (hs ++ [h1, h2])
        = .ok (pfx ++ (S ++ [x] ++ entryLine h1 ++ entryLast h2 ++ [x, 10] ++ sectionEnd ++ e2)
            ++ tail) := by
  have hlen : 2 ≤ (sectionBegin ++ e1 ++ body).length := by
    have : sectionBegin.length = 21 := by decide
    simp only [List.length_append, this]; omega
  obtain ⟨S, x, hS⟩ := split_last_two _ (getLast?_section_head e1 body he1 hbody) hlen
  refine ⟨S, x, hS, ?_⟩
  have hb : specHasLine (pfx ++ (sectionBegin ++ e1 ++ body ++ sectionEnd ++ e2) ++ tail)
      sectionBegin := by
    have h := specHasLine_marker pfx sectionBegin e1 (body ++ sectionEnd ++ e2 ++ tail) hp
      (by decide) (by decide) sectionBegin_ne_nil (Or.inl he1)
    simpa [List.append_assoc] using h
  have he : specHasLine (pfx ++ (sectionBegin ++ e1 ++ body ++ sectionEnd ++ e2) ++ tail)
      sectionEnd := by
    have h := specHasLine_marker (pfx ++ (sectionBegin ++ e1 ++ body)) sectionEnd e2 tail
      (lineStart_section_head pfx e1 body he1 hbody) (by decide) (by decide) sectionEnd_ne_nil he2
    simpa [List.append_assoc] using h
  have hsplice := appendToSection_splice (pfx ++ S) sectionEnd (e2 ++ tail) x 10 hs h1 h2
    (Or.inl rfl) sectionEnd_free (List.infix_refl _) (passable_lineEnd e2 tail he2 htail)
  have hfile : pfx ++ (sectionBegin ++ e1 ++ body ++ sectionEnd ++ e2) ++ tail
      = (pfx ++ S) ++ x :: 10 :: (sectionEnd ++ (e2 ++ tail)) := by
    rw [hS]; simp
  rw [write, sectionFound_of_specHasLine _ hshort hb he]
  simp only
  rw [hfile, hsplice]
  simp

/-! ## The extend path: the file read back -/

theorem length_entryLast_www (h : List Byte) :
    (entryLast h).length + 4 = (entryLast (www h)).length := by
  have : (bytes "www.").length = 4 := by decide
  simp only [entryLast, www, List.length_append, this]
  omega

/-- The lines stay short when the entries of a short host are put in after whole lines. -/
theorem shortLines_layout_entries (pre rest h : List Byte) (hpre : pre.getLast? = some 10)
    (hshort : ShortLines (pre ++ rest)) (h10 : 10 ∉ h)
    (hlen : (entryLast (www h)).length < maxScanTokenSize) :
    ShortLines (pre ++ (([h, www h].map entryLine).flatten ++ rest)) := by
  have a10 : 10 ∉ bytes "www." := by decide
  have hw10 : 10 ∉ www h := by simp [www, a10, h10]
  have hlen2 : (entryLast h).length < maxScanTokenSize := by
    have := length_entryLast_www h
    omega
  rw [shortLines_lineStart _ _ hpre] at hshort ⊢
  refine ⟨hshort.1, (shortLines_entries _ _).2 ⟨?_, hshort.2⟩⟩
  intro e he
  rcases List.mem_cons.1 he with he | he
  · rw [he]; exact shortLines_entryLast h h10 hlen2
  · rw [List.mem_singleton.1 he]; exact shortLines_entryLast _ hw10 hlen

/-- The parser on a file in the layout `Layout`, with entries `es` put in before the empty
line: the hosts of the lines before, then `es`. -/
theorem getHosts_layout (norm : List Byte → Option (List Byte)) (pre e2 tail : List Byte)
    (es : List (List Byte))
    (hshort : ShortLines (pre ++ ((es.map entryLine).flatten ++ 10 :: (sectionEnd ++ e2 ++ tail))))
    (hpre : pre.getLast? = some 10) (hb : specHasLine pre sectionBegin)
    (he : ¬ specHasLine pre sectionEnd) (he2 : LineEnd e2 tail) (hes : ∀ e ∈ es, Plain norm e) :
    getHosts norm (pre ++ ((es.map entryLine).flatten ++ 10 :: (sectionEnd ++ e2 ++ tail)))
      = match getHostsLoop norm (specLines pre) false [] with
        | .error e => .error e
        | .ok hs => .ok (hs ++ es) := by
  have h1 : ∀ e ∈ es, 10 ∉ e ∧ 13 ∉ e := fun e he => ⟨(hes e he).2.1, (hes e he).2.2.1⟩
  have h2 : ∀ e ∈ es, 9 ∉ e ∧ norm e = some e := fun e he => ⟨(hes e he).1, (hes e he).2.2.2⟩
  obtain ⟨rest, hrest⟩ := specLines_marker sectionEnd e2 tail (by decide) (by decide)
    sectionEnd_ne_nil he2
  have hb2 : sectionBegin ∈ specLines pre := hb
  rw [getHosts_of_short _ _ hshort]
  rw [specLines_lineStart _ _ (Or.inr hpre), specLines_entries _ _ h1, specLines_blank, hrest,
    getHostsLoop_append _ _ _ _ _ he]
  cases hloop : getHostsLoop norm (specLines pre) false [] with
  | error e => rfl
  | ok hs =>
    simp only [hb2, decide_True, Bool.or_true]
    rw [getHostsLoop_entries _ _ _ _ h2, getHostsLoop_blank, getHostsLoop_end]

/-- The run on a file in the layout `Layout` with a new host: the two entries go in before the
empty line, and the parser reads them back after the hosts it read before. -/
theorem main_extend (norm : List Byte → Option (List Byte)) (file pre e2 tail h : List Byte)
    (hosts : List (List Byte)) (hshort : ShortLines file) (hl : Layout file pre e2 tail)
    (hget : getHosts norm file = .ok hosts) (hnew : h ∉ hosts) (hplain : Plain norm h)
    (hwww : norm (www h) = some (www h))
    (hlen : (entryLast (www h)).length < maxScanTokenSize) :
    main norm file h
        = { stop := none
            file := pre ++ (entryLine h ++ entryLine (www h)
              ++ 10 :: (sectionEnd ++ e2 ++ tail)) }
      ∧ getHosts norm (pre ++ (entryLine h ++ entryLine (www h)
              ++ 10 :: (sectionEnd ++ e2 ++ tail))) = .ok (hosts ++ [h, www h]) := by
  obtain ⟨hfile, hpre, hb, he, he2, htail⟩ := hl
  have hes : ∀ e ∈ [h, www h], Plain norm e := by
    intro e he
    rcases List.mem_cons.1 he with he | he
    · rw [he]; exact hplain
    · rw [List.mem_singleton.1 he]
      exact plain_www norm h hplain.1 hplain.2.1 hplain.2.2.1 hwww
  have hshort0 : ShortLines (pre ++ ((([] : List (List Byte)).map entryLine).flatten
      ++ 10 :: (sectionEnd ++ e2 ++ tail))) := by
    rw [hfile] at hshort
    simpa using hshort
  have hshort2 : ShortLines (pre ++ (([h, www h].map entryLine).flatten
      ++ 10 :: (sectionEnd ++ e2 ++ tail))) :=
    shortLines_layout_entries pre _ h hpre (by rw [← hfile]; exact hshort) hplain.2.1 hlen
  have hold := getHosts_layout norm pre e2 tail [] hshort0 hpre hb he he2 (by simp)
  have hnew2 := getHosts_layout norm pre e2 tail [h, www h] hshort2 hpre hb he he2 hes
  simp only [List.map_nil, List.flatten_nil, List.nil_append] at hold
  rw [← hfile, hget] at hold
  have hloop : getHostsLoop norm (specLines pre) false [] = .ok hosts := by
    cases hc : getHostsLoop norm (specLines pre) false [] with
    | error e => rw [hc] at hold; cases hold
    | ok hs =>
      rw [hc] at hold
      simp only [List.append_nil] at hold
      rw [hold]
  rw [hloop] at hnew2
  have hflat : ([h, www h].map entryLine).flatten = entryLine h ++ entryLine (www h) := by simp
  rw [hflat] at hnew2
  refine ⟨?_, hnew2⟩
  obtain ⟨q, hq⟩ := List.getLast?_eq_some_iff.1 hpre
  have hbf : specHasLine file sectionBegin := by
    rw [hfile]; exact specHasLine_append_of_left _ _ _ (Or.inr hpre) hb
  have hef : specHasLine file sectionEnd := by
    have h3 := specHasLine_marker (pre ++ [10]) sectionEnd e2 tail (Or.inr (by simp))
      (by decide) (by decide) sectionEnd_ne_nil he2
    rw [hfile]
    simpa [List.append_assoc] using h3
  have hsplice := appendToSection_splice q sectionEnd (e2 ++ tail) 10 10 hosts h (www h)
    (Or.inl rfl) sectionEnd_free (List.infix_refl _) (passable_lineEnd e2 tail he2 htail)
  have hfile2 : file = q ++ 10 :: 10 :: (sectionEnd ++ (e2 ++ tail)) := by
    rw [hfile, hq]; simp
  rw [← hfile2] at hsplice
  rw [main, hget]
  simp only [add_of_not_mem hnew, write, sectionFound_of_specHasLine _ hshort hbf hef, hsplice]
  rw [hq]
  simp [entryLine, entryLast]

/-! ## The run on a host already blocked -/

theorem main_duplicate (norm : List Byte → Option (List Byte)) (file h : List Byte)
    (hosts : List (List Byte)) (hget : getHosts norm file = .ok hosts) (hmem : h ∈ hosts) :
    main norm file h = { stop := some .exit0, file := file } := by
  simp [main, hget, add_of_mem hmem]

theorem plain_pair (norm : List Byte → Option (List Byte)) (h : List Byte)
    (hplain : Plain norm h) (hwww : norm (www h) = some (www h)) :
    ∀ e ∈ [h, www h], Plain norm e := by
  intro e he
  rcases List.mem_cons.1 he with he | he
  · rw [he]; exact hplain
  · rw [List.mem_singleton.1 he]
    exact plain_www norm h hplain.1 hplain.2.1 hplain.2.2.1 hwww

theorem length_pair (h : List Byte) (hlen : (entryLast (www h)).length < maxScanTokenSize) :
    ∀ e ∈ [h, www h], (entryLast e).length < maxScanTokenSize := by
  intro e he
  rcases List.mem_cons.1 he with he | he
  · rw [he]
    have := length_entryLast_www h
    omega
  · rw [List.mem_singleton.1 he]; exact hlen

/-- A run that adds a plain host to a file without section, or with a section in the layout
`Layout`, returns, and the parser then reads the old hosts followed by the two new ones. -/
theorem main_read_back (norm : List Byte → Option (List Byte)) (file h : List Byte)
    (hosts : List (List Byte)) (hshort : ShortLines file)
    (hfile : NoSection file ∨ Extendable file)
    (hget : getHosts norm file = .ok hosts) (hnew : h ∉ hosts) (hplain : Plain norm h)
    (hwww : norm (www h) = some (www h))
    (hlen : (entryLast (www h)).length < maxScanTokenSize) :
    (main norm file h).stop = none
      ∧ getHosts norm (main norm file h).file = .ok (hosts ++ [h, www h]) := by
  rcases hfile with hno | ⟨pre, e2, tail, hl⟩
  · have h0 : getHosts norm file = .ok [] :=
      getHostsLoop_not_started _ _ _ (fun hm => hno.1 (specHasLine_of_hasLine _ _ hm))
    have hnil : hosts = [] := by
      rw [h0] at hget
      cases hget
      rfl
    have hrb := newSection_read_back norm file [h, www h] hshort hno.1 hno.2
      (plain_pair norm h hplain hwww) (length_pair h hlen)
    rw [main_create norm file h hno.1 hno.2, hnil]
    exact ⟨rfl, hrb.2⟩
  · obtain ⟨hm, hg⟩ := main_extend norm file pre e2 tail h hosts hshort hl hget hnew hplain hwww
      hlen
    rw [hm]
    exact ⟨rfl, hg⟩

/-! ## The iteration budget of the model is never used up -/

theorem seekEnd_eq_some (file : List Byte) (cursor : Int) (pos : Nat)
    (h : seekEnd file cursor = some pos) : (pos : Int) = (file.length : Int) + cursor := by
  unfold seekEnd at h
  split at h
  · cases h
    omega
  · cases h

/-- The cursor that the loop of `findSection` returns is before the cursor it started from
and not before the beginning of the file. -/
theorem findSectionLoop_cursor (file : List Byte) (fuel : Nat) :
    ∀ (line : List Byte) (cursor : Int) (r : List Byte × Int),
      findSectionLoop file (file.length : Int) fuel line cursor = .ok r →
      r.2 < cursor ∧ -(file.length : Int) ≤ r.2 := by
  induction fuel with
  | zero => intro line cursor r h; simp [findSectionLoop] at h
  | succ fuel ih =>
    intro line cursor r h
    rw [findSectionLoop] at h
    simp only at h
    cases hs : seekEnd file (cursor - 1) with
    | none => rw [hs] at h; cases h
    | some pos =>
      have hpos := seekEnd_eq_some file _ pos hs
      rw [hs] at h
      simp only at h
      cases hg : file.get? pos with
      | none => rw [hg] at h; cases h
      | some c =>
        rw [hg] at h
        simp only at h
        split at h
        · cases h
          exact ⟨by simp, by simp only; omega⟩
        · split at h
          · cases h
            exact ⟨by simp, by simp only; omega⟩
          · have := ih _ _ _ h
            exact ⟨by omega, this.2⟩

theorem findSectionLoop_ne_fuel (file : List Byte) (fuel : Nat) :
    ∀ (line : List Byte) (cursor : Int), 1 ≤ fuel → (file.length : Int) + cursor ≤ fuel →
      findSectionLoop file (file.length : Int) fuel line cursor ≠ .error .fuel := by
  induction fuel with
  | zero => intro line cursor h; omega
  | succ fuel ih =>
    intro line cursor _ hc
    rw [findSectionLoop]
    simp only
    cases hs : seekEnd file (cursor - 1) with
    | none => simp
    | some pos =>
      have hpos := seekEnd_eq_some file _ pos hs
      simp only
      cases hg : file.get? pos with
      | none => simp
      | some c =>
        simp only
        split
        · simp
        · split
          · simp
          · rename_i hne
            exact ih _ _ (by push_cast at hc; omega) (by push_cast at hc; omega)

theorem findSection_cursor (file : List Byte) (start : Int) (r : List Byte × Int)
    (h : findSection file start = .ok r) : r.2 < start ∧ -(file.length : Int) ≤ r.2 :=
  findSectionLoop_cursor file _ _ _ _ h

theorem findSection_ne_fuel (file : List Byte) (start : Int) (h : start ≤ 0) :
    findSection file start ≠ .error .fuel :=
  findSectionLoop_ne_fuel file _ _ _ (by omega) (by push_cast; omega)

theorem searchLoop_ne_fuel (file : List Byte) (fuel : Nat) :
    ∀ (cursor : Int), cursor ≤ 0 → 1 ≤ fuel → (file.length : Int) + cursor + 1 ≤ fuel →
      searchLoop file fuel cursor ≠ .error .fuel := by
  induction fuel with
  | zero => intro cursor _ h; omega
  | succ fuel ih =>
    intro cursor h0 _ hc
    rw [searchLoop]
    cases hf : findSection file cursor with
    | error e =>
      simp only
      intro h
      cases h
      exact findSection_ne_fuel file cursor h0 hf
    | ok r =>
      obtain ⟨line, c2⟩ := r
      have hcur := findSection_cursor file cursor _ hf
      simp only at hcur ⊢
      split
      · simp
      · exact ih c2 (by omega) (by push_cast at hc; omega) (by push_cast at hc; omega)

/-- The budget of the search in `appendToSection` is enough: the method stops or returns as
the program does. -/
theorem appendToSection_ne_fuel (file : List Byte) (hosts : List (List Byte)) :
    appendToSection file hosts ≠ .error .fuel := by
  unfold appendToSection
  cases hs : searchLoop file (file.length + 1) 0 with
  | error e =>
    simp only
    intro h
    cases h
    exact searchLoop_ne_fuel file _ 0 (le_refl _) (by omega) (by push_cast; omega) hs
  | ok r =>
    simp only
    split
    · simp
    · split
      · simp
      · split <;> simp

theorem getHostsLoop_ne_fuel (norm : List Byte → Option (List Byte)) (lines : List (List Byte)) :
    ∀ (s : Bool) (hosts : List (List Byte)), getHostsLoop norm lines s hosts ≠ .error .fuel := by
  induction lines with
  | nil => intro s hosts; simp [getHostsLoop]
  | cons text rest ih =>
    intro s hosts
    rw [getHostsLoop]
    by_cases h1 : text ≠ sectionBegin ∧ text = sectionEnd
    · rw [if_pos h1]; simp
    · rw [if_neg h1]
      simp only
      generalize (if text = sectionBegin then true else s) = s2
      by_cases h2 : s2 = true ∧ stringsContains text addr = true
      · rw [if_pos h2]
        cases hsplit : (stringsSplit 9 text).get? 1 with
        | none => simp
        | some field =>
          simp only
          cases hn : norm field with
          | none => simp
          | some name => exact ih _ _
      · rw [if_neg h2]
        exact ih _ _

theorem sectionFound_ne_fuel (file : List Byte) : sectionFound file ≠ .error .fuel := by
  rw [sectionFound_eq]
  split_ifs <;> simp

/-- A run never ends because a budget of the model ran out. -/
theorem main_ne_fuel (norm : List Byte → Option (List Byte)) (file h : List Byte) :
    (main norm file h).stop ≠ some .fuel := by
  unfold main
  cases hg : getHosts norm file with
  | error e =>
    simp only
    intro h2
    cases h2
    exact getHostsLoop_ne_fuel norm _ _ _ hg
  | ok hosts =>
    simp only
    cases ha : add hosts h with
    | error e =>
      simp only
      intro h2
      cases h2
      unfold add at ha
      split at ha <;> cases ha
    | ok hosts2 =>
      simp only
      cases hw : write file hosts2 with
      | error e =>
        simp only
        intro h2
        cases h2
        unfold write at hw
        cases hsf : sectionFound file with
        | error e2 =>
          rw [hsf] at hw
          simp only at hw
          cases hw
          exact sectionFound_ne_fuel file hsf
        | ok b =>
          rw [hsf] at hw
          cases b
          · simp at hw
          · exact appendToSection_ne_fuel file hosts2 hw
      | ok file2 => simp

/-! ## The parser against its reference definition -/

theorem getHostsLoop_started (norm : List Byte → Option (List Byte)) (lines : List (List Byte)) :
    ∀ hosts : List (List Byte),
      getHostsLoop norm lines true hosts
        = match specParse norm ((lines.takeWhile (fun t => decide (t ≠ sectionEnd))).filter
            (fun t => stringsContains t addr)) with
          | .error e => .error e
          | .ok names => .ok (hosts ++ names) := by
  induction lines with
  | nil => intro hosts; simp [getHostsLoop, specParse]
  | cons text rest ih =>
    intro hosts
    by_cases he : text = sectionEnd
    · subst he
      simp [getHostsLoop_end, specParse]
    · rw [getHostsLoop]
      have h1 : ¬ (text ≠ sectionBegin ∧ text = sectionEnd) := fun h => he h.2
      rw [if_neg h1]
      simp only [ite_self, true_and]
      rw [List.takeWhile_cons_of_pos (by simpa using he)]
      by_cases hc : stringsContains text addr = true
      · rw [if_pos hc, List.filter_cons, if_pos hc, specParse]
        cases hs : (stringsSplit 9 text).get? 1 with
        | none => rfl
        | some field =>
          simp only
          cases hn : norm field with
          | none => rfl
          | some name =>
            simp only
            rw [ih]
            cases specParse norm ((rest.takeWhile (fun t => decide (t ≠ sectionEnd))).filter
              (fun t => stringsContains t addr)) with
            | error e => rfl
            | ok names => simp
      · rw [if_neg hc, List.filter_cons, if_neg hc]
        exact ih hosts

theorem getHostsLoop_eq_spec (norm : List Byte → Option (List Byte))
    (lines : List (List Byte)) :
    getHostsLoop norm lines false []
      = specParse norm ((((lines.takeWhile (fun t => decide (t ≠ sectionEnd))).dropWhile
          (fun t => decide (t ≠ sectionBegin))).drop 1).filter
            (fun t => stringsContains t addr)) := by
  induction lines with
  | nil => simp [getHostsLoop, specParse]
  | cons text rest ih =>
    by_cases he : text = sectionEnd
    · subst he
      simp [getHostsLoop_end, specParse]
    · rw [List.takeWhile_cons_of_pos (by simpa using he)]
      by_cases hb : text = sectionBegin
      · subst hb
        rw [getHostsLoop_begin, getHostsLoop_started, List.dropWhile_cons_of_neg (by simp)]
        simp only [List.drop_succ_cons, List.drop_zero, List.nil_append]
        cases specParse norm ((rest.takeWhile (fun t => decide (t ≠ sectionEnd))).filter
            (fun t => stringsContains t addr)) <;> rfl
      · rw [List.dropWhile_cons_of_pos (by simpa using hb), ← ih, getHostsLoop]
        have h1 : ¬ (text ≠ sectionBegin ∧ text = sectionEnd) := fun h => he h.2
        simp [h1, hb, he]

theorem getHosts_eq_spec (norm : List Byte → Option (List Byte)) (file : List Byte)
    (hshort : ShortLines file) :
    getHosts norm file = specParse norm (specRecordLines file) := by
  rw [getHosts_of_short _ _ hshort]
  exact getHostsLoop_eq_spec norm (specLines file)

theorem specParse_ok_iff (norm : List Byte → Option (List Byte)) (records : List (List Byte)) :
    ∀ hosts : List (List Byte),
      specParse norm records = .ok hosts ↔ records.map (specHost norm) = hosts.map some := by
  induction records with
  | nil =>
    intro hosts
    cases hosts <;> simp [specParse]
  | cons text rest ih =>
    intro hosts
    rw [specParse, List.map_cons]
    cases hs : (stringsSplit 9 text).get? 1 with
    | none =>
      have hv : specHost norm text = none := by rw [specHost, hs]; rfl
      rw [hv]
      cases hosts <;> simp
    | some field =>
      simp only
      cases hn : norm field with
      | none =>
        have hv : specHost norm text = none := by rw [specHost, hs]; exact hn
        rw [hv]
        cases hosts <;> simp
      | some name =>
        have hv : specHost norm text = some name := by rw [specHost, hs]; exact hn
        rw [hv]
        simp only
        cases hr : specParse norm rest with
        | error e =>
          cases hosts with
          | nil => simp
          | cons x xs =>
            have := (ih xs).not.1 (by rw [hr]; simp)
            simp [this]
        | ok names =>
          cases hosts with
          | nil => simp
          | cons x xs =>
            have := ih xs
            rw [hr] at this
            simp only [Except.ok.injEq] at this
            simp [← this]

theorem specParse_error (norm : List Byte → Option (List Byte)) (records : List (List Byte))
    (text : List Byte) (hmem : text ∈ records) (hnone : specHost norm text = none) :
    ∃ e, specParse norm records = .error e ∧ (e = .outOfRange ∨ e = .urlParse) := by
  induction records with
  | nil => cases hmem
  | cons t rest ih =>
    rw [specParse]
    cases hs : (stringsSplit 9 t).get? 1 with
    | none => exact ⟨_, rfl, Or.inl rfl⟩
    | some field =>
      simp only
      cases hn : norm field with
      | none => exact ⟨_, rfl, Or.inr rfl⟩
      | some name =>
        simp only
        have hv : specHost norm t = some name := by rw [specHost, hs]; exact hn
        rcases List.mem_cons.1 hmem with h | h
        · rw [h, hv] at hnone
          cases hnone
        · obtain ⟨e, he, hk⟩ := ih h
          rw [he]
          exact ⟨e, rfl, hk⟩

/-! ## Runs one after the other -/

theorem sectionFound_of_layout (file pre e2 tail : List Byte) (hshort : ShortLines file)
    (hl : Layout file pre e2 tail) : sectionFound file = .ok true := by
  obtain ⟨hfile, hpre, hb, _, he2, _⟩ := hl
  have hbf : specHasLine file sectionBegin := by
    rw [hfile]; exact specHasLine_append_of_left _ _ _ (Or.inr hpre) hb
  have hef : specHasLine file sectionEnd := by
    have h3 := specHasLine_marker (pre ++ [10]) sectionEnd e2 tail (Or.inr (by simp))
      (by decide) (by decide) sectionEnd_ne_nil he2
    rw [hfile]
    simpa [List.append_assoc] using h3
  exact sectionFound_of_specHasLine _ hshort hbf hef

theorem specLines_append_entries (pre h : List Byte) (hpre : LineStart pre)
    (h10 : 10 ∉ h) (h13 : 13 ∉ h) :
    specLines (pre ++ (entryLine h ++ entryLine (www h)))
      = specLines pre ++ [entryLast h, entryLast (www h)] := by
  have a10 : 10 ∉ bytes "www." := by decide
  have a13 : 13 ∉ bytes "www." := by decide
  have hes : ∀ e ∈ [h, www h], 10 ∉ e ∧ 13 ∉ e := by
    intro e he
    rcases List.mem_cons.1 he with he | he
    · rw [he]; exact ⟨h10, h13⟩
    · rw [List.mem_singleton.1 he]
      constructor <;> simp [www, *]
  have h2 := specLines_entries [h, www h] [] hes
  simp only [List.map_cons, List.map_nil, List.flatten_cons, List.flatten_nil,
    List.append_nil, specLines_nil] at h2
  rw [specLines_lineStart _ _ hpre, h2]

/-- The layout is kept when two entries are put in before the empty line. -/
theorem layout_entries (file pre e2 tail h : List Byte) (hl : Layout file pre e2 tail)
    (h10 : 10 ∉ h) (h13 : 13 ∉ h) :
    Layout (pre ++ (entryLine h ++ entryLine (www h) ++ 10 :: (sectionEnd ++ e2 ++ tail)))
      (pre ++ (entryLine h ++ entryLine (www h))) e2 tail := by
  obtain ⟨_, hpre, hb, he, he2, htail⟩ := hl
  have hlines := specLines_append_entries pre h (Or.inr hpre) h10 h13
  refine ⟨by simp, ?_, ?_, ?_, he2, htail⟩
  · rw [List.getLast?_eq_some_iff]
    exact ⟨pre ++ (entryLine h ++ entryLast (www h)), by simp [entryLine, entryLast]⟩
  · exact specHasLine_append_of_left _ _ _ (Or.inr hpre) hb
  · unfold specHasLine at he ⊢
    rw [hlines]
    intro hmem
    rcases List.mem_append.1 hmem with hm | hm
    · exact he hm
    · rcases List.mem_cons.1 hm with hm | hm
      · exact entryLast_ne_sectionEnd _ hm.symm
      · exact entryLast_ne_sectionEnd _ (List.mem_singleton.1 hm).symm

/-- The file that `newSection` leaves for one host has the layout. -/
theorem layout_newSection (file h : List Byte) (hno : NoSection file)
    (h10 : 10 ∉ h) (h13 : 13 ∉ h) :
    Layout (newSection file [h, www h])
      (file ++ 10 :: (sectionBegin ++ [10, 10]) ++ (entryLine h ++ entryLine (www h)))
      [10] [10] := by
  have hpre0 : LineStart (file ++ 10 :: (sectionBegin ++ [10, 10])) := by
    right
    rw [List.getLast?_eq_some_iff]
    exact ⟨file ++ 10 :: (sectionBegin ++ [10]), by simp⟩
  have hlines0 : specLines (file ++ 10 :: (sectionBegin ++ [10, 10]))
      = specLines (file ++ [10]) ++ [sectionBegin, []] := by
    have hb10 : 10 ∉ sectionBegin := by decide
    have hb13 : 13 ∉ sectionBegin := by decide
    have h1 : specLines [10] = [[]] := by decide
    rw [specLines_complete]
    have : sectionBegin ++ [10, 10] = sectionBegin ++ 10 :: [10] := rfl
    rw [this, specLines_line _ _ hb10, dropCR_of_not_mem _ hb13, h1]
  have hlines := specLines_append_entries _ h hpre0 h10 h13
  refine ⟨?_, ?_, ?_, ?_, Or.inl (Or.inl rfl), by decide⟩
  · rw [newSection_eq]; simp
  · rw [List.getLast?_eq_some_iff]
    exact ⟨file ++ 10 :: (sectionBegin ++ [10, 10]) ++ (entryLine h ++ entryLast (www h)),
      by simp [entryLine, entryLast]⟩
  · unfold specHasLine
    rw [hlines, hlines0]
    simp
  · unfold specHasLine
    rw [hlines, hlines0]
    intro hmem
    have he2 : sectionEnd ∉ specLines (file ++ [10]) :=
      not_specHasLine_newline file _ sectionEnd_ne_nil hno.2
    simp only [List.mem_append, List.mem_cons, List.mem_singleton, List.not_mem_nil,
      or_false] at hmem
    rcases hmem with (hm | hm | hm) | hm | hm
    · exact he2 hm
    · exact sectionBegin_ne_sectionEnd hm.symm
    · exact sectionEnd_ne_nil hm
    · exact entryLast_ne_sectionEnd _ hm.symm
    · exact entryLast_ne_sectionEnd _ hm.symm

/-- Runs on a file in the layout with plain hosts, each new when it is added: the layout is
kept, the bytes before the empty line stay a prefix, and the list grows by each host and its
`www.` name. -/
theorem runs_layout (norm : List Byte → Option (List Byte)) (e2 tail : List Byte) :
    ∀ (hs : List (List Byte)) (file pre : List Byte) (hosts : List (List Byte)),
      ShortLines file → Layout file pre e2 tail → getHosts norm file = .ok hosts →
      (∀ h ∈ hs, Plain norm h ∧ norm (www h) = some (www h)
        ∧ (entryLast (www h)).length < maxScanTokenSize) → Fresh hosts hs →
      ∃ pre2, ShortLines (runs norm file hs) ∧ Layout (runs norm file hs) pre2 e2 tail
        ∧ pre <+: pre2
        ∧ getHosts norm (runs norm file hs) = .ok (hosts ++ withVariants hs) := by
  intro hs
  induction hs with
  | nil =>
    intro file pre hosts hshort hl hget _ _
    exact ⟨pre, hshort, hl, List.prefix_refl _, by simpa [runs, withVariants] using hget⟩
  | cons h hs ih =>
    intro file pre hosts hshort hl hget hplain hfresh
    obtain ⟨hp, hw, hlen⟩ := hplain h (by simp)
    obtain ⟨hm, hg⟩ := main_extend norm file pre e2 tail h hosts hshort hl hget hfresh.1 hp hw
      hlen
    have hl2 := layout_entries file pre e2 tail h hl hp.2.1 hp.2.2.1
    have hfile2 : (main norm file h).file
        = pre ++ (entryLine h ++ entryLine (www h) ++ 10 :: (sectionEnd ++ e2 ++ tail)) := by
      rw [hm]
    have hshort2 : ShortLines (main norm file h).file := by
      have := shortLines_layout_entries pre (10 :: (sectionEnd ++ e2 ++ tail)) h hl.2.1
        (by rw [← hl.1]; exact hshort) hp.2.1 hlen
      rw [hfile2]
      simpa using this
    obtain ⟨pre2, hs3, hl3, hpre3, hg3⟩ := ih (main norm file h).file
      (pre ++ (entryLine h ++ entryLine (www h))) (hosts ++ [h, www h]) hshort2
      (by rw [hfile2]; exact hl2) (by rw [hfile2]; exact hg)
      (fun x hx => hplain x (List.mem_cons_of_mem _ hx)) hfresh.2
    refine ⟨pre2, by rw [runs]; exact hs3, hl3, (List.prefix_append _ _).trans hpre3, ?_⟩
    rw [runs, hg3]
    simp [withVariants, www]

/-! ## The backward scan: a call that reaches the beginning of the file -/

/-- The loop of `findSection` where no line terminator is left before the cursor: it takes the
bytes back to the first byte of the file. -/
theorem findSectionLoop_first (L B : List Byte) (c : Byte) (hc : ¬ isTerm c)
    (hL : ∀ b ∈ L, ¬ isTerm b) (line : List Byte) (fuel : Nat) (hfuel : L.length + 1 ≤ fuel) :
    findSectionLoop (c :: (L ++ B)) ((c :: (L ++ B)).length : Int) fuel line (-(B.length : Int))
      = .ok (c :: (L ++ line), -((c :: (L ++ B)).length : Int)) := by
  have hfile : c :: (L ++ B) = [c] ++ (L ++ B) := rfl
  have hfile2 : c :: (L ++ B) = [] ++ c :: (L ++ B) := rfl
  obtain ⟨k, rfl⟩ : ∃ k, fuel = (k + 1) + L.length := ⟨fuel - L.length - 1, by omega⟩
  conv_lhs => rw [hfile, findSectionLoop_chunk [c] L (by simp) hL B line (k + 1)]
  rw [← hfile]
  conv_lhs => rw [hfile2, findSectionLoop_succ]
  rw [← hfile2]
  have h2 : -((L ++ B).length : Int) - 1 = -((c :: (L ++ B)).length : Int) := by
    simp only [List.length_cons, Nat.cast_add, Nat.cast_one]; omega
  rw [if_neg (fun h => hc h.2), if_pos h2, h2]

theorem findSection_first (L B : List Byte) (c : Byte) (hc : ¬ isTerm c)
    (hL : ∀ b ∈ L, ¬ isTerm b) :
    findSection (c :: (L ++ B)) (-(B.length : Int))
      = .ok (c :: L, -((c :: (L ++ B)).length : Int)) := by
  unfold findSection
  rw [findSectionLoop_first L B c hc hL [] _ (by simp; omega)]
  simp

theorem findSection_first_end (L : List Byte) (c0 : Byte) (hL : ∀ b ∈ L, ¬ isTerm b) :
    findSection (L ++ [c0]) 0 = .ok (L ++ [c0], -((L ++ [c0]).length : Int)) := by
  have h0 : (0 : Int) = -(([] : List Byte).length : Int) := by simp
  have hfile : L ++ [c0] = L ++ c0 :: [] := rfl
  unfold findSection
  conv_lhs => rw [h0, hfile, findSectionLoop_succ]
  have h1 : ¬ (-(([] : List Byte).length : Int) - 1 ≠ -1 ∧ (c0 = 10 ∨ c0 = 13)) := by simp
  rw [if_neg h1]
  cases L with
  | nil => simp
  | cons c L =>
    have h2 : ¬ (-(([] : List Byte).length : Int) - 1 = -(((c :: L) ++ c0 :: []).length : Int)) := by
      simp only [List.length_append, List.length_cons, List.length_nil, Nat.cast_add,
        Nat.cast_one]
      omega
    rw [if_neg h2]
    have h3 : -(([] : List Byte).length : Int) - 1 = -(([c0] : List Byte).length : Int) := by simp
    have hfile2 : (c :: L) ++ c0 :: [] = c :: (L ++ [c0]) := rfl
    rw [h3, hfile2, findSectionLoop_first L [c0] c (hL c (by simp))
      (fun b hb => hL b (List.mem_cons_of_mem _ hb)) [c0] _ (by simp)]

theorem findSection_seek (file : List Byte) :
    findSection file (-(file.length : Int)) = .error .seek := by
  unfold findSection
  rw [findSectionLoop, seekEnd_before _ _ (by omega)]

/-- What one call of `findSection` returns, `k` bytes before the end of a file with more than
`k` bytes.  The bytes before the cursor are `A ++ L ++ X`: `X` is the last byte of the file
where the call starts from the end (`k = 0`) and empty otherwise, `L` has no line terminator,
and `A` is empty or ends in a line terminator.  The line is `L ++ X`, and the cursor is on that
terminator, or on the first byte of the file where `A` is empty. -/
theorem findSection_spec (file : List Byte) (k : Nat) (hk : k < file.length) :
    ∃ line c, findSection file (-(k : Int)) = .ok (line, c)
      ∧ -(file.length : Int) ≤ c ∧ c < -(k : Int)
      ∧ ∃ A L X, file.take (file.length - k) = A ++ L ++ X ∧ line = L ++ X
        ∧ (∀ b ∈ L, ¬ isTerm b) ∧ (k = 0 → X.length = 1) ∧ (k ≠ 0 → X = [])
        ∧ ((A = [] ∧ c = -(file.length : Int))
          ∨ ∃ A2 t, A = A2 ++ [t] ∧ isTerm t ∧ c = -((t :: line).length + k : Int)) := by
  obtain ⟨B, V, hBV, hB, hV⟩ : ∃ B V, file = B ++ V ∧ B = file.take (file.length - k)
      ∧ V.length = k :=
    ⟨file.take (file.length - k), file.drop (file.length - k), by simp, rfl,
      by simp; omega⟩
  have hBne : B ≠ [] := by
    intro h
    rw [h, List.nil_append] at hBV
    rw [hBV] at hk
    omega
  rw [← hB]
  by_cases hk0 : k = 0
  · subst hk0
    have hVnil : V = [] := List.length_eq_zero.1 hV
    subst hVnil
    obtain ⟨B0, c0, hB0⟩ : ∃ B0 c0, B = B0 ++ [c0] := by
      rcases List.eq_nil_or_concat B with h | ⟨B0, c0, h⟩
      · exact absurd h hBne
      · exact ⟨B0, c0, by simpa using h⟩
    have hfile : file = B0 ++ [c0] := by rw [hBV, hB0]; simp
    rcases last_term_split B0 with hfree | ⟨B1, t, L, hs, ht, hLfree⟩
    · refine ⟨B0 ++ [c0], -(file.length : Int), ?_, le_refl _, ?_, [], B0, [c0], by simp [hB0],
        rfl, hfree, fun _ => rfl, fun h => absurd rfl h, Or.inl ⟨rfl, rfl⟩⟩
      · rw [hfile]; exact findSection_first_end B0 c0 hfree
      · rw [hfile]; simp; omega
    · have hfile2 : file = B1 ++ t :: (L ++ [c0]) := by rw [hfile, hs]; simp
      refine ⟨L ++ [c0], -((L ++ [c0]).length : Int) - 1, ?_, ?_, ?_, B1 ++ [t], L, [c0],
        by simp [hB0, hs], rfl, hLfree, fun _ => rfl, fun h => absurd rfl h,
        Or.inr ⟨B1, t, rfl, ht, by simp; omega⟩⟩
      · rw [hfile2]; exact findSection_end B1 L t c0 ht hLfree
      · rw [hfile2]; simp; omega
      · simp; omega
  · have hVne : V ≠ [] := by
      intro h; rw [h] at hV; exact hk0 hV.symm
    rw [← hV]
    rcases last_term_split B with hfree | ⟨B1, t, L, hs, ht, hLfree⟩
    · obtain ⟨c, L, hcL⟩ : ∃ c L, B = c :: L := by
        cases B with
        | nil => exact absurd rfl hBne
        | cons c L => exact ⟨c, L, rfl⟩
      have hfile : file = c :: (L ++ V) := by rw [hBV, hcL]; rfl
      refine ⟨c :: L, -(file.length : Int), ?_, le_refl _, ?_, [], c :: L, [], by simp [hcL],
        by simp, by rw [← hcL]; exact hfree, fun h => absurd h (by omega), fun _ => rfl,
        Or.inl ⟨rfl, rfl⟩⟩
      · rw [hfile]
        exact findSection_first L V c (hfree c (by simp [hcL]))
          (fun b hb => hfree b (by simp [hcL, hb]))
      · rw [hfile]; simp; omega
    · have hfile : file = B1 ++ t :: (L ++ V) := by rw [hBV, hs]; simp
      refine ⟨L, -((L ++ V).length : Int) - 1, ?_, ?_, ?_, B1 ++ [t], L, [], by simp [hs],
        by simp, hLfree, fun h => absurd h (by omega), fun _ => rfl,
        Or.inr ⟨B1, t, rfl, ht, by simp; omega⟩⟩
      · rw [hfile]; exact findSection_mid B1 L V t ht hLfree hVne
      · rw [hfile]; simp; omega
      · simp; omega

/-! ## The backward scan: every outcome of the search -/

/-- A byte string without line terminator that occurs around a line terminator occurs before
it or after it. -/
theorem infix_split_term (s X Y : List Byte) (t : Byte) (hs : ∀ b ∈ s, ¬ isTerm b)
    (ht : isTerm t) (h : s <:+: X ++ t :: Y) : s <:+: X ∨ s <:+: Y := by
  obtain ⟨p, q, hpq⟩ := h
  have hts : t ∉ s := fun hmem => hs t hmem ht
  rcases List.append_eq_append_iff.1 hpq with ⟨a, ha1, ha2⟩ | ⟨c, hc1, hc2⟩
  · -- `X = p ++ s ++ a`
    exact Or.inl ⟨p, a, ha1.symm⟩
  · -- `p ++ s = X ++ c` and `t :: Y = c ++ q`
    cases c with
    | nil =>
      exact Or.inl ⟨p, [], by simpa using hc1⟩
    | cons c0 c =>
      have hc0 : c0 = t := by
        have := congrArg List.head? hc2
        simpa using this.symm
      subst hc0
      have hY : Y = c ++ q := by
        have := congrArg List.tail hc2
        simpa using this
      rcases List.append_eq_append_iff.1 hc1 with ⟨a, ha1, ha2⟩ | ⟨d, hd1, hd2⟩
      · -- `X = p ++ a`, `s = a ++ c0 :: c`
        exact absurd (by rw [ha2]; simp) hts
      · -- `p = X ++ d`, `c0 :: c = d ++ s`
        cases d with
        | nil =>
          rw [List.nil_append] at hd2
          exact absurd (by rw [← hd2]; simp) hts
        | cons d0 d =>
          have hc : c = d ++ s := by
            have := congrArg List.tail hd2
            simpa using this
          exact Or.inr ⟨d, q, by rw [hY, hc]⟩

theorem searchLoop_succ_error (file : List Byte) (fuel : Nat) (cursor : Int) (e : Stop)
    (h : findSection file cursor = .error e) :
    searchLoop file (fuel + 1) cursor = .error e := by
  rw [searchLoop, h]

theorem searchLoop_seek (file : List Byte) (fuel : Nat) (hfuel : 1 ≤ fuel) :
    searchLoop file fuel (-(file.length : Int)) = .error .seek := by
  obtain ⟨k, rfl⟩ : ∃ k, fuel = k + 1 := ⟨fuel - 1, by omega⟩
  exact searchLoop_succ_error file k _ _ (findSection_seek file)

theorem skipped_append (R L : List Byte) (t : Byte) (hR : Skipped R) (ht : isTerm t)
    (hL : ¬ sectionEnd <:+: L) : Skipped (R ++ t :: L) := by
  rcases hR with hR | ⟨t1, U, hR, ht1, hU⟩
  · subst hR
    exact Or.inr ⟨t, L, rfl, ht, hL⟩
  · subst hR
    refine Or.inr ⟨t1, U ++ t :: L, rfl, ht1, ?_⟩
    intro h
    rcases infix_split_term _ _ _ _ sectionEnd_free ht h with h | h
    · exact hU h
    · exact hL h

/-- The search from a cursor in the middle of the file, `B` being the bytes before the cursor:
it fails on the seek before the beginning where `B` has not the text of the end marker, and
otherwise it stops on the last line of `B` that contains the text. -/
theorem searchLoop_mid (file : List Byte) :
    ∀ (n : Nat) (B V : List Byte), B.length = n → file = B ++ V → V ≠ [] →
      ∀ fuel, B.length + 1 ≤ fuel →
      (¬ sectionEnd <:+: B → searchLoop file fuel (-(V.length : Int)) = .error .seek)
      ∧ (sectionEnd <:+: B → ∃ A M R, B = A ++ M ++ R ∧ sectionEnd <:+: M
          ∧ (∀ b ∈ M, ¬ isTerm b) ∧ Skipped R
          ∧ ((A = [] ∧ searchLoop file fuel (-(V.length : Int))
                = .ok (M, -(file.length : Int)))
            ∨ ∃ A2 t, A = A2 ++ [t] ∧ isTerm t
                ∧ searchLoop file fuel (-(V.length : Int))
                  = .ok (M, -((M ++ R ++ V).length : Int) - 1))) := by
  intro n
  induction n using Nat.strong_induction_on with
  | _ n ih =>
    intro B V hn hfile hV fuel hfuel
    obtain ⟨fuel2, rfl⟩ : ∃ k, fuel = k + 1 := ⟨fuel - 1, by omega⟩
    rcases last_term_split B with hfree | ⟨B1, t, L, hsplit, ht, hLfree⟩
    · cases B with
      | nil =>
        have hcur : -(V.length : Int) = -(file.length : Int) := by rw [hfile]; simp
        rw [hcur]
        refine ⟨fun _ => searchLoop_seek file _ (by omega), fun h => ?_⟩
        exact absurd (List.eq_nil_of_infix_nil h) sectionEnd_ne_nil
      | cons c L0 =>
        have hfile2 : file = c :: (L0 ++ V) := by rw [hfile]; rfl
        have hfs := findSection_first L0 V c (hfree c (by simp))
          (fun b hb => hfree b (List.mem_cons_of_mem _ hb))
        rw [← hfile2] at hfs
        rw [searchLoop_succ file fuel2 _ _ _ hfs]
        constructor
        · intro hno
          rw [if_neg (by rw [stringsContains_iff]; exact hno)]
          exact searchLoop_seek file _ (by simp at hfuel; omega)
        · intro hyes
          refine ⟨[], c :: L0, [], by simp, hyes, hfree, Or.inl rfl, Or.inl ⟨rfl, ?_⟩⟩
          rw [if_pos ((stringsContains_iff _ _).2 hyes)]
    · have hfile2 : file = B1 ++ t :: (L ++ V) := by rw [hfile, hsplit]; simp
      have hfs := findSection_mid B1 L V t ht hLfree hV
      rw [← hfile2] at hfs
      have hlen : B.length = B1.length + 1 + L.length := by rw [hsplit]; simp; omega
      have hcur : -((L ++ V).length : Int) - 1 = -((t :: (L ++ V)).length : Int) := by
        simp only [List.length_cons, Nat.cast_add, Nat.cast_one]; omega
      have hrec := ih B1.length (by omega) B1 (t :: (L ++ V)) rfl hfile2 (by simp) fuel2
        (by omega)
      rw [searchLoop_succ file fuel2 _ _ _ hfs]
      by_cases hL : sectionEnd <:+: L
      · rw [if_pos ((stringsContains_iff _ _).2 hL)]
        refine ⟨fun hno => absurd (hL.trans ⟨B1 ++ [t], [], by simp [hsplit]⟩) hno, fun _ => ?_⟩
        exact ⟨B1 ++ [t], L, [], by simp [hsplit], hL, hLfree, Or.inl rfl,
          Or.inr ⟨B1, t, rfl, ht, by simp⟩⟩
      · rw [if_neg (by rw [stringsContains_iff]; exact hL), hcur]
        constructor
        · intro hno
          exact hrec.1 (fun h => hno (h.trans ⟨[], t :: L, by simp [hsplit]⟩))
        · intro hyes
          have hB1 : sectionEnd <:+: B1 := by
            rw [hsplit] at hyes
            rcases infix_split_term _ _ _ _ sectionEnd_free ht hyes with h | h
            · exact h
            · exact absurd h hL
          obtain ⟨A, M, R, hB1eq, hM, hMfree, hR, hres⟩ := hrec.2 hB1
          refine ⟨A, M, R ++ t :: L, by rw [hsplit, hB1eq]; simp, hM, hMfree,
            skipped_append R L t hR ht hL, ?_⟩
          rcases hres with ⟨hA, hres⟩ | ⟨A2, t2, hA, ht2, hres⟩
          · exact Or.inl ⟨hA, hres⟩
          · refine Or.inr ⟨A2, t2, hA, ht2, ?_⟩
            rw [hres]
            simp

/-- The search of `appendToSection` on any file: it fails on the seek before the beginning
where the file has not the text of the end marker, and otherwise it stops on the last line that
contains the text. -/
theorem searchLoop_spec (file : List Byte) :
    (¬ sectionEnd <:+: file → searchLoop file (file.length + 1) 0 = .error .seek)
      ∧ (sectionEnd <:+: file →
        ∃ line c, searchLoop file (file.length + 1) 0 = .ok (line, c) ∧ StopsAt file line c) := by
  rcases List.eq_nil_or_concat file with hnil | ⟨B0, c0, hB0⟩
  · subst hnil
    refine ⟨fun _ => ?_, fun h => absurd (List.eq_nil_of_infix_nil h) sectionEnd_ne_nil⟩
    have := searchLoop_seek [] 1 (le_refl _)
    simpa using this
  · have hfile : file = B0 ++ [c0] := by simpa using hB0
    rcases last_term_split B0 with hfree | ⟨B1, t, L, hsplit, ht, hLfree⟩
    · have hfs := findSection_first_end B0 c0 hfree
      rw [← hfile] at hfs
      rw [searchLoop_succ file _ _ _ _ hfs]
      constructor
      · intro hno
        rw [if_neg (by rw [stringsContains_iff]; exact hno)]
        exact searchLoop_seek file _ (by rw [hfile]; simp)
      · intro hyes
        rw [if_pos (by rw [stringsContains_iff]; exact hyes)]
        refine ⟨file, _, rfl, [], [], by simp, hyes, by rw [hfile]; simpa using hfree,
          fun h => absurd rfl h, Or.inl rfl, Or.inl ⟨rfl, rfl⟩⟩
    · have hfile2 : file = B1 ++ t :: (L ++ [c0]) := by rw [hfile, hsplit]; simp
      have hfs := findSection_end B1 L t c0 ht hLfree
      rw [← hfile2] at hfs
      rw [searchLoop_succ file _ _ _ _ hfs]
      by_cases hL : sectionEnd <:+: L ++ [c0]
      · rw [if_pos ((stringsContains_iff _ _).2 hL)]
        refine ⟨fun hno => absurd (hL.trans ⟨B1 ++ [t], [], by simp [hfile2]⟩) hno, fun _ => ?_⟩
        exact ⟨L ++ [c0], _, rfl, B1 ++ [t], [], by simp [hfile2], hL, by simpa using hLfree,
          fun h => absurd rfl h, Or.inl rfl, Or.inr ⟨B1, t, rfl, ht, by simp⟩⟩
      · rw [if_neg (by rw [stringsContains_iff]; exact hL)]
        have hcur : -((L ++ [c0]).length : Int) - 1 = -((t :: (L ++ [c0])).length : Int) := by
          simp only [List.length_cons, List.length_append, List.length_singleton, Nat.cast_add,
            Nat.cast_one]; omega
        rw [hcur]
        have hmid := searchLoop_mid file B1.length B1 (t :: (L ++ [c0])) rfl hfile2 (by simp)
          file.length (by rw [hfile2]; simp)
        constructor
        · intro hno
          exact hmid.1 (fun h => hno (h.trans ⟨[], t :: (L ++ [c0]), by simp [hfile2]⟩))
        · intro hyes
          have hB1 : sectionEnd <:+: B1 := by
            rw [hfile2] at hyes
            rcases infix_split_term _ _ _ _ sectionEnd_free ht hyes with h | h
            · exact h
            · exact absurd h hL
          obtain ⟨A, M, R, hB1eq, hM, hMfree, hR, hres⟩ := hmid.2 hB1
          have hRne : R ++ t :: (L ++ [c0]) ≠ [] := by simp
          have hstop : ∀ c, ((A = [] ∧ c = -(file.length : Int))
              ∨ ∃ A2 t2, A = A2 ++ [t2] ∧ isTerm t2
                ∧ c = -((M ++ (R ++ t :: (L ++ [c0]))).length : Int) - 1) →
              StopsAt file M c := by
            intro c hc
            exact ⟨A, R ++ t :: (L ++ [c0]), by rw [hfile2, hB1eq]; simp, hM,
              fun b hb => hMfree b (List.mem_of_mem_dropLast hb), fun _ => hMfree,
              skipped_append R _ t hR ht hL, hc⟩
          rcases hres with ⟨hA, hres⟩ | ⟨A2, t2, hA, ht2, hres⟩
          · exact ⟨M, _, hres, hstop _ (Or.inl ⟨hA, rfl⟩)⟩
          · exact ⟨M, _, hres, hstop _ (Or.inr ⟨A2, t2, hA, ht2, by simp⟩)⟩

/-! ## The backward scan: the bytes read -/

theorem findSectionReads_le (file : List Byte) (fuel : Nat) :
    ∀ cursor : Int, -(file.length : Int) ≤ cursor →
      (findSectionReads file (file.length : Int) fuel cursor : Int)
        ≤ (file.length : Int) + cursor := by
  induction fuel with
  | zero => intro cursor h; simp [findSectionReads]; omega
  | succ fuel ih =>
    intro cursor h
    rw [findSectionReads]
    try simp only
    cases hs : seekEnd file (cursor - 1) with
    | none => simp; omega
    | some pos =>
      have hpos := seekEnd_eq_some file _ pos hs
      try simp only
      cases hg : file.get? pos with
      | none => simp; omega
      | some c =>
        try simp only
        split
        · simp; omega
        · split
          · simp; omega
          · have := ih (cursor - 1) (by omega)
            push_cast
            omega

theorem findSectionLoop_reads (file : List Byte) (fuel : Nat) :
    ∀ (line : List Byte) (cursor : Int) (r : List Byte × Int),
      findSectionLoop file (file.length : Int) fuel line cursor = .ok r →
      (findSectionReads file (file.length : Int) fuel cursor : Int) = cursor - r.2 := by
  induction fuel with
  | zero => intro line cursor r h; simp [findSectionLoop] at h
  | succ fuel ih =>
    intro line cursor r h
    rw [findSectionLoop] at h
    rw [findSectionReads]
    try simp only at h ⊢
    cases hs : seekEnd file (cursor - 1) with
    | none => rw [hs] at h; cases h
    | some pos =>
      rw [hs] at h
      try simp only at h ⊢
      cases hg : file.get? pos with
      | none => rw [hg] at h; cases h
      | some c =>
        rw [hg] at h
        try simp only at h ⊢
        split at h
        · rename_i hc
          cases h
          rw [if_pos hc]
          simp
        · rename_i hc
          rw [if_neg hc]
          split at h
          · rename_i hc2
            cases h
            rw [if_pos hc2]
            simp
          · rename_i hc2
            rw [if_neg hc2]
            have := ih _ _ _ h
            push_cast
            omega

/-- The search reads no byte twice: from the cursor `cursor` it reads at most the bytes before
the cursor. -/
theorem searchReads_le (file : List Byte) (fuel : Nat) :
    ∀ cursor : Int, -(file.length : Int) ≤ cursor → cursor ≤ 0 →
      (searchReads file fuel cursor : Int) ≤ (file.length : Int) + cursor := by
  induction fuel with
  | zero => intro cursor h _; simp [searchReads]; omega
  | succ fuel ih =>
    intro cursor h h0
    rw [searchReads]
    have hcall := findSectionReads_le file (file.length + 1) cursor h
    cases hf : findSection file cursor with
    | error e => simp only; push_cast; omega
    | ok r =>
      obtain ⟨line, c2⟩ := r
      have hcur := findSection_cursor file cursor _ hf
      have hreads := findSectionLoop_reads file _ _ _ _ hf
      simp only at hcur hreads ⊢
      split
      · push_cast; omega
      · have := ih c2 hcur.2 (by omega)
        push_cast
        omega

/-! ## The extend path from the cursor of the search -/

/-- The bytes that `appendToSection` writes, given where the search stopped. -/
theorem appendToSection_of_cursor (A0 Y line : List Byte) (x t : Byte)
    (hs : List (List Byte)) (h1 h2 : List Byte)
    (hsearch : searchLoop (A0 ++ x :: t :: Y) ((A0 ++ x :: t :: Y).length + 1) 0
      = .ok (line, -(Y.length : Int) - 1)) :
    appendToSection (A0 ++ x :: t :: Y) (hs ++ [h1, h2])
      = .ok (A0 ++ x :: (entryLine h1 ++ entryLast h2 ++ x :: t :: Y)) := by
  have hfile : A0 ++ x :: t :: Y = (A0 ++ [x]) ++ t :: Y := by simp
  have hseek1 : seekEnd (A0 ++ x :: t :: Y) (-(Y.length : Int) - 1 - 1) = some A0.length := by
    have := seekEnd_split A0 (t :: Y) x
    rw [← this]
    congr 1
    simp only [List.length_cons, Nat.cast_add, Nat.cast_one]
    omega
  have hseek2 : seekEnd (A0 ++ x :: t :: Y) (-(Y.length : Int) - 1)
      = some (A0 ++ [x]).length := by
    rw [hfile]
    exact seekEnd_split (A0 ++ [x]) Y t
  have hlen : ¬ (hs ++ [h1, h2]).length < 2 := by simp
  have hdrop : (hs ++ [h1, h2]).drop ((hs ++ [h1, h2]).length - 2) = [h1, h2] := by
    have : (hs ++ [h1, h2]).length - 2 = hs.length := by simp
    rw [this, List.drop_left]
  unfold appendToSection
  rw [hsearch]
  simp only [hseek1, hseek2, hlen, if_false, hdrop]
  have hloop : ∀ f : Handle, appendLoop [h1, h2].length [h1, h2] 0 f
      = (f.write (entryLine h1)).write (entryLast h2) := by
    intro f
    simp [appendLoop]
  rw [hloop]
  have hw1 := Handle.write_at (A0 ++ [x]) (t :: Y) (entryLine h1)
  rw [← hfile] at hw1
  rw [hw1]
  have hpos1 : (A0 ++ [x]).length + (entryLine h1).length = (A0 ++ [x] ++ entryLine h1).length := by
    simp only [List.length_append]
  rw [hpos1, Handle.write_at]
  have hpos2 : (A0 ++ [x] ++ entryLine h1).length + (entryLast h2).length
      = (A0 ++ [x] ++ entryLine h1 ++ entryLast h2).length := by
    simp only [List.length_append]
  rw [hpos2, Handle.write_over]
  · simp
  · simp only [List.length_drop, List.length_cons, List.length_append]
    omega

/-- Where `appendToSection` returns, the search has stopped and the seek to the byte before
its cursor has succeeded. -/
theorem appendToSection_ok (file new : List Byte) (hosts : List (List Byte))
    (h : appendToSection file hosts = .ok new) :
    ∃ line c, searchLoop file (file.length + 1) 0 = .ok (line, c)
      ∧ 0 ≤ (file.length : Int) + (c - 1) := by
  unfold appendToSection at h
  cases hs : searchLoop file (file.length + 1) 0 with
  | error e => rw [hs] at h; cases h
  | ok r =>
    obtain ⟨line, c⟩ := r
    rw [hs] at h
    try simp only at h
    refine ⟨line, c, rfl, ?_⟩
    cases hk : seekEnd file (c - 1) with
    | none => rw [hk] at h; cases h
    | some pos =>
      have := seekEnd_eq_some file _ pos hk
      omega

/-- Where the search has stopped and the seek to the byte before its cursor succeeds, the file
is `A0 ++ x :: t :: (line ++ R)` with the cursor on the line terminator `t`. -/
theorem stopsAt_bytes (file line : List Byte) (c : Int) (hstop : StopsAt file line c)
    (hpos : 0 ≤ (file.length : Int) + (c - 1)) :
    ∃ A0 x t R, file = A0 ++ x :: t :: (line ++ R) ∧ isTerm t
      ∧ c = -((line ++ R).length : Int) - 1 ∧ sectionEnd <:+: line
      ∧ (∀ b ∈ line.dropLast, ¬ isTerm b) ∧ (R ≠ [] → ∀ b ∈ line, ¬ isTerm b) ∧ Skipped R := by
  obtain ⟨A, R, hfile, hline, hfree, hfree2, hR, hc⟩ := hstop
  rcases hc with ⟨_, hc⟩ | ⟨A2, t, hA, ht, hc⟩
  · omega
  · rcases List.eq_nil_or_concat A2 with hnil | ⟨A0, x, hA2⟩
    · subst hnil
      rw [hfile, hA] at hpos
      simp only [List.nil_append, List.length_append, List.length_singleton, Nat.cast_add,
        Nat.cast_one] at hpos hc
      omega
    · refine ⟨A0, x, t, R, ?_, ht, hc, hline, hfree, hfree2, hR⟩
      rw [hfile, hA, hA2]
      simp

/-! ## Lines of the scanner as bytes of the file -/

theorem dropCR_pre (x : List Byte) : dropCR x <+: x := by
  unfold dropCR
  split
  · exact List.dropLast_prefix x
  · exact List.prefix_refl x

/-- The text of a line of the scanner is a part of the file. -/
theorem mem_specLinesFrom_part (data : List Byte) :
    ∀ (cur m : List Byte), m ∈ specLinesFrom data cur → m <:+: cur ++ data := by
  induction data with
  | nil =>
    intro cur m h
    rw [specLinesFrom] at h
    split at h
    · cases h
    · rw [List.mem_singleton.1 h]
      simpa using (dropCR_pre cur).isInfix
  | cons c rest ih =>
    intro cur m h
    rw [specLinesFrom] at h
    split at h
    · rcases List.mem_cons.1 h with h | h
      · rw [h]
        exact (dropCR_pre cur).isInfix.trans (List.prefix_append cur _).isInfix
      · have := ih [] m h
        exact this.trans ⟨cur ++ [c], [], by simp⟩
    · have := ih (cur ++ [c]) m h
      simpa using this

theorem infix_of_specHasLine (file m : List Byte) (h : specHasLine file m) : m <:+: file := by
  simpa using mem_specLinesFrom_part file [] m h

theorem infix_of_hasLine (file m : List Byte) (h : hasLine file m) : m <:+: file :=
  infix_of_specHasLine file m (specHasLine_of_hasLine file m h)

/-- The text of the first line of the scanner begins the file. -/
theorem head_specLinesFrom_pre (data : List Byte) :
    ∀ (cur m : List Byte) (l : List (List Byte)), specLinesFrom data cur = m :: l →
      m <+: cur ++ data := by
  induction data with
  | nil =>
    intro cur m l h
    rw [specLinesFrom] at h
    split at h
    · cases h
    · rw [← (List.cons.inj h).1]
      simpa using dropCR_pre cur
  | cons c rest ih =>
    intro cur m l h
    rw [specLinesFrom] at h
    split at h
    · rw [← (List.cons.inj h).1]
      exact (dropCR_pre cur).trans (List.prefix_append cur _)
    · have := ih (cur ++ [c]) m l h
      simpa using this

/-- Where the scanner gives the lines `l1` and then the lines `l2`, a line feed of the file
ends the last line of `l1`, and `l2` are the lines of the bytes after it. -/
theorem specLinesFrom_split (data : List Byte) :
    ∀ (cur : List Byte) (l1 l2 : List (List Byte)), specLinesFrom data cur = l1 ++ l2 →
      l1 ≠ [] → l2 ≠ [] →
      ∃ W Z, data = W ++ 10 :: Z ∧ specLinesFrom (W ++ [10]) cur = l1 ∧ specLines Z = l2 := by
  induction data with
  | nil =>
    intro cur l1 l2 h h1 h2
    rw [specLinesFrom] at h
    have hlen := congrArg List.length h
    have : 0 < l1.length := List.length_pos.2 h1
    have : 0 < l2.length := List.length_pos.2 h2
    split at hlen <;> simp at hlen <;> omega
  | cons c rest ih =>
    intro cur l1 l2 h h1 h2
    rw [specLinesFrom] at h
    split at h
    · rename_i hc
      subst hc
      cases l1 with
      | nil => exact absurd rfl h1
      | cons x l1 =>
        rw [List.cons_append] at h
        obtain ⟨hx, hrest⟩ := List.cons.inj h
        cases l1 with
        | nil =>
          exact ⟨[], rest, rfl, by simp [specLinesFrom, hx], by simpa [specLines] using hrest⟩
        | cons y l1 =>
          obtain ⟨W, Z, hW, hl1, hl2⟩ := ih [] (y :: l1) l2 hrest (by simp) h2
          refine ⟨10 :: W, Z, by rw [hW]; rfl, ?_, hl2⟩
          simp [specLinesFrom, hx, hl1]
    · rename_i hc
      obtain ⟨W, Z, hW, hl1, hl2⟩ := ih (cur ++ [c]) l1 l2 h h1 h2
      refine ⟨c :: W, Z, by rw [hW]; rfl, ?_, hl2⟩
      simp [specLinesFrom, hc, hl1]

/-- A file with a line of the start marker before a line of the end marker: the end marker
follows a line feed that has at least two bytes before it. -/
theorem bytes_of_marker_lines (file : List Byte) (l1 l2 l3 : List (List Byte))
    (h : scanLines file = l1 ++ sectionBegin :: l2 ++ sectionEnd :: l3) :
    ∃ W Z, file = W ++ 10 :: (sectionEnd ++ Z) ∧ 2 ≤ W.length := by
  obtain ⟨more, hmore⟩ := scanLinesFrom_pre file []
  obtain ⟨l3, h2⟩ : ∃ l3, specLinesFrom file []
      = (l1 ++ sectionBegin :: l2) ++ (sectionEnd :: l3) := by
    refine ⟨l3 ++ more, ?_⟩
    rw [← hmore]
    have h3 : scanLinesFrom file [] = l1 ++ sectionBegin :: l2 ++ sectionEnd :: l3 := h
    rw [h3]
    simp
  obtain ⟨W, Z0, hfile, hl1, hl2⟩ := specLinesFrom_split file [] _ _ h2 (by simp) (by simp)
  obtain ⟨Z, hZ⟩ := head_specLinesFrom_pre Z0 [] sectionEnd l3 hl2
  have hZ2 : Z0 = sectionEnd ++ Z := by simpa using hZ.symm
  refine ⟨W, Z, by rw [hfile, hZ2], ?_⟩
  have hmem : sectionBegin ∈ specLinesFrom (W ++ [10]) [] := by rw [hl1]; simp
  have hinf := mem_specLinesFrom_part _ _ _ hmem
  have hlen := hinf.length_le
  have h21 : sectionBegin.length = 21 := by decide
  simp only [List.nil_append, List.length_append, List.length_singleton, h21] at hlen
  omega

/-- Where the end marker follows a line feed with at least two bytes before it, the search
stops after that line feed, so that the seek to the byte before the cursor succeeds. -/
theorem stopsAt_after (file W Z line : List Byte) (c : Int)
    (hfile : file = W ++ 10 :: (sectionEnd ++ Z)) (hW : 2 ≤ W.length)
    (hstop : StopsAt file line c) : 0 ≤ (file.length : Int) + (c - 1) := by
  obtain ⟨A, R, hfile2, hline, hfree, hfree2, hR, hc⟩ := hstop
  have hmark : ∀ U, R = U → ∀ a t, U = a ++ t :: (sectionEnd ++ Z) → False := by
    intro U hU a t ha
    rcases hR with hR | ⟨t1, U1, hR, _, hU1⟩
    · rw [hR] at hU; rw [← hU] at ha; simp at ha
    · rw [hU, ha] at hR
      cases a with
      | nil =>
        rw [List.nil_append] at hR
        exact hU1 ⟨[], Z, by rw [← (List.cons.inj hR).2]; simp⟩
      | cons a0 a =>
        rw [List.cons_append] at hR
        exact hU1 ⟨a ++ [t], Z, by rw [← (List.cons.inj hR).2]; simp⟩
  have hAW : W.length ≤ A.length := by
    have heq : (A ++ line) ++ R = W ++ 10 :: (sectionEnd ++ Z) := by rw [← hfile2, hfile]
    rcases List.append_eq_append_iff.1 heq with ⟨a, _, ha2⟩ | ⟨c1, hc1, hc2⟩
    · exact (hmark R rfl a 10 ha2).elim
    · cases c1 with
      | nil =>
        rw [List.nil_append] at hc2
        exact (hmark R rfl [] 10 hc2.symm).elim
      | cons c0 c1 =>
        rw [List.cons_append] at hc2
        obtain ⟨h10, hrest⟩ := List.cons.inj hc2
        subst h10
        rcases List.append_eq_append_iff.1 hc1 with ⟨a, ha1, ha2⟩ | ⟨c3, hc3, _⟩
        · -- `W = A ++ a` and `line = a ++ 10 :: c1`: a line feed inside the line
          exfalso
          have hRne : R ≠ [] ∨ c1 ≠ [] := by
            by_cases hc1e : c1 = []
            · left
              intro hRe
              rw [hc1e, hRe] at hrest
              simp at hrest
              exact sectionEnd_ne_nil hrest.1
            · exact Or.inr hc1e
          rcases hRne with hRne | hc1ne
          · exact hfree2 hRne 10 (by rw [ha2]; simp) (Or.inl rfl)
          · refine hfree 10 ?_ (Or.inl rfl)
            rw [ha2]
            obtain ⟨c2, y, hy⟩ : ∃ c2 y, c1 = c2 ++ [y] := by
              rcases List.eq_nil_or_concat c1 with h | ⟨c2, y, h⟩
              · exact absurd h hc1ne
              · exact ⟨c2, y, by simpa using h⟩
            rw [hy]
            have : a ++ 10 :: (c2 ++ [y]) = (a ++ 10 :: c2) ++ [y] := by simp
            rw [this, List.dropLast_concat]
            simp
        · rw [hc3]
          simp
  rcases hc with ⟨hA, _⟩ | ⟨A2, t, hA, _, hc⟩
  · rw [hA, List.length_nil] at hAW
    omega
  · subst hA
    rw [hfile2, hc]
    simp only [List.length_append, List.length_singleton, Nat.cast_add, Nat.cast_one] at hAW ⊢
    omega

theorem exists_last_two (hosts : List (List Byte)) (h : 2 ≤ hosts.length) :
    ∃ hs h1 h2, hosts = hs ++ [h1, h2] := by
  rcases List.eq_nil_or_concat hosts with hnil | ⟨l1, h2, hl1⟩
  · rw [hnil] at h; simp at h
  · rcases List.eq_nil_or_concat l1 with hnil | ⟨hs, h1, hl2⟩
    · rw [hl1, hnil] at h; simp at h
    · exact ⟨hs, h1, h2, by rw [hl1, hl2]; simp⟩

/-- Where the search has stopped and the seek to the byte before its cursor succeeds,
`appendToSection` returns the file with the two entries and a copy of the byte `x` put in. -/
theorem appendToSection_of_stop (file line : List Byte) (c : Int) (hs : List (List Byte))
    (h1 h2 : List Byte) (hsearch : searchLoop file (file.length + 1) 0 = .ok (line, c))
    (hstop : StopsAt file line c) (hpos : 0 ≤ (file.length : Int) + (c - 1)) :
    ∃ A0 x t R, file = A0 ++ x :: t :: (line ++ R) ∧ isTerm t
      ∧ sectionEnd <:+: line ∧ (∀ b ∈ line.dropLast, ¬ isTerm b)
      ∧ (R ≠ [] → ∀ b ∈ line, ¬ isTerm b) ∧ Skipped R
      ∧ seekEnd file (c - 1) = some A0.length
      ∧ appendToSection file (hs ++ [h1, h2])
        = .ok (A0 ++ x :: (entryLine h1 ++ entryLast h2 ++ x :: t :: (line ++ R))) := by
  obtain ⟨A0, x, t, R, hfile, ht, hc, hline, hfree, hfree2, hR⟩ :=
    stopsAt_bytes file line c hstop hpos
  refine ⟨A0, x, t, R, hfile, ht, hline, hfree, hfree2, hR, ?_, ?_⟩
  · have := seekEnd_split A0 (t :: (line ++ R)) x
    rw [← hfile] at this
    rw [← this, hc]
    congr 1
    simp only [List.length_cons, Nat.cast_add, Nat.cast_one]
    omega
  · rw [hc, hfile] at hsearch
    rw [hfile]
    exact appendToSection_of_cursor A0 (line ++ R) line x t hs h1 h2 hsearch

set_option maxRecDepth 100000

/-! ## The run on a file that begins with a line too long for the scanner -/

theorem main_of_no_lines (norm : List Byte → Option (List Byte)) (file host : List Byte)
    (h : scanLines file = []) :
    main norm file host = { stop := none, file := newSection file [host, www host] } := by
  have h1 : getHosts norm file = .ok [] := getHosts_of_no_lines norm file h
  have h2 : add [] host = .ok [host, www host] := by
    simpa using @add_of_not_mem host [] (by simp)
  have h3 : sectionFound file = .ok false := sectionFound_of_no_lines file h
  simp [main, h1, h2, write, h3]

theorem newSection_longLine (rest : List Byte) (hosts : List (List Byte)) :
    newSection (longLine ++ rest) hosts = longLine ++ newSection rest hosts := by
  rw [newSection_eq, newSection_eq, List.append_assoc]

theorem main_longLine (norm : List Byte → Option (List Byte)) (rest host : List Byte) :
    main norm (longLine ++ rest) host
      = { stop := none, file := longLine ++ newSection rest [host, www host] } := by
  rw [main_of_no_lines norm _ host (scanLines_longLine rest), newSection_longLine]

theorem specLines_longLine (rest : List Byte) :
    specLines (longLine ++ 10 :: rest) = longLine :: specLines rest := by
  rw [specLines_line _ _ (not_mem_longLine 10 (by decide)),
    dropCR_of_not_mem _ (not_mem_longLine 13 (by decide))]

theorem longLine_ne_sectionBegin : longLine ≠ sectionBegin := by
  intro h
  have h2 : (35 : Byte) ∈ sectionBegin := by decide
  rw [← h] at h2
  exact not_mem_longLine 35 (by decide) h2

theorem longLine_ne_sectionEnd : longLine ≠ sectionEnd := by
  intro h
  have h2 : (35 : Byte) ∈ sectionEnd := by decide
  rw [← h] at h2
  exact not_mem_longLine 35 (by decide) h2

theorem specLines_longLine_alone : specLines longLine = [longLine] := by
  have hne : longLine ≠ [] := by
    intro h
    have h2 := longLine_length
    rw [h] at h2
    revert h2
    decide
  unfold specLines
  rw [specLinesFrom_last _ _ (not_mem_longLine 10 (by decide))]
  simp [hne, dropCR_of_not_mem _ (not_mem_longLine 13 (by decide))]

/-! ## The program on files whose lines fit the scanner

What the parser, the check and the two ways of writing do on a file in which no line has
`maxScanTokenSize` bytes or more, for hosts whose record lines fit too. -/

theorem length_record_www (h : List Byte) :
    (entryLast (www h)).length = (bytes "127.0.0.1\twww." ++ h).length := by
  have h1 : bytes "127.0.0.1\twww." = addr ++ [9] ++ bytes "www." := by decide
  rw [h1]
  simp [entryLast, www]

/-- On a file whose lines fit the scanner, `sectionFound` fails if and only if the file has a
line of exactly one of the two markers, with the error "Section found with no end" for the
start marker alone and "Section end found with no start" for the end marker alone; it returns
true where both have a line and false where neither has. -/
theorem marker_pair_check (file : List Byte) (hshort : ShortLines file) :
    ((∃ e, sectionFound file = .error e)
        ↔ (specHasLine file sectionBegin ∧ ¬ specHasLine file sectionEnd)
          ∨ (¬ specHasLine file sectionBegin ∧ specHasLine file sectionEnd))
      ∧ (sectionFound file = .error .sectionNoEnd
        ↔ specHasLine file sectionBegin ∧ ¬ specHasLine file sectionEnd)
      ∧ (sectionFound file = .error .sectionNoStart
        ↔ ¬ specHasLine file sectionBegin ∧ specHasLine file sectionEnd)
      ∧ (sectionFound file = .ok true
        ↔ specHasLine file sectionBegin ∧ specHasLine file sectionEnd)
      ∧ (sectionFound file = .ok false
        ↔ ¬ specHasLine file sectionBegin ∧ ¬ specHasLine file sectionEnd) := by
  rw [sectionFound_of_short file hshort]
  by_cases hb : specHasLine file sectionBegin <;> by_cases he : specHasLine file sectionEnd <;>
    simp [hb, he]

/-- On a file whose lines fit the scanner, `getHosts` is the reference parser.  It returns the
hosts `hosts` exactly when the lines after the first start marker and before the first end
marker that contain the address literal have, in the order of the file, the normalised second
fields `hosts`; it fails at the first of these lines that has no such field; it returns the
empty list where the file has no line of the start marker. -/
theorem parser_reference (norm : List Byte → Option (List Byte)) (file : List Byte)
    (hshort : ShortLines file) :
    getHosts norm file = specParse norm (specRecordLines file)
      ∧ (∀ hosts, getHosts norm file = .ok hosts
          ↔ (specRecordLines file).map (specHost norm) = hosts.map some)
      ∧ (¬ specHasLine file sectionBegin → getHosts norm file = .ok []) :=
  ⟨getHosts_eq_spec norm file hshort,
    fun hosts => by rw [getHosts_eq_spec norm file hshort]; exact specParse_ok_iff norm _ hosts,
    fun h => getHostsLoop_not_started norm _ _ (fun hm => h (specHasLine_of_hasLine _ _ hm))⟩

/-- On a file `pfx ++ section ++ tail` whose lines fit the scanner, the section running from
the line of the start marker through the line of the end marker and the text of the end marker
not coming again in `tail`, `add` of a new host and `write` give `pfx ++ section' ++ tail`: the
two new entries and a copy of the byte `x` before them go in before the line feed that precedes
the end marker. -/
theorem tail_preservation (pfx e1 body e2 tail h : List Byte) (hosts : List (List Byte))
    (hshort : ShortLines (pfx ++ (sectionBegin ++ e1 ++ body ++ sectionEnd ++ e2) ++ tail))
    (hp : LineStart pfx) (he1 : isEol e1) (hbody : LineStart body) (he2 : LineEnd e2 tail)
    (htail : stringsContains tail sectionEnd = false) (hnew : h ∉ hosts) :
    add hosts h = .ok (hosts ++ [h, bytes "www." ++ h])
      ∧ ∃ S x, sectionBegin ++ e1 ++ body = S ++ [x, 10]
        ∧ write (pfx ++ (sectionBegin ++ e1 ++ body ++ sectionEnd ++ e2) ++ tail)
            (hosts ++ [h, bytes "www." ++ h])
          = .ok (pfx ++ (S ++ [x] ++ entryLine h ++ entryLast (bytes "www." ++ h) ++ [x, 10]
              ++ sectionEnd ++ e2) ++ tail) :=
  ⟨add_of_not_mem hnew,
    write_frame pfx e1 body e2 tail hosts h (www h) hshort hp he1 hbody he2 htail⟩

/-- An instance of `tail_preservation`: a section between a line before it and lines after
it. -/
theorem tail_preservation_witness :
    add [bytes "b.org", bytes "www.b.org"] (bytes "a.org")
        = .ok ([bytes "b.org", bytes "www.b.org"] ++ [bytes "a.org", bytes "www." ++ bytes "a.org"])
      ∧ ∃ S x, sectionBegin ++ [10] ++ bytes "\n127.0.0.1\tb.org\n127.0.0.1\twww.b.org\n\n"
          = S ++ [x, 10]
        ∧ write (bytes "127.0.0.1\tlocalhost\n"
              ++ (sectionBegin ++ [10] ++ bytes "\n127.0.0.1\tb.org\n127.0.0.1\twww.b.org\n\n"
                ++ sectionEnd ++ [10]) ++ bytes "\n::1\tlocalhost\n")
            ([bytes "b.org", bytes "www.b.org"] ++ [bytes "a.org", bytes "www." ++ bytes "a.org"])
          = .ok (bytes "127.0.0.1\tlocalhost\n"
              ++ (S ++ [x] ++ entryLine (bytes "a.org")
                ++ entryLast (bytes "www." ++ bytes "a.org")
                ++ [x, 10] ++ sectionEnd ++ [10]) ++ bytes "\n::1\tlocalhost\n") :=
  tail_preservation (bytes "127.0.0.1\tlocalhost\n") [10]
    (bytes "\n127.0.0.1\tb.org\n127.0.0.1\twww.b.org\n\n") [10] (bytes "\n::1\tlocalhost\n")
    (bytes "a.org") [bytes "b.org", bytes "www.b.org"]
    (by decide) (by decide) (by decide) (by decide) (by decide) (by decide) (by decide)

/-- On a file whose lines fit the scanner, without section or with a section in the layout
`Layout`, on which the parser succeeds with the list `hosts`, and for a plain host `h` not yet
in the list whose `www.` name the normalisation leaves unchanged too, the run returns and the
parser then reads the old list followed by `h` and the four bytes `www.` with `h`. -/
theorem variant_pairing (norm : List Byte → Option (List Byte)) (file h : List Byte)
    (hosts : List (List Byte)) (hshort : ShortLines file)
    (hfile : NoSection file ∨ Extendable file)
    (hget : getHosts norm file = .ok hosts) (hnew : h ∉ hosts) (hplain : Plain norm h)
    (hwww : norm (bytes "www." ++ h) = some (bytes "www." ++ h))
    (hlen : (bytes "127.0.0.1\twww." ++ h).length < maxScanTokenSize) :
    (main norm file h).stop = none
      ∧ getHosts norm (main norm file h).file = .ok (hosts ++ [h, bytes "www." ++ h]) :=
  main_read_back norm file h hosts hshort hfile hget hnew hplain hwww
    (by rw [length_record_www]; exact hlen)

/-- An instance of `variant_pairing`: a host added to the section that the program wrote
before. -/
theorem variant_pairing_witness :
    (main plainName
        (bytes "\n# Added by sitebegone\n\n127.0.0.1\tb\n127.0.0.1\twww.b\n\n# End of sitebegone section\n\n")
        (bytes "a")).stop = none
      ∧ getHosts plainName (main plainName
          (bytes "\n# Added by sitebegone\n\n127.0.0.1\tb\n127.0.0.1\twww.b\n\n# End of sitebegone section\n\n")
          (bytes "a")).file
        = .ok ([bytes "b", bytes "www.b"] ++ [bytes "a", bytes "www." ++ bytes "a"]) :=
  variant_pairing plainName
    (bytes "\n# Added by sitebegone\n\n127.0.0.1\tb\n127.0.0.1\twww.b\n\n# End of sitebegone section\n\n")
    (bytes "a") [bytes "b", bytes "www.b"] (by decide)
    (Or.inr ⟨bytes "\n# Added by sitebegone\n\n127.0.0.1\tb\n127.0.0.1\twww.b\n", [10], [10],
      by decide⟩)
    (by decide) (by decide) (by decide) (by decide) (by decide)

/-- On a file whose lines fit the scanner, without section or with a section in the layout
`Layout`, on which the parser succeeds, and for a plain host `h` whose `www.` name the
normalisation leaves unchanged too, the first run succeeds and the second run stops with
"already blocked" and changes no byte, so the list of hosts in the file is the same after two
runs as after one. -/
theorem idempotence (norm : List Byte → Option (List Byte)) (file h : List Byte)
    (hosts : List (List Byte)) (hshort : ShortLines file)
    (hfile : NoSection file ∨ Extendable file)
    (hget : getHosts norm file = .ok hosts) (hplain : Plain norm h)
    (hwww : norm (bytes "www." ++ h) = some (bytes "www." ++ h))
    (hlen : (bytes "127.0.0.1\twww." ++ h).length < maxScanTokenSize) :
    ((main norm file h).stop = none ∨ (main norm file h).stop = some .exit0)
      ∧ (main norm (main norm file h).file h).stop = some .exit0
      ∧ (main norm (main norm file h).file h).file = (main norm file h).file
      ∧ getHosts norm (main norm (main norm file h).file h).file
        = getHosts norm (main norm file h).file := by
  by_cases hmem : h ∈ hosts
  · have h1 := main_duplicate norm file h hosts hget hmem
    rw [h1]
    simp only [h1]
    simp
  · obtain ⟨hs, hg⟩ := main_read_back norm file h hosts hshort hfile hget hmem hplain hwww
      (by rw [length_record_www]; exact hlen)
    have h2 := main_duplicate norm (main norm file h).file h _ hg (by simp)
    rw [h2]
    exact ⟨Or.inl hs, rfl, rfl, rfl⟩

/-- An instance of `idempotence`: two runs on a file without section. -/
theorem idempotence_witness :
    ((main plainName (bytes "127.0.0.1\tlocalhost\n") (bytes "a.org")).stop = none
        ∨ (main plainName (bytes "127.0.0.1\tlocalhost\n") (bytes "a.org")).stop = some .exit0)
      ∧ (main plainName (main plainName (bytes "127.0.0.1\tlocalhost\n") (bytes "a.org")).file
          (bytes "a.org")).stop = some .exit0
      ∧ (main plainName (main plainName (bytes "127.0.0.1\tlocalhost\n") (bytes "a.org")).file
          (bytes "a.org")).file
        = (main plainName (bytes "127.0.0.1\tlocalhost\n") (bytes "a.org")).file
      ∧ getHosts plainName (main plainName
          (main plainName (bytes "127.0.0.1\tlocalhost\n") (bytes "a.org")).file
          (bytes "a.org")).file
        = getHosts plainName (main plainName (bytes "127.0.0.1\tlocalhost\n") (bytes "a.org")).file :=
  idempotence plainName (bytes "127.0.0.1\tlocalhost\n") (bytes "a.org") [] (by decide)
    (Or.inl (by decide)) (by decide) (by decide) (by decide) (by decide)

/-- On a file without marker lines whose lines fit the scanner, and for a plain host `h` whose
`www.` name the normalisation leaves unchanged too, the run returns, the file is the old
content followed by the start marker, the lines of `h` and of `www.` with `h`, and the end
marker, `sectionFound` is true on it and `getHosts` returns the two names. -/
theorem create_round_trip (norm : List Byte → Option (List Byte)) (file h : List Byte)
    (hshort : ShortLines file) (hno : NoSection file) (hplain : Plain norm h)
    (hwww : norm (bytes "www." ++ h) = some (bytes "www." ++ h))
    (hlen : (bytes "127.0.0.1\twww." ++ h).length < maxScanTokenSize) :
    main norm file h
        = { stop := none
            file := file ++ bytes "\n# Added by sitebegone\n\n"
              ++ (bytes "127.0.0.1\t" ++ h ++ bytes "\n")
              ++ (bytes "127.0.0.1\twww." ++ h ++ bytes "\n")
              ++ bytes "\n# End of sitebegone section\n\n" }
      ∧ scanLines (main norm file h).file
        = scanLines (file ++ [10])
          ++ [sectionBegin, [], bytes "127.0.0.1\t" ++ h, bytes "127.0.0.1\twww." ++ h, [],
            sectionEnd, []]
      ∧ sectionFound (main norm file h).file = .ok true
      ∧ getHosts norm (main norm file h).file = .ok [h, bytes "www." ++ h] := by
  have h1 : bytes "\n# Added by sitebegone\n\n" = 10 :: (sectionBegin ++ [10, 10]) := by decide
  have h2 : bytes "\n# End of sitebegone section\n\n" = 10 :: (sectionEnd ++ [10, 10]) := by
    decide
  have h4 : bytes "127.0.0.1\t" = addr ++ [9] := by decide
  have h5 : bytes "\n" = [10] := by decide
  have h6 : bytes "127.0.0.1\twww." = addr ++ [9] ++ bytes "www." := by decide
  have hlen2 : (entryLast (www h)).length < maxScanTokenSize := by
    rw [length_record_www]; exact hlen
  have hpair := plain_pair norm h hplain hwww
  have hlines : ∀ e ∈ [h, www h], 10 ∉ e ∧ 13 ∉ e :=
    fun e he => ⟨(hpair e he).2.1, (hpair e he).2.2.1⟩
  have hrb := newSection_read_back norm file [h, www h] hshort hno.1 hno.2 hpair
    (length_pair h hlen2)
  have hmain := main_create norm file h hno.1 hno.2
  have hnew : ShortLines (newSection file [h, www h]) :=
    (shortLines_newSection file _).2
      ⟨hshort, fun e he => shortLines_entryLast e (hlines e he).1 (length_pair h hlen2 e he)⟩
  have hfile10 : ShortLines (file ++ [10]) := by
    have := (shortLines_append file []).2 ⟨hshort, shortLines_nil⟩
    simpa using this
  rw [hmain]
  refine ⟨?_, ?_, hrb.1, hrb.2⟩
  · rw [h1, h2, h4, h5, h6, newSection_eq]
    simp [entryLine, www]
  · rw [h4, h6]
    simp only
    rw [scanLines_of_short _ hnew, scanLines_of_short _ hfile10,
      specLines_newSection file [h, www h] hlines]
    simp [entryLast, www]

/-- An instance of `create_round_trip`: the host `example.com` added to a file with one
line. -/
theorem create_round_trip_witness :
    main plainName (bytes "127.0.0.1\tlocalhost\n") (bytes "example.com")
        = { stop := none
            file := bytes "127.0.0.1\tlocalhost\n" ++ bytes "\n# Added by sitebegone\n\n"
              ++ (bytes "127.0.0.1\t" ++ bytes "example.com" ++ bytes "\n")
              ++ (bytes "127.0.0.1\twww." ++ bytes "example.com" ++ bytes "\n")
              ++ bytes "\n# End of sitebegone section\n\n" }
      ∧ scanLines (main plainName (bytes "127.0.0.1\tlocalhost\n") (bytes "example.com")).file
        = scanLines (bytes "127.0.0.1\tlocalhost\n" ++ [10])
          ++ [sectionBegin, [], bytes "127.0.0.1\t" ++ bytes "example.com",
            bytes "127.0.0.1\twww." ++ bytes "example.com", [], sectionEnd, []]
      ∧ sectionFound (main plainName (bytes "127.0.0.1\tlocalhost\n")
          (bytes "example.com")).file = .ok true
      ∧ getHosts plainName (main plainName (bytes "127.0.0.1\tlocalhost\n")
          (bytes "example.com")).file
        = .ok [bytes "example.com", bytes "www." ++ bytes "example.com"] :=
  create_round_trip plainName (bytes "127.0.0.1\tlocalhost\n") (bytes "example.com")
    (by decide) (by decide) (by decide) (by decide) (by decide)

/-- From a file without marker lines whose lines fit the scanner, the runs with the hosts
`h1`, then `hs`, each plain, with a `www.` name that the normalisation leaves unchanged, and
absent from the list when it is added, leave a file on which `sectionFound` is true and
`getHosts` returns each host followed by its `www.` name, in the order of the runs; the first
content of the file is a prefix of the last. -/
theorem accumulated_block_list (norm : List Byte → Option (List Byte)) (file h1 : List Byte)
    (hs : List (List Byte)) (hshort : ShortLines file) (hno : NoSection file)
    (hplain : ∀ h ∈ h1 :: hs, Plain norm h
      ∧ norm (bytes "www." ++ h) = some (bytes "www." ++ h)
      ∧ (bytes "127.0.0.1\twww." ++ h).length < maxScanTokenSize)
    (hfresh : Fresh [] (h1 :: hs)) :
    sectionFound (runs norm file (h1 :: hs)) = .ok true
      ∧ getHosts norm (runs norm file (h1 :: hs)) = .ok (withVariants (h1 :: hs))
      ∧ file <+: runs norm file (h1 :: hs) := by
  have hplain2 : ∀ h ∈ h1 :: hs, Plain norm h ∧ norm (www h) = some (www h)
      ∧ (entryLast (www h)).length < maxScanTokenSize := by
    intro h hh
    obtain ⟨hp, hw, hl⟩ := hplain h hh
    exact ⟨hp, hw, by rw [length_record_www]; exact hl⟩
  obtain ⟨hp, hw, hlen⟩ := hplain2 h1 (by simp)
  have hl := layout_newSection file h1 hno hp.2.1 hp.2.2.1
  have hpair := plain_pair norm h1 hp hw
  have hrb := newSection_read_back norm file [h1, www h1] hshort hno.1 hno.2 hpair
    (length_pair h1 hlen)
  have hnew : ShortLines (newSection file [h1, www h1]) :=
    (shortLines_newSection file _).2
      ⟨hshort, fun e he => shortLines_entryLast e (hpair e he).2.1 (length_pair h1 hlen e he)⟩
  obtain ⟨pre2, hs2, hl2, hpre2, hg2⟩ := runs_layout norm [10] [10] hs _ _ [h1, www h1] hnew hl
    hrb.2 (fun x hx => hplain2 x (List.mem_cons_of_mem _ hx)) (by simpa [Fresh] using hfresh.2)
  rw [runs, main_create norm file h1 hno.1 hno.2]
  refine ⟨sectionFound_of_layout _ _ _ _ hs2 hl2, by simpa [withVariants, www] using hg2, ?_⟩
  have h1p : file <+: pre2 :=
    (List.prefix_append file _).trans (by simpa [List.append_assoc] using hpre2)
  exact h1p.trans (by rw [hl2.1]; exact List.prefix_append _ _)

/-- An instance of `accumulated_block_list`: three runs from a file with one line. -/
theorem accumulated_block_list_witness :
    sectionFound (runs plainName (bytes "127.0.0.1\tlocalhost\n")
        (bytes "a.org" :: [bytes "b.org", bytes "c.org"])) = .ok true
      ∧ getHosts plainName (runs plainName (bytes "127.0.0.1\tlocalhost\n")
          (bytes "a.org" :: [bytes "b.org", bytes "c.org"]))
        = .ok (withVariants (bytes "a.org" :: [bytes "b.org", bytes "c.org"]))
      ∧ bytes "127.0.0.1\tlocalhost\n" <+: runs plainName (bytes "127.0.0.1\tlocalhost\n")
          (bytes "a.org" :: [bytes "b.org", bytes "c.org"]) :=
  accumulated_block_list plainName (bytes "127.0.0.1\tlocalhost\n") (bytes "a.org")
    [bytes "b.org", bytes "c.org"] (by decide) (by decide) (by decide) (by decide)

/-- On a file for which `sectionFound` is true the backward search of `appendToSection` stops,
on the last line that contains the text of the end marker; that line may carry the last byte of
the file, and the cursor is on the line terminator before it, or on its first byte where it
begins the file. -/
theorem locator_stops_on_marker_text (file : List Byte) (h : sectionFound file = .ok true) :
    ∃ line c, searchLoop file (file.length + 1) 0 = .ok (line, c)
      ∧ stringsContains line sectionEnd = true ∧ StopsAt file line c := by
  have hend : hasLine file sectionEnd := by
    rw [sectionFound_eq] at h
    by_cases hb : hasLine file sectionBegin <;> by_cases he : hasLine file sectionEnd <;>
      simp [hb, he] at h ⊢
  obtain ⟨line, c, hsearch, hstop⟩ := (searchLoop_spec file).2 (infix_of_hasLine file _ hend)
  refine ⟨line, c, hsearch, ?_, hstop⟩
  obtain ⟨_, _, _, hline, _⟩ := hstop
  exact (stringsContains_iff _ _).2 hline

/-! ## The claims -/

/-- Claim C1 fails on the code: with a line after the section that contains the text of the end
marker, the search of `appendToSection` stops at that line, the new entries are written into
the tail, after the end marker of the section, and the file is not `prefix ++ section' ++ tail`
for any `section'`. -/
theorem tail_not_preserved :
    getHosts plainName (bytes "# Added by sitebegone\n\n# End of sitebegone section\n"
        ++ bytes "xy\n## End of sitebegone section\n") = .ok []
      ∧ main plainName (bytes "# Added by sitebegone\n\n# End of sitebegone section\n"
          ++ bytes "xy\n## End of sitebegone section\n") (bytes "a")
        = { stop := none
            file := bytes "# Added by sitebegone\n\n# End of sitebegone section\n"
              ++ bytes "xy127.0.0.1\ta\n127.0.0.1\twww.ay\n## End of sitebegone section\n" }
      ∧ ¬ ∃ section', (main plainName
            (bytes "# Added by sitebegone\n\n# End of sitebegone section\n"
              ++ bytes "xy\n## End of sitebegone section\n") (bytes "a")).file
          = [] ++ section' ++ bytes "xy\n## End of sitebegone section\n" := by
  refine ⟨by decide, by decide, ?_⟩
  rintro ⟨s, hs⟩
  have hsuf : bytes "xy\n## End of sitebegone section\n" <:+ (main plainName
      (bytes "# Added by sitebegone\n\n# End of sitebegone section\n"
        ++ bytes "xy\n## End of sitebegone section\n") (bytes "a")).file := ⟨[] ++ s, hs.symm⟩
  revert hsuf
  decide

/-- Claim C2 fails on the code.  The section has the entries of `example.org` and
`www.example.org`, and its end marker follows the last entry without an empty line.  The run
with `example.com` returns, but `appendToSection` joins its entries to the bytes around them:
`example.com` is not in the list read back, the second run does not stop with "already
blocked", it writes again, and the list after two runs is not the list after one. -/
theorem second_run_writes_again :
    getHosts plainName (bytes "# Added by sitebegone\n127.0.0.1\texample.org\n127.0.0.1\twww.example.org\n# End of sitebegone section\n")
        = .ok [bytes "example.org", bytes "www.example.org"]
      ∧ main plainName
          (bytes "# Added by sitebegone\n127.0.0.1\texample.org\n127.0.0.1\twww.example.org\n# End of sitebegone section\n")
          (bytes "example.com")
        = { stop := none
            file := bytes "# Added by sitebegone\n127.0.0.1\texample.org\n127.0.0.1\twww.example.org127.0.0.1\texample.com\n127.0.0.1\twww.example.comg\n# End of sitebegone section\n" }
      ∧ main plainName
          (bytes "# Added by sitebegone\n127.0.0.1\texample.org\n127.0.0.1\twww.example.org127.0.0.1\texample.com\n127.0.0.1\twww.example.comg\n# End of sitebegone section\n")
          (bytes "example.com")
        = { stop := none
            file := bytes "# Added by sitebegone\n127.0.0.1\texample.org\n127.0.0.1\twww.example.org127.0.0.1\texample.com\n127.0.0.1\twww.example.comg127.0.0.1\texample.com\n127.0.0.1\twww.example.comg\n# End of sitebegone section\n" }
      ∧ getHosts plainName (bytes "# Added by sitebegone\n127.0.0.1\texample.org\n127.0.0.1\twww.example.org127.0.0.1\texample.com\n127.0.0.1\twww.example.comg\n# End of sitebegone section\n")
        = .ok [bytes "example.org", bytes "www.example.org127.0.0.1", bytes "www.example.comg"]
      ∧ getHosts plainName (bytes "# Added by sitebegone\n127.0.0.1\texample.org\n127.0.0.1\twww.example.org127.0.0.1\texample.com\n127.0.0.1\twww.example.comg127.0.0.1\texample.com\n127.0.0.1\twww.example.comg\n# End of sitebegone section\n")
        = .ok [bytes "example.org", bytes "www.example.org127.0.0.1",
            bytes "www.example.comg127.0.0.1", bytes "www.example.comg"] := by
  decide

/-- Claim C3 fails on the code.  The section has the entry of `example.org`, and its end marker
follows that entry without an empty line.  The run with `example.com` returns, but
`appendToSection` writes the first new entry onto the end of the old one and the byte `g` onto
the end of the second: neither `example.com` nor `www.example.com` is in the list read back,
and `example.org` is no longer in it either. -/
theorem variant_pairing_lost :
    getHosts plainName
        (bytes "# Added by sitebegone\n127.0.0.1\texample.org\n# End of sitebegone section\n")
        = .ok [bytes "example.org"]
      ∧ main plainName
          (bytes "# Added by sitebegone\n127.0.0.1\texample.org\n# End of sitebegone section\n")
          (bytes "example.com")
        = { stop := none
            file := bytes "# Added by sitebegone\n127.0.0.1\texample.org127.0.0.1\texample.com\n127.0.0.1\twww.example.comg\n# End of sitebegone section\n" }
      ∧ getHosts plainName (bytes "# Added by sitebegone\n127.0.0.1\texample.org127.0.0.1\texample.com\n127.0.0.1\twww.example.comg\n# End of sitebegone section\n")
        = .ok [bytes "example.org127.0.0.1", bytes "www.example.comg"]
      ∧ bytes "example.com" ∉ [bytes "example.org127.0.0.1", bytes "www.example.comg"]
      ∧ bytes "www.example.com" ∉ [bytes "example.org127.0.0.1", bytes "www.example.comg"] := by
  decide

/-- Claim C4: `newSection` leaves the old content, then an empty line, the start marker, an
empty line, one line per host, an empty line, the end marker and an empty line; the old content
is a prefix of the result. -/
theorem newSection_at_end_of_file (old : List Byte) (hosts : List (List Byte)) :
    newSection old hosts
        = old ++ bytes "\n# Added by sitebegone\n\n"
          ++ (hosts.map (fun e => bytes "127.0.0.1\t" ++ e ++ bytes "\n")).flatten
          ++ bytes "\n# End of sitebegone section\n\n"
      ∧ old <+: newSection old hosts := by
  have h1 : bytes "\n# Added by sitebegone\n\n" = 10 :: (sectionBegin ++ [10, 10]) := by decide
  have h2 : bytes "\n# End of sitebegone section\n\n" = 10 :: (sectionEnd ++ [10, 10]) := by
    decide
  have h3 : (fun e => bytes "127.0.0.1\t" ++ e ++ bytes "\n") = entryLine := by
    funext e
    have h4 : bytes "127.0.0.1\t" = addr ++ [9] := by decide
    have h5 : bytes "\n" = [10] := by decide
    rw [h4, h5, entryLine]
  constructor
  · rw [h1, h2, h3, newSection_eq]
    simp
  · rw [newSection_eq]
    exact List.prefix_append _ _

/-- Claim C5 fails on the code.  The file is one line of 65536 bytes `x`: it has neither marker
line.  The run with the host `example.com` returns and leaves the old content followed by the
section of `example.com` and `www.example.com`; on that file the scanner gives up at the first
line, `sectionFound` returns false and `getHosts` returns the empty list. -/
theorem create_round_trip_after_long_line :
    NoSection longLine
      ∧ main plainName longLine (bytes "example.com")
        = { stop := none
            file := longLine ++ bytes "\n# Added by sitebegone\n\n127.0.0.1\texample.com\n127.0.0.1\twww.example.com\n\n# End of sitebegone section\n\n" }
      ∧ sectionFound (longLine ++ bytes "\n# Added by sitebegone\n\n127.0.0.1\texample.com\n127.0.0.1\twww.example.com\n\n# End of sitebegone section\n\n")
        = .ok false
      ∧ getHosts plainName (longLine ++ bytes "\n# Added by sitebegone\n\n127.0.0.1\texample.com\n127.0.0.1\twww.example.com\n\n# End of sitebegone section\n\n")
        = .ok [] := by
  refine ⟨⟨?_, ?_⟩, ?_, sectionFound_of_no_lines _ (scanLines_longLine _),
    getHosts_of_no_lines _ _ (scanLines_longLine _)⟩
  · intro h
    unfold specHasLine at h
    rw [specLines_longLine_alone] at h
    exact longLine_ne_sectionBegin (List.mem_singleton.1 h).symm
  · intro h
    unfold specHasLine at h
    rw [specLines_longLine_alone] at h
    exact longLine_ne_sectionEnd (List.mem_singleton.1 h).symm
  · have h := main_longLine plainName [] (bytes "example.com")
    rw [List.append_nil] at h
    rw [h]
    have h2 : newSection [] [bytes "example.com", www (bytes "example.com")]
        = bytes "\n# Added by sitebegone\n\n127.0.0.1\texample.com\n127.0.0.1\twww.example.com\n\n# End of sitebegone section\n\n" := by
      decide
    rw [h2]

/-- Claim C6, amended: on a file whose lines fit the scanner, with a line of the start marker
and no line of the end marker, the run never returns and writes nothing; it stops with the
error of the parser where the parser fails, with "already blocked" where the host is in the
list read, and otherwise with the fatal error "Section found with no end". -/
theorem start_without_end (norm : List Byte → Option (List Byte)) (file h : List Byte)
    (hshort : ShortLines file) (hb : specHasLine file sectionBegin)
    (he : ¬ specHasLine file sectionEnd) :
    main norm file h
      = match getHosts norm file with
        | .error e => { stop := some e, file := file }
        | .ok hosts =>
          { stop := some (if h ∈ hosts then Stop.exit0 else Stop.sectionNoEnd), file := file } := by
  have hsf : sectionFound file = .error .sectionNoEnd := by
    rw [sectionFound_of_short file hshort]; simp [hb, he]
  cases hget : getHosts norm file with
  | error e => simp [main, hget]
  | ok hosts =>
    by_cases hmem : h ∈ hosts
    · simp [main, hget, add_of_mem hmem, hmem]
    · simp [main, hget, add_of_not_mem hmem, hmem, write, hsf]

/-- Claim C6, an instance of the amended claim: a new host on a section without end. -/
theorem start_without_end_witness :
    main plainName (bytes "# Added by sitebegone\n127.0.0.1\texample.com\n") (bytes "example.org")
      = match getHosts plainName (bytes "# Added by sitebegone\n127.0.0.1\texample.com\n") with
        | .error e =>
          { stop := some e, file := bytes "# Added by sitebegone\n127.0.0.1\texample.com\n" }
        | .ok hosts =>
          { stop := some (if bytes "example.org" ∈ hosts then Stop.exit0 else Stop.sectionNoEnd)
            file := bytes "# Added by sitebegone\n127.0.0.1\texample.com\n" } :=
  start_without_end plainName (bytes "# Added by sitebegone\n127.0.0.1\texample.com\n")
    (bytes "example.org") (by decide) (by decide) (by decide)

/-- Claim C6 as stated fails: on a section without end whose list has the host already, the run
ends with `os.Exit(0)`. -/
theorem start_without_end_exit0 :
    specLines (bytes "# Added by sitebegone\n127.0.0.1\texample.com\n")
        = [bytes "# Added by sitebegone", bytes "127.0.0.1\texample.com"]
      ∧ specHasLine (bytes "# Added by sitebegone\n127.0.0.1\texample.com\n") sectionBegin
      ∧ ¬ specHasLine (bytes "# Added by sitebegone\n127.0.0.1\texample.com\n") sectionEnd
      ∧ main plainName (bytes "# Added by sitebegone\n127.0.0.1\texample.com\n")
          (bytes "example.com")
        = { stop := some .exit0
            file := bytes "# Added by sitebegone\n127.0.0.1\texample.com\n" } := by
  decide

/-- Claim C7: where the host is in the list that the parser read, `add` stops the run with
`os.Exit(0)`; the list is not changed and nothing is written, the file is the same after the
run. -/
theorem duplicate_rejection (norm : List Byte → Option (List Byte)) (file h : List Byte)
    (hosts : List (List Byte)) (hget : getHosts norm file = .ok hosts) (hmem : h ∈ hosts) :
    add hosts h = .error .exit0
      ∧ main norm file h = { stop := some .exit0, file := file } :=
  ⟨add_of_mem hmem, main_duplicate norm file h hosts hget hmem⟩

/-- Claim C7, an instance: `example.com` is in the section already. -/
theorem duplicate_rejection_witness :
    add [bytes "example.com", bytes "www.example.com"] (bytes "example.com") = .error .exit0
      ∧ main plainName
          (bytes "\n# Added by sitebegone\n\n127.0.0.1\texample.com\n127.0.0.1\twww.example.com\n\n# End of sitebegone section\n\n")
          (bytes "example.com")
        = { stop := some .exit0
            file := bytes "\n# Added by sitebegone\n\n127.0.0.1\texample.com\n127.0.0.1\twww.example.com\n\n# End of sitebegone section\n\n" } :=
  duplicate_rejection plainName
    (bytes "\n# Added by sitebegone\n\n127.0.0.1\texample.com\n127.0.0.1\twww.example.com\n\n# End of sitebegone section\n\n")
    (bytes "example.com") [bytes "example.com", bytes "www.example.com"] (by decide) (by decide)

/-- Claim C8 fails on the code: `add` compares the list with the host only, not with its `www.`
name.  After `www.example.com` has been blocked, `add` of `example.com` records
`www.example.com` a second time, in the list and, after two runs from an empty file, in the
file. -/
theorem add_www_duplicate :
    [bytes "www.example.com", bytes "www.www.example.com"].Nodup
      ∧ add [bytes "www.example.com", bytes "www.www.example.com"] (bytes "example.com")
        = .ok [bytes "www.example.com", bytes "www.www.example.com", bytes "example.com",
            bytes "www.example.com"]
      ∧ ¬ [bytes "www.example.com", bytes "www.www.example.com", bytes "example.com",
            bytes "www.example.com"].Nodup
      ∧ getHosts plainName (main plainName (main plainName [] (bytes "www.example.com")).file
          (bytes "example.com")).file
        = .ok [bytes "www.example.com", bytes "www.www.example.com", bytes "example.com",
            bytes "www.example.com"] := by
  decide

/-- Claim C9 fails on the code.  The file is a line of 65536 bytes `x`, the line of the start
marker and a record line: its lines are these three, the start marker is among them and the end
marker is not.  The scanner gives up at the first line, and `sectionFound` returns false where
the claim has the fatal error "Section found with no end". -/
theorem sectionFound_after_long_line :
    specLines (longLine ++ bytes "\n# Added by sitebegone\n127.0.0.1\texample.com\n")
        = [longLine, sectionBegin, bytes "127.0.0.1\texample.com"]
      ∧ sectionBegin ≠ sectionEnd ∧ bytes "127.0.0.1\texample.com" ≠ sectionEnd
      ∧ longLine ≠ sectionEnd
      ∧ sectionFound (longLine ++ bytes "\n# Added by sitebegone\n127.0.0.1\texample.com\n")
        = .ok false := by
  refine ⟨?_, by decide, by decide, longLine_ne_sectionEnd,
    sectionFound_of_no_lines _ (scanLines_longLine _)⟩
  have h : bytes "\n# Added by sitebegone\n127.0.0.1\texample.com\n"
      = 10 :: bytes "# Added by sitebegone\n127.0.0.1\texample.com\n" := by decide
  have h2 : specLines (bytes "# Added by sitebegone\n127.0.0.1\texample.com\n")
      = [sectionBegin, bytes "127.0.0.1\texample.com"] := by decide
  rw [h, specLines_longLine, h2]

/-- Claim C10, amended: where `sectionFound` returns true the file has at least one line of the
start marker and at least one line of the end marker. -/
theorem sectionFound_true (file : List Byte) (h : sectionFound file = .ok true) :
    hasLine file sectionBegin ∧ hasLine file sectionEnd := by
  rw [sectionFound_eq] at h
  by_cases hb : hasLine file sectionBegin <;> by_cases he : hasLine file sectionEnd <;>
    simp [hb, he] at h ⊢

/-- Claim C10, an instance of the amended claim: the section that the program writes. -/
theorem sectionFound_true_witness :
    hasLine (bytes "\n# Added by sitebegone\n\n127.0.0.1\ta\n\n# End of sitebegone section\n\n")
        sectionBegin
      ∧ hasLine (bytes "\n# Added by sitebegone\n\n127.0.0.1\ta\n\n# End of sitebegone section\n\n")
        sectionEnd :=
  sectionFound_true
    (bytes "\n# Added by sitebegone\n\n127.0.0.1\ta\n\n# End of sitebegone section\n\n")
    (by decide)

/-- Claim C10 as stated fails: `sectionFound` returns true on a file with two lines of each
marker, the end markers first. -/
theorem sectionFound_true_unordered :
    sectionFound (bytes "# End of sitebegone section\n# End of sitebegone section\n# Added by sitebegone\n# Added by sitebegone\n")
        = .ok true
      ∧ (scanLines (bytes "# End of sitebegone section\n# End of sitebegone section\n# Added by sitebegone\n# Added by sitebegone\n")).count
          sectionBegin = 2
      ∧ (scanLines (bytes "# End of sitebegone section\n# End of sitebegone section\n# Added by sitebegone\n# Added by sitebegone\n")).count
          sectionEnd = 2
      ∧ (scanLines (bytes "# End of sitebegone section\n# End of sitebegone section\n# Added by sitebegone\n# Added by sitebegone\n")).indexOf
          sectionEnd
        < (scanLines (bytes "# End of sitebegone section\n# End of sitebegone section\n# Added by sitebegone\n# Added by sitebegone\n")).indexOf
          sectionBegin
      ∧ ¬ WellFormed (bytes "# End of sitebegone section\n# End of sitebegone section\n# Added by sitebegone\n# Added by sitebegone\n") := by
  decide

/-- Claim C11, amended: in a file whose lines fit the scanner, where a line after the first
start marker and before the first end marker contains the address literal and has no tab, so
that it is one field, `getHosts` does not return a list: it stops on the index out of range at
that line, or on the failure of an earlier record line. -/
theorem malformed_record_one_field (norm : List Byte → Option (List Byte))
    (file text : List Byte) (hshort : ShortLines file) (hrec : text ∈ specRecordLines file)
    (htab : 9 ∉ text) :
    ∃ e, getHosts norm file = .error e ∧ (e = .outOfRange ∨ e = .urlParse) := by
  rw [getHosts_eq_spec norm file hshort]
  refine specParse_error norm _ text hrec ?_
  rw [specHost, stringsSplit_of_not_mem 9 text htab]
  rfl

/-- Claim C11, an instance of the amended claim: a record line that is the address alone. -/
theorem malformed_record_one_field_witness :
    ∃ e, getHosts plainName
          (bytes "# Added by sitebegone\n127.0.0.1\n# End of sitebegone section\n") = .error e
      ∧ (e = .outOfRange ∨ e = .urlParse) :=
  malformed_record_one_field plainName
    (bytes "# Added by sitebegone\n127.0.0.1\n# End of sitebegone section\n") (bytes "127.0.0.1")
    (by decide) (by decide) (by decide)

/-- Claim C11 as stated fails: a record line of three fields is accepted, `getHosts` returns
its second field. -/
theorem malformed_record_three_fields :
    bytes "127.0.0.1\ta\tb"
        ∈ specRecordLines
          (bytes "# Added by sitebegone\n127.0.0.1\ta\tb\n# End of sitebegone section\n")
      ∧ stringsSplit 9 (bytes "127.0.0.1\ta\tb") = [bytes "127.0.0.1", bytes "a", bytes "b"]
      ∧ getHosts plainName
          (bytes "# Added by sitebegone\n127.0.0.1\ta\tb\n# End of sitebegone section\n")
        = .ok [bytes "a"] := by
  decide

/-- Claim C12 fails on the code.  The file is a line of 65536 bytes `x` and then the section that
the program writes for `example.com`: the record lines between the markers are those of
`example.com` and `www.example.com`, and the reference parser reads these two hosts from them.
The scanner gives up at the first line, and `getHosts` returns the empty list. -/
theorem getHosts_after_long_line :
    specRecordLines (longLine ++ bytes "\n\n# Added by sitebegone\n\n127.0.0.1\texample.com\n127.0.0.1\twww.example.com\n\n# End of sitebegone section\n\n")
        = [bytes "127.0.0.1\texample.com", bytes "127.0.0.1\twww.example.com"]
      ∧ specParse plainName [bytes "127.0.0.1\texample.com", bytes "127.0.0.1\twww.example.com"]
        = .ok [bytes "example.com", bytes "www.example.com"]
      ∧ getHosts plainName (longLine ++ bytes "\n\n# Added by sitebegone\n\n127.0.0.1\texample.com\n127.0.0.1\twww.example.com\n\n# End of sitebegone section\n\n")
        = .ok [] := by
  refine ⟨?_, by decide, getHosts_of_no_lines _ _ (scanLines_longLine _)⟩
  have h : bytes "\n\n# Added by sitebegone\n\n127.0.0.1\texample.com\n127.0.0.1\twww.example.com\n\n# End of sitebegone section\n\n"
      = 10 :: bytes "\n# Added by sitebegone\n\n127.0.0.1\texample.com\n127.0.0.1\twww.example.com\n\n# End of sitebegone section\n\n" := by
    decide
  have h2 : ((((specLines (bytes "\n# Added by sitebegone\n\n127.0.0.1\texample.com\n127.0.0.1\twww.example.com\n\n# End of sitebegone section\n\n")).takeWhile
        (fun t => decide (t ≠ sectionEnd))).dropWhile
        (fun t => decide (t ≠ sectionBegin))).drop 1).filter (fun t => stringsContains t addr)
      = [bytes "127.0.0.1\texample.com", bytes "127.0.0.1\twww.example.com"] := by
    decide
  rw [specRecordLines, h, specLines_longLine,
    List.takeWhile_cons_of_pos (by simpa using longLine_ne_sectionEnd),
    List.dropWhile_cons_of_pos (by simpa using longLine_ne_sectionBegin), h2]

/-- Claim C13: where `appendToSection` returns, with `h` and `www.h` the last two hosts, the new
file is the old one with the two record lines, the second without its line feed, and a copy of
the byte at `p - 1` put in at the offset `p`; `p` is the offset of the line terminator `t`
before the last line that contains the text of the end marker, and the file grows by the
length of the two record lines. -/
theorem extend_is_insertion (old new h : List Byte) (hs : List (List Byte))
    (hok : appendToSection old (hs ++ [h, www h]) = .ok new) :
    ∃ p t line R, 1 ≤ p ∧ old.drop p = t :: (line ++ R) ∧ isTerm t
      ∧ sectionEnd <:+: line ∧ (∀ b ∈ line.dropLast, ¬ isTerm b)
      ∧ (R ≠ [] → ∀ b ∈ line, ¬ isTerm b) ∧ Skipped R
      ∧ new = old.take p
          ++ (bytes "127.0.0.1\t" ++ h ++ bytes "\n127.0.0.1\twww." ++ h
            ++ (old.drop (p - 1)).take 1)
          ++ old.drop p
      ∧ new.length = old.length + (bytes "127.0.0.1\t" ++ h ++ bytes "\n").length
          + (bytes "127.0.0.1\twww." ++ h ++ bytes "\n").length := by
  obtain ⟨line, c, hsearch, hpos⟩ := appendToSection_ok old new _ hok
  have hinf : sectionEnd <:+: old := by
    by_contra hno
    rw [(searchLoop_spec old).1 hno] at hsearch
    cases hsearch
  obtain ⟨line2, c2, hsearch2, hstop⟩ := (searchLoop_spec old).2 hinf
  rw [hsearch] at hsearch2
  cases hsearch2
  obtain ⟨A0, x, t, R, hfile, ht, hline, hfree, hfree2, hR, _, hres⟩ :=
    appendToSection_of_stop old line c hs h (www h) hsearch hstop hpos
  rw [hok] at hres
  have hnew : new = A0 ++ x :: (entryLine h ++ entryLast (www h) ++ x :: t :: (line ++ R)) := by
    cases hres
    rfl
  have h4 : bytes "127.0.0.1\t" = addr ++ [9] := by decide
  have h5 : bytes "\n127.0.0.1\twww." = 10 :: (addr ++ [9] ++ bytes "www.") := by decide
  have h6 : bytes "127.0.0.1\twww." = addr ++ [9] ++ bytes "www." := by decide
  have h7 : bytes "\n" = [10] := by decide
  have htake : old.take (A0.length + 1) = A0 ++ [x] := by
    rw [hfile]
    have : A0 ++ x :: t :: (line ++ R) = (A0 ++ [x]) ++ t :: (line ++ R) := by simp
    rw [this]
    exact List.take_left' (by simp)
  have hdrop : old.drop (A0.length + 1) = t :: (line ++ R) := by
    rw [hfile]
    have : A0 ++ x :: t :: (line ++ R) = (A0 ++ [x]) ++ t :: (line ++ R) := by simp
    rw [this]
    exact List.drop_left' (by simp)
  have hx : (old.drop (A0.length + 1 - 1)).take 1 = [x] := by
    rw [hfile]
    simp
  refine ⟨A0.length + 1, t, line, R, by omega, hdrop, ht, hline, hfree, hfree2, hR, ?_, ?_⟩
  · rw [htake, hdrop, hx, hnew, h4, h5]
    simp [entryLine, entryLast, www]
  · rw [hnew, hfile, h4, h6, h7]
    simp [entryLine, entryLast, www]
    omega

/-- Claim C13, an instance: a host added to the section that the program wrote. -/
theorem extend_is_insertion_witness :
    ∃ p t line R, 1 ≤ p
      ∧ (bytes "x\n# Added by sitebegone\n\n# End of sitebegone section\n\n").drop p
        = t :: (line ++ R)
      ∧ isTerm t ∧ sectionEnd <:+: line ∧ (∀ b ∈ line.dropLast, ¬ isTerm b)
      ∧ (R ≠ [] → ∀ b ∈ line, ¬ isTerm b) ∧ Skipped R
      ∧ bytes "x\n# Added by sitebegone\n127.0.0.1\ta\n127.0.0.1\twww.a\n\n# End of sitebegone section\n\n"
        = (bytes "x\n# Added by sitebegone\n\n# End of sitebegone section\n\n").take p
          ++ (bytes "127.0.0.1\t" ++ bytes "a" ++ bytes "\n127.0.0.1\twww." ++ bytes "a"
            ++ ((bytes "x\n# Added by sitebegone\n\n# End of sitebegone section\n\n").drop
              (p - 1)).take 1)
          ++ (bytes "x\n# Added by sitebegone\n\n# End of sitebegone section\n\n").drop p
      ∧ (bytes "x\n# Added by sitebegone\n127.0.0.1\ta\n127.0.0.1\twww.a\n\n# End of sitebegone section\n\n").length
        = (bytes "x\n# Added by sitebegone\n\n# End of sitebegone section\n\n").length
          + (bytes "127.0.0.1\t" ++ bytes "a" ++ bytes "\n").length
          + (bytes "127.0.0.1\twww." ++ bytes "a" ++ bytes "\n").length :=
  extend_is_insertion (bytes "x\n# Added by sitebegone\n\n# End of sitebegone section\n\n")
    (bytes "x\n# Added by sitebegone\n127.0.0.1\ta\n127.0.0.1\twww.a\n\n# End of sitebegone section\n\n")
    (bytes "a") [] (by decide)

/-- Claim C14 fails on the code.  The file is one line of 65536 bytes `x`, without marker
lines.  The run with `a.org` appends a section; the scanner gives up at the first line of the
new file too, so the run with `b.org` reads no host, finds no section and appends a second
section.  On the file after the two runs `sectionFound` returns false and `getHosts` returns
the empty list, not the four names. -/
theorem runs_after_long_line :
    NoSection longLine
      ∧ runs plainName longLine [bytes "a.org", bytes "b.org"]
        = longLine ++ bytes "\n# Added by sitebegone\n\n127.0.0.1\ta.org\n127.0.0.1\twww.a.org\n\n# End of sitebegone section\n\n\n# Added by sitebegone\n\n127.0.0.1\tb.org\n127.0.0.1\twww.b.org\n\n# End of sitebegone section\n\n"
      ∧ sectionFound (runs plainName longLine [bytes "a.org", bytes "b.org"]) = .ok false
      ∧ getHosts plainName (runs plainName longLine [bytes "a.org", bytes "b.org"]) = .ok []
      ∧ withVariants [bytes "a.org", bytes "b.org"]
        = [bytes "a.org", bytes "www.a.org", bytes "b.org", bytes "www.b.org"] := by
  have hruns : runs plainName longLine [bytes "a.org", bytes "b.org"]
      = longLine ++ bytes "\n# Added by sitebegone\n\n127.0.0.1\ta.org\n127.0.0.1\twww.a.org\n\n# End of sitebegone section\n\n\n# Added by sitebegone\n\n127.0.0.1\tb.org\n127.0.0.1\twww.b.org\n\n# End of sitebegone section\n\n" := by
    have h1 := main_longLine plainName [] (bytes "a.org")
    rw [List.append_nil] at h1
    have h2 : newSection (newSection [] [bytes "a.org", www (bytes "a.org")])
          [bytes "b.org", www (bytes "b.org")]
        = bytes "\n# Added by sitebegone\n\n127.0.0.1\ta.org\n127.0.0.1\twww.a.org\n\n# End of sitebegone section\n\n\n# Added by sitebegone\n\n127.0.0.1\tb.org\n127.0.0.1\twww.b.org\n\n# End of sitebegone section\n\n" := by
      decide
    rw [runs, h1]
    simp only
    rw [runs, main_longLine]
    simp only
    rw [runs, h2]
  refine ⟨⟨?_, ?_⟩, hruns, ?_, ?_, by decide⟩
  · intro h
    unfold specHasLine at h
    rw [specLines_longLine_alone] at h
    exact longLine_ne_sectionBegin (List.mem_singleton.1 h).symm
  · intro h
    unfold specHasLine at h
    rw [specLines_longLine_alone] at h
    exact longLine_ne_sectionEnd (List.mem_singleton.1 h).symm
  · rw [hruns]
    exact sectionFound_of_no_lines _ (scanLines_longLine _)
  · rw [hruns]
    exact getHosts_of_no_lines _ _ (scanLines_longLine _)

/-- Claim C15, amended: where the line of the end marker follows a line feed and the text of
the end marker does not come again after that line, the backward search of `appendToSection`
stops at that line.  The line it returns is the end marker, with the rest of the file where at
most one byte follows the marker: the last byte of the file is taken into the line whatever it
is.  The cursor is on the line feed before the line. -/
theorem locator_stops_on_end_marker (pre e2 tail : List Byte) (he2 : LineEnd e2 tail)
    (htail : stringsContains tail sectionEnd = false) :
    searchLoop (pre ++ 10 :: (sectionEnd ++ (e2 ++ tail)))
        ((pre ++ 10 :: (sectionEnd ++ (e2 ++ tail))).length + 1) 0
      = .ok (if (e2 ++ tail).length ≤ 1 then sectionEnd ++ (e2 ++ tail) else sectionEnd,
          -((sectionEnd ++ (e2 ++ tail)).length : Int) - 1) :=
  searchLoop_found pre sectionEnd (e2 ++ tail) 10 (Or.inl rfl) sectionEnd_free
    (List.infix_refl _) (passable_lineEnd e2 tail he2 htail)

/-- Claim C15, an instance of the amended claim: the section that the program wrote, after one
line; the search returns the end marker itself. -/
theorem locator_stops_on_end_marker_witness :
    searchLoop (bytes "x\n# Added by sitebegone\n" ++ 10 :: (sectionEnd ++ ([10] ++ [10])))
        ((bytes "x\n# Added by sitebegone\n" ++ 10 :: (sectionEnd ++ ([10] ++ [10]))).length + 1)
        0
      = .ok (if ([10] ++ [10] : List Byte).length ≤ 1 then sectionEnd ++ ([10] ++ [10])
          else sectionEnd, -((sectionEnd ++ ([10] ++ [10])).length : Int) - 1) :=
  locator_stops_on_end_marker (bytes "x\n# Added by sitebegone\n") [10] [10] (by decide)
    (by decide)

/-- Claim C15 as stated fails: where the line of the end marker is the last line of the file,
the search stops with that line and the line feed that ends the file, which is not the end
marker; `sectionFound` is true on the file. -/
theorem locator_line_is_not_marker :
    sectionFound (bytes "# Added by sitebegone\n\n# End of sitebegone section\n") = .ok true
      ∧ searchLoop (bytes "# Added by sitebegone\n\n# End of sitebegone section\n")
          ((bytes "# Added by sitebegone\n\n# End of sitebegone section\n").length + 1) 0
        = .ok (bytes "# End of sitebegone section\n", -29)
      ∧ bytes "# End of sitebegone section\n" ≠ sectionEnd := by
  decide

/-- Claim C16, amended: `k` bytes before the end of a file with more than `k` bytes,
`findSection` returns a line and a cursor `c` with `-N ≤ c < -k`.  The bytes before the offset
`-k` are `A ++ L ++ X`: `L` has no line terminator, `A` is empty or ends in a line terminator,
and `X` is empty, but from the end of the file (`k = 0`) it is the last byte, taken whatever it
is.  The line is `L ++ X`; the cursor is on the line terminator that ends `A`, or on the first
byte of the file where `A` is empty. -/
theorem backward_line_extraction (file : List Byte) (k : Nat) (hk : k < file.length) :
    ∃ line c, findSection file (-(k : Int)) = .ok (line, c)
      ∧ -(file.length : Int) ≤ c ∧ c < -(k : Int)
      ∧ ∃ A L X, file.take (file.length - k) = A ++ L ++ X ∧ line = L ++ X
        ∧ (∀ b ∈ L, ¬ isTerm b) ∧ (k = 0 → X.length = 1) ∧ (k ≠ 0 → X = [])
        ∧ ((A = [] ∧ c = -(file.length : Int))
          ∨ ∃ A2 t, A = A2 ++ [t] ∧ isTerm t ∧ c = -((t :: line).length + k : Int)) :=
  findSection_spec file k hk

/-- Claim C16, an instance of the amended claim: the call from the offset `-1`. -/
theorem backward_line_extraction_witness :
    ∃ line c, findSection (bytes "a\nbc\n") (-((1 : Nat) : Int)) = .ok (line, c)
      ∧ -((bytes "a\nbc\n").length : Int) ≤ c ∧ c < -((1 : Nat) : Int)
      ∧ ∃ A L X, (bytes "a\nbc\n").take ((bytes "a\nbc\n").length - 1) = A ++ L ++ X
        ∧ line = L ++ X
        ∧ (∀ b ∈ L, ¬ isTerm b) ∧ (1 = 0 → X.length = 1) ∧ (1 ≠ 0 → X = [])
        ∧ ((A = [] ∧ c = -((bytes "a\nbc\n").length : Int))
          ∨ ∃ A2 t, A = A2 ++ [t] ∧ isTerm t ∧ c = -((t :: line).length + (1 : Nat) : Int)) :=
  backward_line_extraction (bytes "a\nbc\n") 1 (by decide)

/-- Claim C16 as stated fails: from the end of a file that ends in a line feed, the line
returned contains that line feed, and the cursor is not on it, the nearest line terminator
before the offset 0, but on the first byte of the file. -/
theorem backward_line_with_terminator :
    findSection (bytes "a\n") 0 = .ok (bytes "a\n", -2)
      ∧ 10 ∈ bytes "a\n"
      ∧ (bytes "a\n").get? ((bytes "a\n").length - 1) = some 10 := by
  decide

/-- Claim C17: the search of `appendToSection` ends within its budget of `N + 1` calls, it
reads at most `N` bytes, it stops on a line that contains the text of the end marker where the
file has that text, and otherwise it fails on the seek before the beginning of the file. -/
theorem search_terminates (file : List Byte) :
    searchLoop file (file.length + 1) 0 ≠ .error .fuel
      ∧ searchReads file (file.length + 1) 0 ≤ file.length
      ∧ (sectionEnd <:+: file →
        ∃ line c, searchLoop file (file.length + 1) 0 = .ok (line, c)
          ∧ stringsContains line sectionEnd = true ∧ line <:+: file)
      ∧ (¬ sectionEnd <:+: file → searchLoop file (file.length + 1) 0 = .error .seek) := by
  refine ⟨searchLoop_ne_fuel file _ 0 (le_refl _) (by omega) (by push_cast; omega), ?_, ?_,
    (searchLoop_spec file).1⟩
  · have := searchReads_le file (file.length + 1) 0 (by omega) (le_refl _)
    omega
  · intro h
    obtain ⟨line, c, hsearch, A, R, hfile, hline, _⟩ := (searchLoop_spec file).2 h
    exact ⟨line, c, hsearch, (stringsContains_iff _ _).2 hline, ⟨A, R, hfile.symm⟩⟩

/-- Claim C18: on a file with a line of the start marker before a line of the end marker, and
with at least two hosts, `sectionFound` is true and `appendToSection` returns: the search
stops, the seek to the byte before the cursor goes to an offset inside the file, and the last
two hosts are there to be written. -/
theorem extend_cannot_fail (file : List Byte) (l1 l2 l3 hosts : List (List Byte))
    (hlines : scanLines file = l1 ++ sectionBegin :: l2 ++ sectionEnd :: l3)
    (hlen : 2 ≤ hosts.length) :
    sectionFound file = .ok true
      ∧ (∃ line c p, searchLoop file (file.length + 1) 0 = .ok (line, c)
          ∧ seekEnd file (c - 1) = some p ∧ seekEnd file c = some (p + 1)
          ∧ p + 1 < file.length)
      ∧ ∃ new, appendToSection file hosts = .ok new := by
  obtain ⟨W, Z, hfile, hW⟩ := bytes_of_marker_lines file l1 l2 l3 hlines
  obtain ⟨hs, h1, h2, hhosts⟩ := exists_last_two hosts hlen
  have hb : hasLine file sectionBegin := by unfold hasLine; rw [hlines]; simp
  have he : hasLine file sectionEnd := by unfold hasLine; rw [hlines]; simp
  have hinf : sectionEnd <:+: file := ⟨W ++ [10], Z, by rw [hfile]; simp⟩
  obtain ⟨line, c, hsearch, hstop⟩ := (searchLoop_spec file).2 hinf
  have hpos := stopsAt_after file W Z line c hfile hW hstop
  obtain ⟨A0, x, t, R, hfile2, _, _, _, _, _, hseek, hres⟩ :=
    appendToSection_of_stop file line c hs h1 h2 hsearch hstop hpos
  refine ⟨sectionFound_of_hasLine file hb he, ⟨line, c, A0.length, hsearch, hseek, ?_, ?_⟩,
    ⟨_, by rw [hhosts]; exact hres⟩⟩
  · have h1s := seekEnd_eq_some file _ _ hseek
    unfold seekEnd
    have : 0 ≤ (file.length : Int) + c := by omega
    rw [if_pos this]
    congr 1
    omega
  · rw [hfile2]
    simp

/-- Claim C18, an instance: the section that the program wrote, after one line. -/
theorem extend_cannot_fail_witness :
    sectionFound (bytes "x\n# Added by sitebegone\n\n# End of sitebegone section\n\n") = .ok true
      ∧ (∃ line c p,
          searchLoop (bytes "x\n# Added by sitebegone\n\n# End of sitebegone section\n\n")
            ((bytes "x\n# Added by sitebegone\n\n# End of sitebegone section\n\n").length + 1) 0
            = .ok (line, c)
          ∧ seekEnd (bytes "x\n# Added by sitebegone\n\n# End of sitebegone section\n\n") (c - 1)
            = some p
          ∧ seekEnd (bytes "x\n# Added by sitebegone\n\n# End of sitebegone section\n\n") c
            = some (p + 1)
          ∧ p + 1 < (bytes "x\n# Added by sitebegone\n\n# End of sitebegone section\n\n").length)
      ∧ ∃ new, appendToSection (bytes "x\n# Added by sitebegone\n\n# End of sitebegone section\n\n")
          [bytes "a", bytes "www.a"] = .ok new :=
  extend_cannot_fail (bytes "x\n# Added by sitebegone\n\n# End of sitebegone section\n\n")
    [bytes "x"] [[]] [[]] [bytes "a", bytes "www.a"] (by decide) (by decide)

end Sitebegone
